import Mathlib

/-!
Verification of the send2kindle content-extraction pipeline.

The JavaScript sources are shallowly embedded: strings are `List Char`,
JavaScript objects become structures with `Option` fields (absent/null
properties are `none`), fallible functions return `Except`, and the
platform's regular-expression operations are re-implemented as executable
scanners that follow the source patterns literally.
-/

namespace SendToKindle

/-- Strings are modelled as lists of characters. -/
abbrev Str := List Char

/-- Does `s` start with `pat`?  (JavaScript `String.prototype.startsWith`.) -/
def strStartsWith : Str → Str → Bool
  | _, [] => true
  | [], _ :: _ => false
  | c :: cs, p :: ps => c == p && strStartsWith cs ps

/-- Does `s` contain `pat` as a contiguous substring?
(JavaScript `String.prototype.includes`.) -/
def jsIncludes : Str → Str → Bool
  | s, pat =>
    if strStartsWith s pat then true
    else
      match s with
      | [] => false
      | _ :: rest => jsIncludes rest pat

/-- `strStartsWith` agrees with prefix decomposition. -/
theorem strStartsWith_iff (s pat : Str) :
    strStartsWith s pat = true ↔ ∃ t, s = pat ++ t := by
  induction pat generalizing s with
  | nil => simp [strStartsWith]
  | cons p ps ih =>
    cases s with
    | nil => simp [strStartsWith]
    | cons c cs =>
      simp only [strStartsWith, Bool.and_eq_true, beq_iff_eq, ih]
      constructor
      · rintro ⟨rfl, t, rfl⟩; exact ⟨t, rfl⟩
      · rintro ⟨t, h⟩
        cases h
        exact ⟨rfl, t, rfl⟩

/-- `jsIncludes` agrees with substring decomposition. -/
theorem jsIncludes_iff (s pat : Str) :
    jsIncludes s pat = true ↔ ∃ p q, s = p ++ pat ++ q := by
  induction s with
  | nil =>
    cases pat with
    | nil => simp [jsIncludes, strStartsWith]
    | cons p ps =>
      rw [jsIncludes]
      simp [strStartsWith]
  | cons c cs ih =>
    rw [jsIncludes]
    split
    · rename_i hs
      obtain ⟨t, ht⟩ := (strStartsWith_iff _ pat).1 hs
      simp only [true_iff]
      exact ⟨[], t, by simpa using ht⟩
    · rename_i hs
      simp only [ih]
      constructor
      · rintro ⟨p, q, rfl⟩
        exact ⟨c :: p, q, rfl⟩
      · rintro ⟨p, q, h⟩
        cases p with
        | nil =>
          exfalso
          apply hs
          rw [strStartsWith_iff]
          exact ⟨q, by simpa using h⟩
        | cons x xs =>
          obtain ⟨rfl, h2⟩ := by simpa using h
          refine ⟨xs, q, ?_⟩
          simpa [List.append_assoc] using h2

/-! ## Extraction router / social-post classification (src/extractors/twitter.js) -/

/-- `isTwitterUrl` from src/extractors/twitter.js:
`(url.includes('x.com/') || url.includes('twitter.com/')) && url.includes('/status/')`. -/
def isTwitterUrl (url : Str) : Bool :=
  (jsIncludes url "x.com/".toList || jsIncludes url "twitter.com/".toList)
    && jsIncludes url "/status/".toList

/-- C1: the social-post classification returns true iff the URL contains one of
the two recognized host substrings and contains a `/status/` segment; an
unrelated host classifies false, and a recognized host without `/status/`
classifies false. -/
theorem isTwitterUrl_correct :
    (∀ url : Str, isTwitterUrl url = true ↔
      (((∃ p q, url = p ++ "x.com/".toList ++ q) ∨
        (∃ p q, url = p ++ "twitter.com/".toList ++ q)) ∧
        (∃ p q, url = p ++ "/status/".toList ++ q))) ∧
    isTwitterUrl "https://example.com/status/123".toList = false ∧
    isTwitterUrl "https://x.com/some_user".toList = false ∧
    isTwitterUrl "https://x.com/user/status/81".toList = true ∧
    isTwitterUrl "https://twitter.com/u/status/9".toList = true := by
  refine ⟨fun url => ?_, by decide, by decide, by decide, by decide⟩
  simp only [isTwitterUrl, Bool.and_eq_true, Bool.or_eq_true, jsIncludes_iff]

/-! ## Shared JavaScript value helpers -/

/-- JavaScript `x || dflt` for a possibly absent string: `null`/`undefined`
and the empty string are falsy. -/
def jsOrStr (x : Option Str) (dflt : Str) : Str :=
  match x with
  | none => dflt
  | some s => if s.isEmpty then dflt else s

/-- JavaScript truthiness of a possibly absent string. -/
def strTruthy (x : Option Str) : Bool :=
  match x with
  | none => false
  | some s => !s.isEmpty

/-- Decimal rendering of a number, as used in template literals. -/
def natToStr (n : Nat) : Str :=
  (Nat.repr n).toList

/-! ## The shared extractor output contract -/

/-- The NormalizedDocument record shape every extractor returns
(`title`, `content`, `textContent`, `byline`, `siteName`). -/
structure NormalizedDocument where
  title : Str
  content : Str
  textContent : Option Str
  byline : Option Str
  siteName : Option Str
deriving DecidableEq

/-! ## Generic article extractor (src/extractors/article.js) -/

/-- The result object of `new Readability(dom.window.document).parse()`:
either `null` or a record whose fields may individually be absent.
The Readability library is an external collaborator; its output is a
parameter of the embedding. -/
structure ReadabilityArticle where
  title : Option Str
  content : Option Str
  textContent : Option Str
  byline : Option Str
  siteName : Option Str
deriving DecidableEq

/-- The part of a `fetch` response observed by the extractor. -/
structure HttpResponse where
  ok : Bool
  status : Nat
deriving DecidableEq

/-- Error message for a non-successful HTTP response. -/
def httpErrorMsg (status : Nat) : Str :=
  "HTTP error! status: ".toList ++ natToStr status

/-- Error message for failed content extraction. -/
def noContentMsg : Str :=
  "Could not extract meaningful content from URL".toList

/-- `extractArticle` from src/extractors/article.js, with the network fetch and
the Readability parse supplied as data: throw on `!response.ok`; throw when
`!article || !article.content || article.content.length < 100`; otherwise
return the normalized record with `article.title || 'Article'`. -/
def extractArticle (resp : HttpResponse) (parsed : Option ReadabilityArticle) :
    Except Str NormalizedDocument :=
  if !resp.ok then
    .error (httpErrorMsg resp.status)
  else
    match parsed with
    | none => .error noContentMsg
    | some a =>
      match a.content with
      | none => .error noContentMsg
      | some c =>
        if c.length < 100 then
          .error noContentMsg
        else
          .ok ⟨jsOrStr a.title "Article".toList, c, a.textContent, a.byline, a.siteName⟩

/-- The length of the extracted body, 0 when no article or no content field. -/
def heuristicBodyLen (parsed : Option ReadabilityArticle) : Nat :=
  match parsed with
  | none => 0
  | some a => ((a.content).getD []).length

/-- C2: the generic article extractor fails exactly on a non-successful HTTP
status (error carrying the status code) or on missing/short (< 100 chars)
extracted content (content-extraction error); otherwise it succeeds and the
title falls back to "Article" when the page supplies none. -/
theorem extractArticle_error_spec :
    ∀ (resp : HttpResponse) (parsed : Option ReadabilityArticle),
      (resp.ok = false →
        extractArticle resp parsed = .error (httpErrorMsg resp.status)) ∧
      ((∃ e, extractArticle resp parsed = .error e) ↔
        (resp.ok = false ∨ heuristicBodyLen parsed < 100)) ∧
      (resp.ok = true → heuristicBodyLen parsed < 100 →
        extractArticle resp parsed = .error noContentMsg) ∧
      (resp.ok = true → ¬ heuristicBodyLen parsed < 100 →
        ∃ a doc, parsed = some a ∧ extractArticle resp parsed = .ok doc ∧
          doc.title = jsOrStr a.title "Article".toList ∧
          (strTruthy a.title = false → doc.title = "Article".toList)) := by
  intro resp parsed
  cases resp with
  | mk ok status =>
    cases ok with
    | false =>
      refine ⟨fun _ => rfl, ?_, by simp, by simp⟩
      simp only [true_or, iff_true, extractArticle]
      exact ⟨_, rfl⟩
    | true =>
      refine ⟨by simp, ?_, ?_, ?_⟩
      · cases parsed with
        | none =>
          exact iff_of_true ⟨_, rfl⟩ (Or.inr (by simp [heuristicBodyLen]))
        | some a =>
          cases hc : a.content with
          | none =>
            refine iff_of_true ⟨noContentMsg, ?_⟩
              (Or.inr (by simp [heuristicBodyLen, hc]))
            simp [extractArticle, hc]
          | some c =>
            by_cases h : c.length < 100
            · refine iff_of_true ⟨noContentMsg, ?_⟩
                (Or.inr (by simp [heuristicBodyLen, hc, h]))
              simp [extractArticle, hc, h]
            · refine iff_of_false ?_ ?_
              · rintro ⟨e, he⟩
                simp [extractArticle, hc, h] at he
              · simp [heuristicBodyLen, hc, h]
      · intro _ hshort
        cases parsed with
        | none => rfl
        | some a =>
          cases hc : a.content with
          | none => simp [extractArticle, hc]
          | some c =>
            simp only [heuristicBodyLen, hc, Option.getD_some] at hshort
            simp [extractArticle, hc, hshort]
      · intro _ hlong
        cases parsed with
        | none => simp [heuristicBodyLen] at hlong
        | some a =>
          cases hc : a.content with
          | none => simp [heuristicBodyLen, hc] at hlong
          | some c =>
            simp only [heuristicBodyLen, hc, Option.getD_some] at hlong
            refine ⟨a, ⟨jsOrStr a.title "Article".toList, c, a.textContent,
              a.byline, a.siteName⟩, rfl, ?_, rfl, ?_⟩
            · simp [extractArticle, hc, hlong]
            · intro ht
              simp only [jsOrStr]
              cases hT : a.title with
              | none => rfl
              | some t =>
                simp [strTruthy, hT] at ht
                simp [ht]

/-- Witness for C2 at concrete inputs: a 404 response produces the HTTP error
with the status code in the message, and a successful response with a long
body but no title yields the fallback title "Article". -/
theorem extractArticle_error_spec_witness :
    extractArticle ⟨false, 404⟩ none = .error "HTTP error! status: 404".toList ∧
    ∃ a doc,
      some (⟨none, some (List.replicate 120 'x'), none, none, none⟩ :
          ReadabilityArticle) = some a ∧
      extractArticle ⟨true, 200⟩
        (some ⟨none, some (List.replicate 120 'x'), none, none, none⟩) = .ok doc ∧
      doc.title = jsOrStr a.title "Article".toList ∧
      (strTruthy a.title = false → doc.title = "Article".toList) := by
  constructor
  · have h := (extractArticle_error_spec ⟨false, 404⟩ none).1 rfl
    simpa [httpErrorMsg, natToStr, Nat.repr] using h
  · exact (extractArticle_error_spec ⟨true, 200⟩
      (some ⟨none, some (List.replicate 120 'x'), none, none, none⟩)).2.2.2
      rfl (by simp [heuristicBodyLen])

/-! ## Book mode (send2kindle.js: parseArgs / handleBookMode) -/

/-- Does `s` end with `pat`?  (JavaScript `String.prototype.endsWith`.) -/
def strEndsWith (s pat : Str) : Bool :=
  strStartsWith s.reverse pat.reverse

/-- JavaScript `String.prototype.toLowerCase` (ASCII-faithful). -/
def strToLower (s : Str) : Str :=
  s.map Char.toLower

/-- `getInputType` from src/utils.js; the filesystem check is an oracle. -/
def getInputType (fsExists : Str → Bool) (input : Str) : Str :=
  if strStartsWith input "http://".toList || strStartsWith input "https://".toList then
    "url".toList
  else if strEndsWith (strToLower input) ".pdf".toList then
    "pdf".toList
  else if fsExists input then
    "file".toList
  else
    "unknown".toList

/-- The parsed command-line argument record built by `parseArgs`. -/
structure CliArgs where
  debug : Bool
  inputs : List Str
  book : Option Str
  author : Option Str

/-- The record handed to `convertBookToEpub` by `handleBookMode`. -/
structure BookSpec where
  chapters : List (Str × Str)
  title : Option Str
  author : Option Str
  debugMode : Bool

/-- JavaScript `a || b` over nullable strings. -/
def jsOrOpt (a b : Option Str) : Option Str :=
  if strTruthy a then a else b

/-- `handleBookMode` from send2kindle.js, with the filesystem probe and the
per-URL extraction supplied as data (extraction failures would propagate and
are outside this claim): validate that every input is a URL and that at least
two are given, extract each, map to chapters, and compute
`args.author || articles[0]?.byline || articles[0]?.siteName || null`. -/
def handleBookMode (fsExists : Str → Bool) (extractFn : Str → NormalizedDocument)
    (args : CliArgs) : Except Str BookSpec :=
  if args.inputs.any (fun u => !(getInputType fsExists u == "url".toList)) then
    .error "Book mode only supports URLs as inputs".toList
  else if args.inputs.length < 2 then
    .error "Book mode requires at least 2 URLs".toList
  else
    let articles := args.inputs.map extractFn
    let chapters := articles.map (fun a => (a.title, a.content))
    let byline0 : Option Str := (articles.head?).bind (·.byline)
    let site0 : Option Str := (articles.head?).bind (·.siteName)
    let author := jsOrOpt args.author (jsOrOpt byline0 (jsOrOpt site0 none))
    .ok ⟨chapters, args.book, author, args.debug⟩

/-- C5-style counterexample input for C9: no `--author`, first chapter byline
absent but siteName present. -/
def c9Args : CliArgs :=
  ⟨false, ["https://a.example/one".toList, "https://a.example/two".toList],
    some "My Book".toList, none⟩

/-- C9 counterexample: with no explicit author and a first chapter whose
byline is absent but whose siteName is "MySite", the assembled book's author
is "MySite", not null as the claim states. -/
theorem handleBookMode_author_counterexample :
    (handleBookMode (fun _ => false)
        (fun _ => ⟨"Ch".toList, "<p>c</p>".toList, none, none, some "MySite".toList⟩)
        c9Args).map (·.author) = .ok (some "MySite".toList) ∧
    some "MySite".toList ≠ (none : Option Str) := by
  constructor
  · rfl
  · simp

/-- C9 (amended): in book mode without an explicit author, the assembled
book's author is the first chapter's byline when that is truthy, else the
first chapter's siteName when that is truthy, else null. -/
theorem handleBookMode_author_fallback :
    ∀ (fsExists : Str → Bool) (extractFn : Str → NormalizedDocument)
      (args : CliArgs) (spec : BookSpec),
      handleBookMode fsExists extractFn args = .ok spec →
      strTruthy args.author = false →
      let byline0 := ((args.inputs.map extractFn).head?).bind (·.byline)
      let site0 := ((args.inputs.map extractFn).head?).bind (·.siteName)
      (strTruthy byline0 = true → spec.author = byline0) ∧
      (strTruthy byline0 = false → strTruthy site0 = true → spec.author = site0) ∧
      (strTruthy byline0 = false → strTruthy site0 = false → spec.author = none) := by
  intro fsExists extractFn args spec hok hauthor byline0 site0
  have hspec : spec.author = jsOrOpt args.author (jsOrOpt byline0 (jsOrOpt site0 none)) := by
    unfold handleBookMode at hok
    split at hok
    · simp at hok
    · split at hok
      · simp at hok
      · simp only [Except.ok.injEq] at hok
        subst hok
        rfl
  refine ⟨?_, ?_, ?_⟩
  · intro hb
    rw [hspec]
    simp [jsOrOpt, hauthor, hb]
  · intro hb hs
    rw [hspec]
    simp [jsOrOpt, hauthor, hb, hs]
  · intro hb hs
    rw [hspec]
    simp [jsOrOpt, hauthor, hb, hs]

/-- Witness for C9 (amended) at a concrete input: byline "Jane" present on the
first chapter, no explicit author, so the book author is "Jane". -/
theorem handleBookMode_author_fallback_witness :
    ∃ spec : BookSpec,
      handleBookMode (fun _ => false)
        (fun _ => ⟨"Ch".toList, "<p>c</p>".toList, none, some "Jane".toList, none⟩)
        c9Args = .ok spec ∧ spec.author = some "Jane".toList := by
  refine ⟨⟨[("Ch".toList, "<p>c</p>".toList), ("Ch".toList, "<p>c</p>".toList)],
    some "My Book".toList, some "Jane".toList, false⟩, rfl, ?_⟩
  have h := (handleBookMode_author_fallback (fun _ => false)
    (fun _ => ⟨"Ch".toList, "<p>c</p>".toList, none, some "Jane".toList, none⟩)
    c9Args
    ⟨[("Ch".toList, "<p>c</p>".toList), ("Ch".toList, "<p>c</p>".toList)],
      some "My Book".toList, some "Jane".toList, false⟩ rfl rfl).1 (by rfl)
  exact h.trans rfl

/-! ## Twitter article rendering (src/extractors/twitter.js) -/

/-- JavaScript whitespace characters recognised by `String.prototype.trim`
(ASCII portion; the sources never produce the exotic Unicode spaces). -/
def jsWsChar (c : Char) : Bool :=
  c == ' ' || c == '\t' || c == '\n' || c == '\r' || c == '\x0b' || c == '\x0c'

/-- JavaScript `String.prototype.trim`. -/
def jsTrim (s : Str) : Str :=
  ((s.dropWhile jsWsChar).reverse.dropWhile jsWsChar).reverse

/-- An insertion-ordered JavaScript `Map` keyed by strings; a later `set` of
the same key wins. -/
abbrev JsMap (V : Type) : Type := List (Str × V)

/-- `Map.prototype.set` (observationally: append, last entry wins). -/
def mapSet {V : Type} (m : JsMap V) (k : Str) (v : V) : JsMap V :=
  m ++ [(k, v)]

/-- `Map.prototype.get` (`none` plays undefined). -/
def mapGet {V : Type} (m : JsMap V) (k : Str) : Option V :=
  (m.reverse.find? (fun p => p.1 == k)).map (·.2)

/-- `Map.prototype.has`. -/
def mapHas {V : Type} (m : JsMap V) (k : Str) : Bool :=
  m.any (fun p => p.1 == k)

/-- JavaScript `String(x)` for a possibly absent key: `String(undefined)` is
the literal string "undefined". -/
def strOfKey (k : Option Str) : Str :=
  match k with
  | none => "undefined".toList
  | some s => s

/-- `media_info` of a media entity. -/
structure MediaInfo where
  original_img_url : Option Str

/-- One element of `tweet.article.media_entities`. -/
structure MediaEntity where
  media_id : Option Str
  media_info : Option MediaInfo

/-- One element of `entry.value.data.mediaItems`. -/
structure MediaItem where
  mediaId : Option Str

/-- The `data` payload of an entity-map entry. -/
structure EntityData where
  mediaItems : Option (List MediaItem)
  tweetId : Option Str

/-- The `value` of an entity-map entry. -/
structure EntityValue where
  type : Option Str
  data : Option EntityData

/-- One entry of `tweet.article.content.entityMap`. -/
structure EntityMapEntry where
  key : Option Str
  value : Option EntityValue

/-- One element of a block's `entityRanges`. -/
structure EntityRange where
  key : Option Str

/-- One rich-text block of `tweet.article.content.blocks`; any field may be
absent. -/
structure RichBlock where
  text : Option Str
  type : Option Str
  entityRanges : Option (List EntityRange)

/-- A resolved referenced tweet as stored by `fetchReferencedTweets`:
`{ author, handle, text, title, url }`. -/
structure RefTweet where
  author : Str
  handle : Str
  text : Str
  title : Option Str
  url : Str

instance : Inhabited RefTweet := ⟨⟨[], [], [], none, []⟩⟩

/-- `buildMediaLookup` from src/extractors/twitter.js: entity-map key (as a
string) to original image URL, via the `media_entities` list. -/
def buildMediaLookup (entityMap : Option (List EntityMapEntry))
    (mediaEntities : Option (List MediaEntity)) : JsMap Str :=
  match entityMap, mediaEntities with
  | some em, some me =>
    let mediaById : JsMap Str := me.foldl (fun m e =>
      let url := e.media_info.bind (·.original_img_url)
      if strTruthy e.media_id && strTruthy url then
        mapSet m (e.media_id.getD []) (url.getD [])
      else m) []
    em.foldl (fun l entry =>
      if (entry.value.bind (·.type)) == some "MEDIA".toList then
        let mediaId := ((entry.value.bind (·.data)).bind (·.mediaItems)).bind
          (fun items => items.head?.bind (·.mediaId))
        if strTruthy mediaId && mapHas mediaById (mediaId.getD []) then
          mapSet l (strOfKey entry.key) ((mapGet mediaById (mediaId.getD [])).getD [])
        else l
      else l) []
  | _, _ => []

/-- `buildDividerSet` from src/extractors/twitter.js: the set (here: list) of
entity keys whose value type is DIVIDER. -/
def buildDividerSet (entityMap : Option (List EntityMapEntry)) : List Str :=
  match entityMap with
  | none => []
  | some em =>
    em.foldl (fun s entry =>
      if (entry.value.bind (·.type)) == some "DIVIDER".toList then
        s ++ [strOfKey entry.key]
      else s) []

/-- The inline-image paragraph emitted for a resolved atomic MEDIA block. -/
def atomicImgHtml (imgUrl : Str) : Str :=
  "<p><img src=\"".toList ++ imgUrl ++
    "\" alt=\"Article image\" style=\"max-width: 100%;\"></p>\n".toList

/-- The styled blockquote emitted for a resolved quoted post. -/
def atomicQuoteHtml (tweet : RefTweet) : Str :=
  let heading := jsOrStr tweet.title
    (if tweet.text.length > 100 then tweet.text.take 100 ++ "...".toList else tweet.text)
  "<blockquote style=\"border-left: 3px solid #1da1f2; padding: 10px 15px; margin: 15px 0;\">\n".toList
    ++ "  <p><strong>".toList ++ heading ++ "</strong></p>\n".toList
    ++ "  <p><em>— ".toList ++ tweet.author ++ " (@".toList ++ tweet.handle
    ++ ")</em> · <a href=\"".toList ++ tweet.url ++ "\">View on X</a></p>\n".toList
    ++ "</blockquote>\n".toList

/-- The entity key of an atomic block: `String(block.entityRanges?.[0]?.key)`,
which is the literal "undefined" whenever the chain is absent. -/
def atomicEntityKey (block : RichBlock) : Str :=
  strOfKey ((block.entityRanges.bind List.head?).bind (·.key))

/-- The body of the rendering loop of `convertArticleBlocksToHtml`: the HTML
appended for one block.  The source's `has`/`get` pair on the tweet lookup is
collapsed into a single `get` (equivalent for a JavaScript `Map`). -/
def renderBlock (mediaLookup : JsMap Str) (dividerSet : List Str)
    (tweetLookup : JsMap RefTweet) (block : RichBlock) : Str :=
  let text := jsOrStr block.text []
  let type := jsOrStr block.type "unstyled".toList
  if type == "header-one".toList then "<h1>".toList ++ text ++ "</h1>\n".toList
  else if type == "header-two".toList then "<h2>".toList ++ text ++ "</h2>\n".toList
  else if type == "header-three".toList then "<h3>".toList ++ text ++ "</h3>\n".toList
  else if type == "blockquote".toList then
    "<blockquote>".toList ++ text ++ "</blockquote>\n".toList
  else if type == "code-block".toList then
    "<pre><code>".toList ++ text ++ "</code></pre>\n".toList
  else if type == "ordered-list-item".toList then "<li>".toList ++ text ++ "</li>\n".toList
  else if type == "unordered-list-item".toList then "<li>".toList ++ text ++ "</li>\n".toList
  else if type == "atomic".toList then
    let entityKey := atomicEntityKey block
    let imgUrl := mapGet mediaLookup entityKey
    if strTruthy imgUrl then atomicImgHtml (imgUrl.getD [])
    else if dividerSet.contains entityKey then "<hr>\n".toList
    else
      match mapGet tweetLookup entityKey with
      | some tweet => atomicQuoteHtml tweet
      | none => []
  else
    if (jsTrim text).isEmpty then "<br/>\n".toList
    else "<p>".toList ++ text ++ "</p>\n".toList

/-- `convertArticleBlocksToHtml` from src/extractors/twitter.js. -/
def convertArticleBlocksToHtml (blocks : List RichBlock)
    (entityMap : Option (List EntityMapEntry))
    (mediaEntities : Option (List MediaEntity))
    (referencedTweets : Option (JsMap RefTweet)) : Str :=
  let mediaLookup := buildMediaLookup entityMap mediaEntities
  let dividerSet := buildDividerSet entityMap
  let tweetLookup := referencedTweets.getD []
  (blocks.map (renderBlock mediaLookup dividerSet tweetLookup)).flatten

/-- Reduction of `renderBlock` on an atomic block. -/
theorem renderBlock_atomic (ml : JsMap Str) (ds : List Str) (tl : JsMap RefTweet)
    (b : RichBlock) (htype : jsOrStr b.type "unstyled".toList = "atomic".toList) :
    renderBlock ml ds tl b =
      (let entityKey := atomicEntityKey b
       let imgUrl := mapGet ml entityKey
       if strTruthy imgUrl then atomicImgHtml (imgUrl.getD [])
       else if ds.contains entityKey then "<hr>\n".toList
       else
         match mapGet tl entityKey with
         | some tweet => atomicQuoteHtml tweet
         | none => []) := by
  unfold renderBlock
  rw [htype]
  norm_num

/-- The tweet record used in the C5 counterexample. -/
def c5Tweet : RefTweet :=
  ⟨"Quoted Author".toList, "qa".toList, "Some quoted text".toList, none,
    "https://x.com/i/status/5".toList⟩

/-- The entity map used in the C5 counterexample: key "1" is a DIVIDER. -/
def c5EntityMap : List EntityMapEntry :=
  [⟨some "1".toList, some ⟨some "DIVIDER".toList, none⟩⟩]

/-- C5 counterexample: an atomic block whose entity key is simultaneously a
divider and a resolved quoted post renders a horizontal rule — the code
checks the divider set BEFORE the referenced-tweet lookup, so the claimed
priority order (image, then quote, then divider) is wrong. -/
theorem convertArticleBlocks_priority_counterexample :
    mapGet [("1".toList, c5Tweet)] "1".toList = some c5Tweet ∧
    strTruthy (mapGet (buildMediaLookup (some c5EntityMap) none) "1".toList) = false ∧
    convertArticleBlocksToHtml
      [⟨none, some "atomic".toList, some [⟨some "1".toList⟩]⟩]
      (some c5EntityMap) none (some [("1".toList, c5Tweet)]) = "<hr>\n".toList ∧
    jsIncludes
      (convertArticleBlocksToHtml
        [⟨none, some "atomic".toList, some [⟨some "1".toList⟩]⟩]
        (some c5EntityMap) none (some [("1".toList, c5Tweet)]))
      "<blockquote".toList = false := by
  refine ⟨rfl, rfl, rfl, by decide⟩

/-- C5 (amended): rendering is per-block and order preserving (so surrounding
non-atomic blocks stay intact and in order), and an atomic block resolves via
its first entity-range key in the priority order: inline image, then
horizontal rule if the key is a divider, then quoted-post blockquote, then
nothing; a missing or unmatched key never throws (the rendering is a total
function and yields the empty fragment). -/
theorem convertArticleBlocks_atomic_priority :
    (∀ (em : Option (List EntityMapEntry)) (me : Option (List MediaEntity))
       (tw : Option (JsMap RefTweet)) (xs ys : List RichBlock),
        convertArticleBlocksToHtml (xs ++ ys) em me tw =
          convertArticleBlocksToHtml xs em me tw ++
            convertArticleBlocksToHtml ys em me tw) ∧
    (∀ (ml : JsMap Str) (ds : List Str) (tl : JsMap RefTweet) (b : RichBlock),
      jsOrStr b.type "unstyled".toList = "atomic".toList →
      (strTruthy (mapGet ml (atomicEntityKey b)) = true →
        renderBlock ml ds tl b =
          atomicImgHtml ((mapGet ml (atomicEntityKey b)).getD [])) ∧
      (strTruthy (mapGet ml (atomicEntityKey b)) = false →
        ds.contains (atomicEntityKey b) = true →
        renderBlock ml ds tl b = "<hr>\n".toList) ∧
      (∀ t, strTruthy (mapGet ml (atomicEntityKey b)) = false →
        ds.contains (atomicEntityKey b) = false →
        mapGet tl (atomicEntityKey b) = some t →
        renderBlock ml ds tl b = atomicQuoteHtml t) ∧
      (strTruthy (mapGet ml (atomicEntityKey b)) = false →
        ds.contains (atomicEntityKey b) = false →
        mapGet tl (atomicEntityKey b) = none →
        renderBlock ml ds tl b = [])) := by
  constructor
  · intro em me tw xs ys
    simp [convertArticleBlocksToHtml]
  · intro ml ds tl b htype
    rw [renderBlock_atomic ml ds tl b htype]
    refine ⟨fun himg => by simp [himg], ?_, ?_, ?_⟩
    · intro himg hds
      have hds' : atomicEntityKey b ∈ ds := by simpa using hds
      simp [himg, hds']
    · intro t himg hds htl
      have hds' : atomicEntityKey b ∉ ds := by simpa using hds
      simp [himg, hds', htl]
    · intro himg hds htl
      have hds' : atomicEntityKey b ∉ ds := by simpa using hds
      simp [himg, hds', htl]

/-- Witness for C5 (amended) at concrete inputs: a paragraph before and after
an atomic image block, the image resolved through the media lookup. -/
theorem convertArticleBlocks_atomic_priority_witness :
    convertArticleBlocksToHtml
        ([⟨some "before".toList, none, none⟩] ++
          [⟨none, some "atomic".toList, some [⟨some "7".toList⟩]⟩,
           ⟨some "after".toList, none, none⟩])
        (some [⟨some "7".toList, some ⟨some "MEDIA".toList,
          some ⟨some [⟨some "m1".toList⟩], none⟩⟩⟩])
        (some [⟨some "m1".toList, some ⟨some "https://img/1.jpg".toList⟩⟩])
        none =
      "<p>before</p>\n".toList ++
        (atomicImgHtml "https://img/1.jpg".toList ++ "<p>after</p>\n".toList) ∧
    renderBlock (buildMediaLookup
        (some [⟨some "7".toList, some ⟨some "MEDIA".toList,
          some ⟨some [⟨some "m1".toList⟩], none⟩⟩⟩])
        (some [⟨some "m1".toList, some ⟨some "https://img/1.jpg".toList⟩⟩]))
      [] [] ⟨none, some "atomic".toList, some [⟨some "7".toList⟩]⟩ =
        atomicImgHtml "https://img/1.jpg".toList := by
  constructor
  · rw [(convertArticleBlocks_atomic_priority).1]
    rfl
  · have h := ((convertArticleBlocks_atomic_priority).2
      (buildMediaLookup
        (some [⟨some "7".toList, some ⟨some "MEDIA".toList,
          some ⟨some [⟨some "m1".toList⟩], none⟩⟩⟩])
        (some [⟨some "m1".toList, some ⟨some "https://img/1.jpg".toList⟩⟩]))
      [] [] ⟨none, some "atomic".toList, some [⟨some "7".toList⟩]⟩ rfl).1 rfl
    exact h.trans rfl

/-- C10 counterexample: an atomic block with no entity ranges is looked up
under the literal key "undefined" (JavaScript `String(undefined)`), so with
an entity map containing a DIVIDER entry whose key is the string "undefined"
the block renders a horizontal rule instead of being dropped. -/
theorem convertArticleBlocks_undefined_counterexample :
    convertArticleBlocksToHtml
        [⟨none, some "atomic".toList, none⟩]
        (some [⟨some "undefined".toList, some ⟨some "DIVIDER".toList, none⟩⟩])
        none none = "<hr>\n".toList ∧
    "<hr>\n".toList ≠ ([] : Str) := by
  exact ⟨rfl, by decide⟩

/-- C10 (amended): the block renderer is total (never throws); a missing
`type` renders exactly like an `unstyled` block; a missing `text` is the empty
string, so an unstyled block without text renders a line break; an atomic
block with no entity ranges resolves under the sentinel key "undefined" and
is silently dropped whenever no lookup matches that key; and absent entity
map, media-entities and referenced-tweet arguments behave like empty ones. -/
theorem convertArticleBlocks_total_defaults :
    (∀ (ml : JsMap Str) (ds : List Str) (tl : JsMap RefTweet) (b : RichBlock),
      b.type = none →
        renderBlock ml ds tl b = renderBlock ml ds tl ⟨b.text, some "unstyled".toList, b.entityRanges⟩) ∧
    (∀ (ml : JsMap Str) (ds : List Str) (tl : JsMap RefTweet) (b : RichBlock),
      b.text = none → (b.type = none ∨ b.type = some "unstyled".toList) →
        renderBlock ml ds tl b = "<br/>\n".toList) ∧
    (∀ (b : RichBlock), b.entityRanges = none ∨ b.entityRanges = some [] →
        atomicEntityKey b = "undefined".toList) ∧
    (∀ (ml : JsMap Str) (ds : List Str) (tl : JsMap RefTweet) (b : RichBlock),
      b.type = some "atomic".toList → b.entityRanges = none →
      strTruthy (mapGet ml "undefined".toList) = false →
      ds.contains "undefined".toList = false →
      mapGet tl "undefined".toList = none →
        renderBlock ml ds tl b = []) ∧
    (∀ blocks : List RichBlock,
        convertArticleBlocksToHtml blocks none none none =
          convertArticleBlocksToHtml blocks (some []) (some []) (some [])) := by
  refine ⟨?_, ?_, ?_, ?_, fun blocks => rfl⟩
  · intro ml ds tl b ht
    cases b with
    | mk text type ranges =>
      cases ht
      rfl
  · intro ml ds tl b htext htype
    cases b with
    | mk text type ranges =>
      cases htext
      rcases htype with h | h <;> cases h <;> rfl
  · intro b hr
    cases b with
    | mk text type ranges =>
      rcases hr with h | h <;> cases h <;> rfl
  · intro ml ds tl b htype hranges himg hds htl
    have ht : jsOrStr b.type "unstyled".toList = "atomic".toList := by
      rw [htype]; rfl
    rw [renderBlock_atomic ml ds tl b ht]
    have hk : atomicEntityKey b = "undefined".toList := by
      unfold atomicEntityKey
      rw [hranges]
      rfl
    have hds' : "undefined".toList ∉ ds := by simpa using hds
    simp only [String.toList] at himg hds' htl
    simp [hk, himg, hds', htl]

/-- Witness for C10 (amended) at concrete inputs: a block with no fields at
all renders a line break, and an atomic block with no entity ranges and no
matching "undefined" entity renders nothing. -/
theorem convertArticleBlocks_total_defaults_witness :
    renderBlock [] [] [] ⟨none, none, none⟩ = "<br/>\n".toList ∧
    renderBlock [] [] [] ⟨none, some "atomic".toList, none⟩ = [] := by
  constructor
  · exact (convertArticleBlocks_total_defaults).2.1 [] [] [] ⟨none, none, none⟩ rfl (Or.inl rfl)
  · exact (convertArticleBlocks_total_defaults).2.2.2.1 [] [] []
      ⟨none, some "atomic".toList, none⟩ rfl rfl rfl rfl rfl

/-! ## Quoted-post fan-out (`fetchReferencedTweets` in src/extractors/twitter.js) -/

/-- The `author` object of an fxtwitter API tweet. -/
structure ApiAuthor where
  name : Option Str
  screen_name : Option Str

/-- The `article` object of an fxtwitter API tweet, as read by the fan-out. -/
structure ApiArticleTitle where
  title : Option Str

/-- The `tweet` payload of one fan-out sub-fetch. -/
structure FxTweet where
  author : Option ApiAuthor
  text : Option Str
  article : Option ApiArticleTitle
  url : Option Str

/-- Everything one `fetch` of `api.fxtwitter.com/i/status/<id>` can do, seen
from the fan-out: the promise rejects (network error or malformed JSON), the
HTTP response is not ok, the API payload is not a success
(`code !== 200 || !tweet`), or a tweet is delivered. -/
inductive ApiOutcome where
  | reject
  | notOk (status : Nat)
  | badPayload
  | tweet (t : FxTweet)

/-- One sub-fetch of the fan-out (the async closure inside
`Promise.allSettled`): `Except.error` is a rejected promise, `Except.ok none`
a fulfilled `null`, `Except.ok (some kv)` a fulfilled tweet record keyed by
the entity key. -/
def subFetchTweet (api : Str → ApiOutcome) (entry : EntityMapEntry) :
    Except Unit (Option (Str × RefTweet)) :=
  let tweetId := (entry.value.bind (·.data)).bind (·.tweetId)
  if strTruthy tweetId = false then .ok none
  else
    match api (tweetId.getD []) with
    | .reject => .error ()
    | .notOk _ => .ok none
    | .badPayload => .ok none
    | .tweet t =>
      .ok (some (strOfKey entry.key,
        ⟨jsOrStr (t.author.bind (·.name)) "Unknown".toList,
         jsOrStr (t.author.bind (·.screen_name)) [],
         jsOrStr t.text [],
         t.article.bind (·.title),
         jsOrStr t.url ("https://x.com/i/status/".toList ++ tweetId.getD [])⟩))

/-- Is this entity-map entry a TWEET reference?  (The filter in
`fetchReferencedTweets`.) -/
def isTweetEntry (entry : EntityMapEntry) : Bool :=
  (entry.value.bind (·.type)) == some "TWEET".toList

/-- The successful resolution of one entry, if any: rejected promises and
fulfilled `null`s give `none`. -/
def resolvedTweet (api : Str → ApiOutcome) (entry : EntityMapEntry) :
    Option (Str × RefTweet) :=
  match subFetchTweet api entry with
  | .ok (some kv) => some kv
  | _ => none

/-- The collection loop over the settled results: only fulfilled, non-null
values are inserted. -/
def collectSettled (rs : List (Except Unit (Option (Str × RefTweet)))) :
    JsMap RefTweet :=
  rs.foldl (fun m r =>
    match r with
    | .ok (some kv) => mapSet m kv.1 kv.2
    | _ => m) []

/-- `fetchReferencedTweets` from src/extractors/twitter.js, with the network
supplied as an outcome oracle: fan out one sub-fetch per TWEET entity,
settle all of them, and build the lookup from the fulfilled non-null
results. -/
def fetchReferencedTweets (api : Str → ApiOutcome)
    (entityMap : Option (List EntityMapEntry)) : JsMap RefTweet :=
  match entityMap with
  | none => []
  | some em =>
    let tweetEntries := em.filter isTweetEntry
    let results := tweetEntries.map (subFetchTweet api)
    collectSettled results

/-- Membership in the collected lookup, by induction over the settled
results. -/
theorem collectSettled_has (rs : List (Except Unit (Option (Str × RefTweet))))
    (k : Str) :
    mapHas (collectSettled rs) k = true ↔ ∃ r ∈ rs, ∃ v, r = .ok (some (k, v)) := by
  suffices h : ∀ (m : JsMap RefTweet),
      mapHas (rs.foldl (fun m r =>
        match r with
        | .ok (some kv) => mapSet m kv.1 kv.2
        | _ => m) m) k = true ↔
        (mapHas m k = true ∨ ∃ r ∈ rs, ∃ v, r = .ok (some (k, v))) by
    have := h []
    simpa [collectSettled, mapHas] using this
  induction rs with
  | nil => simp [mapHas]
  | cons r rs ih =>
    intro m
    have hstep : mapHas (match r with
        | .ok (some kv) => mapSet m kv.1 kv.2
        | _ => m) k = true ↔
        (mapHas m k = true ∨ ∃ v, r = .ok (some (k, v))) := by
      rcases r with e | o
      · cases e
        simp
      · rcases o with _ | kv
        · simp
        · simp only [mapHas, mapSet, List.any_append, Bool.or_eq_true,
            List.any_cons, List.any_nil, Bool.or_false, beq_iff_eq]
          constructor
          · rintro (h | h)
            · exact Or.inl h
            · refine Or.inr ⟨kv.2, ?_⟩
              rw [← h]
          · rintro (h | ⟨v, hv⟩)
            · exact Or.inl h
            · simp only [Except.ok.injEq, Option.some.injEq] at hv
              simp [hv]
    rw [List.foldl_cons, ih, hstep, List.exists_mem_cons_iff]
    tauto

/-- A non-contributing settled result (rejected, or fulfilled null) leaves the
collection unchanged. -/
theorem collectSettled_skip (as bs : List (Except Unit (Option (Str × RefTweet))))
    (r : Except Unit (Option (Str × RefTweet)))
    (h : r = .error () ∨ r = .ok none) :
    collectSettled (as ++ r :: bs) = collectSettled (as ++ bs) := by
  unfold collectSettled
  rw [List.foldl_append, List.foldl_append, List.foldl_cons]
  rcases h with h | h <;> rw [h]

/-- `resolvedTweet` is none exactly for rejected or fulfilled-null
sub-fetches. -/
theorem resolvedTweet_none_iff (api : Str → ApiOutcome) (e : EntityMapEntry) :
    resolvedTweet api e = none ↔
      subFetchTweet api e = .error () ∨ subFetchTweet api e = .ok none := by
  unfold resolvedTweet
  match h : subFetchTweet api e with
  | .error () => simp
  | .ok none => simp
  | .ok (some kv) => simp

/-- C6: the quoted-post fan-out settles every sub-fetch and absorbs all
individual failures: the resulting lookup contains a key exactly when some
TWEET entity successfully resolved to it, and removing an entry whose
sub-fetch failed (rejected, non-ok HTTP, bad API payload or missing tweet)
does not change the lookup at all — the extraction itself never fails. -/
theorem fetchReferencedTweets_spec :
    (∀ (api : Str → ApiOutcome) (em : List EntityMapEntry) (k : Str),
      mapHas (fetchReferencedTweets api (some em)) k = true ↔
        ∃ e ∈ em, isTweetEntry e = true ∧ ∃ v, resolvedTweet api e = some (k, v)) ∧
    (∀ (api : Str → ApiOutcome) (em₁ em₂ : List EntityMapEntry) (e : EntityMapEntry),
      resolvedTweet api e = none →
        fetchReferencedTweets api (some (em₁ ++ e :: em₂)) =
          fetchReferencedTweets api (some (em₁ ++ em₂))) := by
  constructor
  · intro api em k
    show mapHas (collectSettled ((em.filter isTweetEntry).map (subFetchTweet api))) k
        = true ↔ _
    rw [collectSettled_has]
    constructor
    · rintro ⟨r, hr, v, rfl⟩
      simp only [List.mem_map, List.mem_filter] at hr
      obtain ⟨e, ⟨he, hte⟩, hre⟩ := hr
      refine ⟨e, he, hte, v, ?_⟩
      unfold resolvedTweet
      rw [hre]
    · rintro ⟨e, he, hte, v, hv⟩
      unfold resolvedTweet at hv
      rcases hs : subFetchTweet api e with u | o
      · rw [hs] at hv
        simp at hv
      · rcases o with _ | kv
        · rw [hs] at hv
          simp at hv
        · rw [hs] at hv
          simp only [Option.some.injEq] at hv
          refine ⟨.ok (some (k, v)), ?_, v, rfl⟩
          simp only [List.mem_map, List.mem_filter]
          exact ⟨e, ⟨he, hte⟩, by rw [hs, hv]⟩
  · intro api em₁ em₂ e he
    show collectSettled (((em₁ ++ e :: em₂).filter isTweetEntry).map (subFetchTweet api))
        = collectSettled (((em₁ ++ em₂).filter isTweetEntry).map (subFetchTweet api))
    by_cases ht : isTweetEntry e = true
    · rw [List.filter_append, List.filter_append, List.filter_cons_of_pos ht,
        List.map_append, List.map_append, List.map_cons]
      exact collectSettled_skip _ _ _ ((resolvedTweet_none_iff api e).1 he)
    · rw [List.filter_append, List.filter_append,
        List.filter_cons_of_neg (by simpa using ht)]

/-- The three-entry entity map of the C6 witness: keys "a", "b", "c"
referencing tweet ids "1", "2", "3". -/
def c6Entry (k tid : Str) : EntityMapEntry :=
  ⟨some k, some ⟨some "TWEET".toList, some ⟨none, some tid⟩⟩⟩

/-- The oracle of the C6 witness: tweet "2" fails (rejected sub-fetch),
tweets "1" and "3" resolve. -/
def c6Api : Str → ApiOutcome := fun tid =>
  if tid = "2".toList then .reject
  else .tweet ⟨some ⟨some "Au".toList, some "au".toList⟩, some "hi".toList, none,
    some "https://x.com/au/status/0".toList⟩

/-- Witness for C6: with three referenced quotes of which one sub-fetch is
rejected, the lookup has exactly the two successful keys, and dropping the
failed entry leaves the lookup unchanged. -/
theorem fetchReferencedTweets_spec_witness :
    mapHas (fetchReferencedTweets c6Api
      (some [c6Entry "a".toList "1".toList, c6Entry "b".toList "2".toList,
        c6Entry "c".toList "3".toList])) "a".toList = true ∧
    mapHas (fetchReferencedTweets c6Api
      (some [c6Entry "a".toList "1".toList, c6Entry "b".toList "2".toList,
        c6Entry "c".toList "3".toList])) "b".toList = false ∧
    mapHas (fetchReferencedTweets c6Api
      (some [c6Entry "a".toList "1".toList, c6Entry "b".toList "2".toList,
        c6Entry "c".toList "3".toList])) "c".toList = true ∧
    fetchReferencedTweets c6Api
        (some ([c6Entry "a".toList "1".toList] ++ c6Entry "b".toList "2".toList ::
          [c6Entry "c".toList "3".toList])) =
      fetchReferencedTweets c6Api
        (some ([c6Entry "a".toList "1".toList] ++ [c6Entry "c".toList "3".toList])) := by
  refine ⟨rfl, rfl, rfl, ?_⟩
  exact fetchReferencedTweets_spec.2 c6Api _ _ _ rfl

/-! ## Embedded markdown converter (src/extractors/next-data.js) -/

/-- The backquote character used by the inline-code pattern. -/
def btChar : Char := Char.ofNat 96

/-- Split a string at the first occurrence of `stop`: the first component is
the maximal stop-free prefix (a `[^x]*` run), the second the remainder
beginning with `stop` (or empty). -/
def spanNot (stop : Char) (s : Str) : Str × Str :=
  (s.takeWhile (fun c => !(c == stop)), s.dropWhile (fun c => !(c == stop)))

/-- Match `!\[([^\]]*)\]\(([^)]+)\)` at the start of the string, returning
`(alt, url, rest)`. -/
def matchImageAt (s : Str) : Option (Str × Str × Str) :=
  if strStartsWith s "![".toList then
    let p := spanNot ']' (s.drop 2)
    match p.2 with
    | ']' :: '(' :: r2 =>
      let q := spanNot ')' r2
      if q.1.isEmpty then none
      else
        match q.2 with
        | ')' :: rest => some (p.1, q.1, rest)
        | _ => none
    | _ => none
  else none

/-- Match `\[([^\]]+)\]\(([^)]+)\)` at the start of the string, returning
`(label, url, rest)`. -/
def matchLinkAt (s : Str) : Option (Str × Str × Str) :=
  if strStartsWith s "[".toList then
    let p := spanNot ']' (s.drop 1)
    if p.1.isEmpty then none
    else
      match p.2 with
      | ']' :: '(' :: r2 =>
        let q := spanNot ')' r2
        if q.1.isEmpty then none
        else
          match q.2 with
          | ')' :: rest => some (p.1, q.1, rest)
          | _ => none
      | _ => none
  else none

/-- The lazy `(.+?)` scan up to a closing marker: the shortest non-empty run
of non-newline characters followed by `marker`; returns the run and the rest
after the marker. -/
def lazyCloseScan (marker : Str) : Str → Option (Str × Str)
  | [] => none
  | c :: cs =>
    if c == '\n' then none
    else if strStartsWith cs marker then some ([c], cs.drop marker.length)
    else
      match lazyCloseScan marker cs with
      | some (a, b) => some (c :: a, b)
      | none => none

/-- One global regex-replace pass, fuel-bounded (the fuel is the input length;
each step consumes at least one character).  `matchAt` reports a match at the
current position together with its replacement and the rest of the input. -/
def replaceScan (matchAt : Str → Option (Str × Str)) : Nat → Str → Str
  | 0, s => s
  | fuel + 1, s =>
    match s with
    | [] => []
    | c :: cs =>
      match matchAt (c :: cs) with
      | some (repl, rest) => repl ++ replaceScan matchAt fuel rest
      | none => c :: replaceScan matchAt fuel cs

/-- `.replace(/!\[([^\]]*)\]\(([^)]+)\)/g, '<img src="$2" alt="$1">')`. -/
def replaceInlineImages (s : Str) : Str :=
  replaceScan (fun t =>
    match matchImageAt t with
    | some (alt, url, rest) =>
      some ("<img src=\"".toList ++ url ++ "\" alt=\"".toList ++ alt ++ "\">".toList, rest)
    | none => none) s.length s

/-- `.replace(/\[([^\]]+)\]\(([^)]+)\)/g, '<a href="$2">$1</a>')`. -/
def replaceLinks (s : Str) : Str :=
  replaceScan (fun t =>
    match matchLinkAt t with
    | some (label, url, rest) =>
      some ("<a href=\"".toList ++ url ++ "\">".toList ++ label ++ "</a>".toList, rest)
    | none => none) s.length s

/-- The opener/closer scan of `/\*\*(.+?)\*\*/`. -/
def matchBoldAt (t : Str) : Option (Str × Str) :=
  if strStartsWith t "**".toList then
    match lazyCloseScan "**".toList (t.drop 2) with
    | some pr => some (pr.1, pr.2)
    | none => none
  else none

/-- `.replace(/\*\*(.+?)\*\*/g, '<strong>$1</strong>')`. -/
def replaceBold (s : Str) : Str :=
  replaceScan (fun t =>
    match matchBoldAt t with
    | some pr => some ("<strong>".toList ++ pr.1 ++ "</strong>".toList, pr.2)
    | none => none) s.length s

/-- The opener/closer scan of `/\*(.+?)\*/`. -/
def matchItalicAt (t : Str) : Option (Str × Str) :=
  if strStartsWith t "*".toList then
    match lazyCloseScan "*".toList (t.drop 1) with
    | some pr => some (pr.1, pr.2)
    | none => none
  else none

/-- `.replace(/\*(.+?)\*/g, '<em>$1</em>')`. -/
def replaceItalic (s : Str) : Str :=
  replaceScan (fun t =>
    match matchItalicAt t with
    | some pr => some ("<em>".toList ++ pr.1 ++ "</em>".toList, pr.2)
    | none => none) s.length s

/-- Inline code: a backquote, a non-empty backquote-free run, a backquote. -/
def matchCodeAt (s : Str) : Option (Str × Str) :=
  match s with
  | c :: cs =>
    if c == btChar then
      let p := spanNot btChar cs
      if p.1.isEmpty then none
      else
        match p.2 with
        | d :: rest => if d == btChar then some (p.1, rest) else none
        | [] => none
    else none
  | [] => none

/-- The inline-code replace pass. -/
def replaceInlineCode (s : Str) : Str :=
  replaceScan (fun t =>
    match matchCodeAt t with
    | some pr => some ("<code>".toList ++ pr.1 ++ "</code>".toList, pr.2)
    | none => none) s.length s

/-- `convertInline` from src/extractors/next-data.js: the five substitution
passes in source order (images, links, bold, italic, inline code). -/
def convertInline (text : Str) : Str :=
  replaceInlineCode (replaceItalic (replaceBold (replaceLinks (replaceInlineImages text))))

/-- Split on `/\n{2,}/` (fuel-bounded scan; the accumulator holds the current
block reversed).  A separator is a maximal run of two or more newlines. -/
def splitBlocksF : Nat → Str → Str → List Str
  | 0, acc, s => [acc.reverse ++ s]
  | fuel + 1, acc, s =>
    match s with
    | [] => [acc.reverse]
    | c :: cs =>
      if c == '\n' && strStartsWith cs "\n".toList then
        acc.reverse :: splitBlocksF fuel [] ((c :: cs).dropWhile (· == '\n'))
      else
        splitBlocksF fuel (c :: acc) cs

/-- `markdown.split(/\n{2,}/)`. -/
def splitBlocks (s : Str) : List Str :=
  splitBlocksF s.length [] s

/-- Match `^(#{1,6})\s+(.+)$` against a trimmed block: one to six leading
hashes, at least one whitespace character, then a non-empty remainder with no
embedded newline (as the block is trimmed, the greedy whitespace run and the
`$`-anchored capture are forced). -/
def matchHeading (s : Str) : Option (Nat × Str) :=
  let k := (s.takeWhile (· == '#')).length
  if k < 1 || 6 < k then none
  else
    let rest := s.drop k
    let ws := rest.takeWhile jsWsChar
    let r := rest.drop ws.length
    if ws.isEmpty || r.isEmpty || r.contains '\n' then none
    else some (k, r)

/-- Match the image-only block pattern `^!\[([^\]]*)\]\(([^)]+)\)$`. -/
def matchImageBlock (s : Str) : Option (Str × Str) :=
  match matchImageAt s with
  | some (alt, url, rest) => if rest.isEmpty then some (alt, url) else none
  | none => none

/-- `.replace(/^> /gm, '')`: strip one `"> "` prefix from every line. -/
def stripQuoteMarks (s : Str) : Str :=
  List.intercalate ['\n']
    ((s.splitOn '\n').map (fun l =>
      if strStartsWith l "> ".toList then l.drop 2 else l))

/-- The per-block rendering of `markdownToHtml`: heading, image-only block,
blockquote, else paragraph; an all-whitespace block renders as the empty
string (and is filtered out). -/
def renderMdBlock (block : Str) : Str :=
  let trimmed := jsTrim block
  if trimmed.isEmpty then []
  else
    match matchHeading trimmed with
    | some kr =>
      "<h".toList ++ natToStr kr.1 ++ ">".toList ++ convertInline kr.2
        ++ "</h".toList ++ natToStr kr.1 ++ ">".toList
    | none =>
      match (if strStartsWith trimmed "![".toList then matchImageBlock trimmed else none) with
      | some au => "<img src=\"".toList ++ au.2 ++ "\" alt=\"".toList ++ au.1 ++ "\">".toList
      | none =>
        if strStartsWith trimmed "> ".toList then
          "<blockquote><p>".toList ++ convertInline (stripQuoteMarks trimmed)
            ++ "</p></blockquote>".toList
        else
          "<p>".toList ++ convertInline trimmed ++ "</p>".toList

/-- `.join('\n')`. -/
def joinNL : List Str → Str
  | [] => []
  | [b] => b
  | b :: bs => b ++ '\n' :: joinNL bs

/-- `markdownToHtml` from src/extractors/next-data.js. -/
def markdownToHtml (markdown : Str) : Str :=
  if markdown.isEmpty then []
  else
    joinNL (((splitBlocks (jsTrim markdown)).map renderMdBlock).filter (fun b => !b.isEmpty))

/-- A character that can start no inline or block markdown construct. -/
def plainChar (c : Char) : Bool :=
  !(c == '\n' || c == '#' || c == '!' || c == '[' || c == '*' || c == btChar || c == '>')

/-- A plain paragraph: non-empty, free of markdown trigger characters, and
not beginning or ending in whitespace (so trimming is the identity). -/
def PlainPara (s : Str) : Prop :=
  s ≠ [] ∧ (∀ c ∈ s, plainChar c = true) ∧
    Option.all (fun c => !jsWsChar c) s.head? = true ∧
    Option.all (fun c => !jsWsChar c) s.getLast? = true

/-- `replaceScan` is the identity when the matcher refuses every position
whose head satisfies `P` and all characters of the input satisfy `P`. -/
theorem replaceScan_id (matchAt : Str → Option (Str × Str)) (P : Char → Bool)
    (hm : ∀ c cs, P c = true → matchAt (c :: cs) = none) :
    ∀ (fuel : Nat) (s : Str), (∀ c ∈ s, P c = true) →
      replaceScan matchAt fuel s = s := by
  intro fuel
  induction fuel with
  | zero => intro s _; rfl
  | succ f ih =>
    intro s hs
    cases s with
    | nil => rfl
    | cons c cs =>
      show (match matchAt (c :: cs) with
        | some (repl, rest) => repl ++ replaceScan matchAt f rest
        | none => c :: replaceScan matchAt f cs) = c :: cs
      rw [hm c cs (hs c (by simp))]
      rw [ih cs (fun d hd => hs d (by simp [hd]))]

/-- `convertInline` is the identity on strings with no trigger characters. -/
theorem convertInline_plain (s : Str) (hs : ∀ c ∈ s, plainChar c = true) :
    convertInline s = s := by
  have hbang : ∀ c ∈ s, (c == '!') = false := by
    intro c hc
    have := hs c hc
    simp only [plainChar, Bool.not_eq_true', Bool.or_eq_false_iff] at this
    exact this.1.1.1.1.2
  have hbr : ∀ c ∈ s, (c == '[') = false := by
    intro c hc
    have := hs c hc
    simp only [plainChar, Bool.not_eq_true', Bool.or_eq_false_iff] at this
    exact this.1.1.1.2
  have hst : ∀ c ∈ s, (c == '*') = false := by
    intro c hc
    have := hs c hc
    simp only [plainChar, Bool.not_eq_true', Bool.or_eq_false_iff] at this
    exact this.1.1.2
  have hbt : ∀ c ∈ s, (c == btChar) = false := by
    intro c hc
    have := hs c hc
    simp only [plainChar, Bool.not_eq_true', Bool.or_eq_false_iff] at this
    exact this.1.2
  unfold convertInline
  rw [show replaceInlineImages s = s from
    replaceScan_id _ (fun c => !(c == '!'))
      (fun c cs hc => by
        simp only [Bool.not_eq_true'] at hc
        simp [matchImageAt, strStartsWith, hc])
      s.length s (fun c hc => by simp [hbang c hc])]
  rw [show replaceLinks s = s from
    replaceScan_id _ (fun c => !(c == '['))
      (fun c cs hc => by
        simp only [Bool.not_eq_true'] at hc
        simp [matchLinkAt, strStartsWith, hc])
      s.length s (fun c hc => by simp [hbr c hc])]
  rw [show replaceBold s = s from
    replaceScan_id _ (fun c => !(c == '*'))
      (fun c cs hc => by
        simp only [Bool.not_eq_true'] at hc
        simp [matchBoldAt, strStartsWith, hc])
      s.length s (fun c hc => by simp [hst c hc])]
  rw [show replaceItalic s = s from
    replaceScan_id _ (fun c => !(c == '*'))
      (fun c cs hc => by
        simp only [Bool.not_eq_true'] at hc
        simp [matchItalicAt, strStartsWith, hc])
      s.length s (fun c hc => by simp [hst c hc])]
  exact replaceScan_id _ (fun c => !(c == btChar))
    (fun c cs hc => by
      simp only [Bool.not_eq_true'] at hc
      simp [matchCodeAt, hc])
    s.length s (fun c hc => by simp [hbt c hc])

/-- `dropWhile` is the identity when the head fails the predicate. -/
theorem dropWhile_eq_self_of_head (p : Char → Bool) (l : Str)
    (h : ∀ c, l.head? = some c → p c = false) : l.dropWhile p = l := by
  cases l with
  | nil => rfl
  | cons c cs =>
    rw [List.dropWhile_cons, h c rfl]
    simp

/-- Trimming is the identity on strings that do not start or end in
whitespace. -/
theorem jsTrim_eq_self (s : Str)
    (hh : ∀ c, s.head? = some c → jsWsChar c = false)
    (hl : ∀ c, s.getLast? = some c → jsWsChar c = false) : jsTrim s = s := by
  unfold jsTrim
  rw [dropWhile_eq_self_of_head _ s hh]
  rw [dropWhile_eq_self_of_head _ s.reverse (by
    intro c hc
    rw [List.head?_reverse] at hc
    exact hl c hc)]
  exact List.reverse_reverse s

/-- `splitBlocksF` on newline-free input is a single block. -/
theorem splitBlocksF_no_newline (s : Str) :
    ∀ (fuel : Nat) (acc : Str), ('\n' ∉ s) → s.length ≤ fuel →
      splitBlocksF fuel acc s = [acc.reverse ++ s] := by
  induction s with
  | nil =>
    intro fuel acc _ _
    cases fuel with
    | zero => rfl
    | succ f => simp [splitBlocksF]
  | cons c cs ih =>
    intro fuel acc hnl hfl
    cases fuel with
    | zero => simp at hfl
    | succ f =>
      have hc : (c == '\n') = false := by
        simp only [beq_eq_false_iff_ne, ne_eq]
        intro h
        exact hnl (by simp [h])
      show (if c == '\n' && strStartsWith cs "\n".toList then
          acc.reverse :: splitBlocksF f [] ((c :: cs).dropWhile (· == '\n'))
        else splitBlocksF f (c :: acc) cs) = [acc.reverse ++ c :: cs]
      rw [hc]
      simp only [Bool.false_and, if_false]
      rw [ih f (c :: acc) (fun h => hnl (by simp [h])) (by simpa using Nat.le_of_succ_le_succ hfl)]
      simp

/-- `splitBlocksF` splits a two-newline separator between two newline-free
blocks. -/
theorem splitBlocksF_two_blocks (a b : Str) (hb : b ≠ []) (hnb : '\n' ∉ b) :
    ∀ (fuel : Nat) (acc : Str), ('\n' ∉ a) →
      a.length + 2 + b.length ≤ fuel →
      splitBlocksF fuel acc (a ++ '\n' :: '\n' :: b) = [acc.reverse ++ a, b] := by
  induction a with
  | nil =>
    intro fuel acc _ hfl
    cases fuel with
    | zero => omega
    | succ f =>
      show (if '\n' == '\n' && strStartsWith ('\n' :: b) "\n".toList then
          acc.reverse ::
            splitBlocksF f [] (('\n' :: '\n' :: b).dropWhile (· == '\n'))
        else splitBlocksF f ('\n' :: acc) ('\n' :: b)) = [acc.reverse ++ [], b]
      have hdw : ('\n' :: '\n' :: b).dropWhile (· == '\n') = b := by
        simp only [List.dropWhile_cons, beq_self_eq_true, if_true]
        cases b with
        | nil => simp at hb
        | cons d ds =>
          rw [List.dropWhile_cons]
          have hd : (d == '\n') = false := by
            simp only [beq_eq_false_iff_ne, ne_eq]
            intro h
            exact hnb (by simp [h])
          rw [hd]
          simp
      simp only [strStartsWith, beq_self_eq_true, Bool.and_true, Bool.and_self, if_true, hdw]
      rw [splitBlocksF_no_newline b f [] hnb (by omega)]
      simp
  | cons x xs ih =>
    intro fuel acc hna hfl
    cases fuel with
    | zero => simp at hfl
    | succ f =>
      have hx : (x == '\n') = false := by
        simp only [beq_eq_false_iff_ne, ne_eq]
        intro h
        exact hna (by simp [h])
      show (if x == '\n' && strStartsWith (xs ++ '\n' :: '\n' :: b) "\n".toList then
          acc.reverse :: splitBlocksF f []
            ((x :: (xs ++ '\n' :: '\n' :: b)).dropWhile (· == '\n'))
        else splitBlocksF f (x :: acc) (xs ++ '\n' :: '\n' :: b))
          = [acc.reverse ++ x :: xs, b]
      rw [hx]
      simp only [Bool.false_and, if_false]
      rw [ih f (x :: acc) (fun h => hna (by simp [h])) (by simp at hfl ⊢; omega)]
      simp

/-- A plain paragraph renders as a single `<p>` element. -/
theorem renderMdBlock_plain (a : Str) (ha : PlainPara a) :
    renderMdBlock a = "<p>".toList ++ a ++ "</p>".toList := by
  obtain ⟨hne, hchars, hh, hl⟩ := ha
  obtain ⟨c, cs, rfl⟩ : ∃ c cs, a = c :: cs := by
    cases a with
    | nil => exact absurd rfl hne
    | cons c cs => exact ⟨c, cs, rfl⟩
  have hplain := hchars c (by simp)
  simp only [plainChar, Bool.not_eq_true', Bool.or_eq_false_iff] at hplain
  obtain ⟨⟨⟨⟨⟨⟨hnl', hhash⟩, hbang⟩, hbr⟩, hstar⟩, hbtick⟩, hgt⟩ := hplain
  have htrim : jsTrim (c :: cs) = c :: cs := by
    refine jsTrim_eq_self _ ?_ ?_
    · intro d hd
      rw [hd] at hh
      simpa using hh
    · intro d hd
      rw [hd] at hl
      simpa using hl
  have hheading : matchHeading (c :: cs) = none := by
    unfold matchHeading
    rw [List.takeWhile_cons, hhash]
    simp
  have himg : strStartsWith (c :: cs) "![".toList = false := by
    simp [strStartsWith, hbang]
  have hq : strStartsWith (c :: cs) "> ".toList = false := by
    simp [strStartsWith, hgt]
  unfold renderMdBlock
  simp only [htrim, hheading, himg, hq, List.isEmpty_cons, Bool.false_eq_true, if_false]
  rw [convertInline_plain _ hchars]

/-- C4: the embedded markdown converter maps "# Heading" to
"&lt;h1&gt;Heading&lt;/h1&gt;", wraps inline bold in `<strong>`, renders two
plain paragraphs separated by a blank line as two `<p>` blocks joined by one
newline, and maps empty input to empty output. -/
theorem markdownToHtml_spec :
    markdownToHtml "# Heading".toList = "<h1>Heading</h1>".toList ∧
    markdownToHtml "**bold**".toList = "<p><strong>bold</strong></p>".toList ∧
    (∀ a b : Str, PlainPara a → PlainPara b →
      markdownToHtml (a ++ '\n' :: '\n' :: b) =
        ("<p>".toList ++ a ++ "</p>".toList) ++
          '\n' :: ("<p>".toList ++ b ++ "</p>".toList)) ∧
    markdownToHtml [] = [] := by
  refine ⟨by decide, by decide, ?_, rfl⟩
  intro a b ha hb
  obtain ⟨hane, hachars, hah, hal⟩ := ha
  obtain ⟨hbne, hbchars, hbh, hbl⟩ := hb
  have hnla : '\n' ∉ a := by
    intro h
    have := hachars _ h
    simp [plainChar] at this
  have hnlb : '\n' ∉ b := by
    intro h
    have := hbchars _ h
    simp [plainChar] at this
  have hne : (a ++ '\n' :: '\n' :: b).isEmpty = false := by
    cases a <;> simp
  unfold markdownToHtml
  rw [hne]
  simp only [Bool.false_eq_true, if_false]
  have htrim : jsTrim (a ++ '\n' :: '\n' :: b) = a ++ '\n' :: '\n' :: b := by
    refine jsTrim_eq_self _ ?_ ?_
    · intro d hd
      cases a with
      | nil => exact absurd rfl hane
      | cons x xs =>
        simp only [List.cons_append, List.head?_cons, Option.some.injEq] at hd
        subst hd
        simpa using hah
    · intro d hd
      have hlast : (a ++ '\n' :: '\n' :: b).getLast? = b.getLast? := by
        rw [List.getLast?_append_cons]
        cases b with
        | nil => exact absurd rfl hbne
        | cons y ys => simp [List.getLast?_cons_cons]
      rw [hlast] at hd
      rw [hd] at hbl
      simpa using hbl
  rw [htrim]
  have hsplit : splitBlocks (a ++ '\n' :: '\n' :: b) = [a, b] := by
    unfold splitBlocks
    have := splitBlocksF_two_blocks a b hbne hnlb
      (a ++ '\n' :: '\n' :: b).length [] hnla (by simp; omega)
    simpa using this
  rw [hsplit]
  simp only [List.map_cons, List.map_nil]
  rw [renderMdBlock_plain a ⟨hane, hachars, hah, hal⟩,
    renderMdBlock_plain b ⟨hbne, hbchars, hbh, hbl⟩]
  simp only [List.filter_cons, List.filter_nil]
  norm_num
  simp [joinNL, List.append_assoc]

/-- Witness for C4 at two concrete plain paragraphs. -/
theorem markdownToHtml_spec_witness :
    markdownToHtml ("First one.".toList ++ '\n' :: '\n' :: "Second one.".toList) =
      ("<p>".toList ++ "First one.".toList ++ "</p>".toList) ++
        '\n' :: ("<p>".toList ++ "Second one.".toList ++ "</p>".toList) :=
  markdownToHtml_spec.2.2.1 "First one.".toList "Second one.".toList
    (by refine ⟨by decide, by decide, by decide, by decide⟩)
    (by refine ⟨by decide, by decide, by decide, by decide⟩)

/-! ## Structured-data sub-extractor (src/extractors/next-data.js) -/

/-- JSON values, the output type of the platform's `JSON.parse`. -/
inductive Json where
  | null
  | bool (b : Bool)
  | num (n : Int)
  | str (s : Str)
  | arr (xs : List Json)
  | obj (fields : List (Str × Json))

/-- Property access `j[k]` (`none` plays undefined: missing key or
non-object). -/
def jsonGet (j : Json) (k : Str) : Option Json :=
  match j with
  | .obj fs => (fs.find? (·.1 == k)).map (·.2)
  | _ => none

/-- JavaScript truthiness of a possibly absent JSON value. -/
def jsonTruthy : Option Json → Bool
  | none => false
  | some .null => false
  | some (.bool b) => b
  | some (.num n) => n != 0
  | some (.str s) => !s.isEmpty
  | some (.arr _) => true
  | some (.obj _) => true

/-- The string carried by a JSON value (the payload fields consumed as
strings are strings in the documented shape). -/
def jsonAsStr : Json → Str
  | .str s => s
  | _ => []

/-- The fixed opening tag of the `__NEXT_DATA__` JSON island. -/
def nextDataOpenTag : Str :=
  "<script id=\"__NEXT_DATA__\" type=\"application/json\">".toList

/-- The lazy `(.+?)` scan of the `/s`-flagged island regex: the shortest
non-empty run (newlines included) followed by `marker`. -/
def lazyCloseAll (marker : Str) : Str → Option (Str × Str)
  | [] => none
  | c :: cs =>
    if strStartsWith cs marker then some ([c], cs.drop marker.length)
    else
      match lazyCloseAll marker cs with
      | some (a, b) => some (c :: a, b)
      | none => none

/-- The scan of `NEXT_DATA_REGEX`: leftmost position where the opening tag is
followed (lazily, at distance at least one) by `</script>`; returns the
captured payload. -/
def findNextDataF : Nat → Str → Option Str
  | 0, _ => none
  | fuel + 1, s =>
    match s with
    | [] => none
    | c :: cs =>
      if strStartsWith (c :: cs) nextDataOpenTag then
        match lazyCloseAll "</script>".toList ((c :: cs).drop nextDataOpenTag.length) with
        | some pr => some pr.1
        | none => findNextDataF fuel cs
      else findNextDataF fuel cs

/-- `html.match(NEXT_DATA_REGEX)`, capture group only. -/
def findNextData (html : Str) : Option Str :=
  findNextDataF html.length html

/-- One root-relative attribute rewrite of `resolveUrls`:
`attr` is `src="` or `href="`, the value must start with `/` and have at
least one further non-quote character; the origin is prefixed. -/
def matchResolveAt (attr origin t : Str) : Option (Str × Str) :=
  if strStartsWith t attr then
    match t.drop attr.length with
    | '/' :: r1 =>
      let p := spanNot '"' r1
      if p.1.isEmpty then none
      else
        match p.2 with
        | '"' :: rr => some (attr ++ origin ++ '/' :: p.1 ++ "\"".toList, rr)
        | _ => none
    | _ => none
  else none

/-- `resolveUrls` from src/extractors/next-data.js; `urlOrigin` is the
platform's `new URL(u).origin` (throwing is `none`, caught by the source). -/
def resolveUrls (urlOrigin : Str → Option Str) (html : Str) (baseUrl : Option Str) : Str :=
  match baseUrl with
  | none => html
  | some u =>
    if u.isEmpty then html
    else
      match urlOrigin u with
      | none => html
      | some origin =>
        let pass1 := replaceScan (matchResolveAt "src=\"".toList origin) html.length html
        replaceScan (matchResolveAt "href=\"".toList origin) pass1.length pass1

/-- `tryExtractFromNextData` from src/extractors/next-data.js, with
`JSON.parse` (exceptions as `none`) and the URL parser supplied as oracles:
no island, unparsable JSON, or a missing/empty `props.pageProps.postData.content`
all signal not-applicable (`none`) instead of throwing. -/
def tryExtractFromNextData (parse : Str → Option Json) (urlOrigin : Str → Option Str)
    (html : Str) (baseUrl : Option Str) : Option NormalizedDocument :=
  match findNextData html with
  | none => none
  | some payload =>
    match parse payload with
    | none => none
    | some data =>
      let postData := ((jsonGet data "props".toList).bind
        (fun p => jsonGet p "pageProps".toList)).bind
        (fun p => jsonGet p "postData".toList)
      let content := postData.bind (fun pd => jsonGet pd "content".toList)
      if jsonTruthy content = false then none
      else
        let md := jsonAsStr ((content).getD .null)
        let authors := postData.bind (fun pd => jsonGet pd "authors".toList)
        let byline : Option Str :=
          match authors with
          | some (.arr xs) =>
            if 0 < xs.length then some (List.intercalate ", ".toList (xs.map jsonAsStr))
            else none
          | _ => none
        let title := postData.bind (fun pd => jsonGet pd "title".toList)
        some ⟨if strTruthy (some (jsonAsStr (title.getD .null))) then jsonAsStr (title.getD .null)
                else "Article".toList,
              resolveUrls urlOrigin (markdownToHtml md) baseUrl,
              some md, byline, none⟩

/-- Modelled from the spec: the current Generic Article Extractor
(src/extractors/article.js as exercised by its tests in the sources; the
module body with the structured-data step is not under src/).  Per spec
§4.2: fetch, fail on non-ok status, attempt the structured-data extraction
and return its result when applicable, otherwise fall through to the
heuristic (Readability) path of `extractArticle`. -/
def extractArticleND (parse : Str → Option Json) (urlOrigin : Str → Option Str)
    (resp : HttpResponse) (html : Str) (baseUrl : Option Str)
    (parsed : Option ReadabilityArticle) : Except Str NormalizedDocument :=
  if !resp.ok then
    .error (httpErrorMsg resp.status)
  else
    match tryExtractFromNextData parse urlOrigin html baseUrl with
    | some doc => .ok doc
    | none => extractArticle resp parsed

/-- C3: the structured-data sub-extractor returns a definite not-applicable
signal (none, never a thrown error) when the HTML has no embedded JSON
island, when the JSON fails to parse, and when the payload lacks a truthy
nested `props.pageProps.postData.content`; in each such case the Generic
Article Extractor falls through to the heuristic extraction unchanged,
without itself failing because of the sub-extractor. -/
theorem tryExtractFromNextData_null_cases :
    (∀ (parse : Str → Option Json) (urlOrigin : Str → Option Str)
       (html : Str) (baseUrl : Option Str),
      findNextData html = none →
        tryExtractFromNextData parse urlOrigin html baseUrl = none) ∧
    (∀ (parse : Str → Option Json) (urlOrigin : Str → Option Str)
       (html payload : Str) (baseUrl : Option Str),
      findNextData html = some payload → parse payload = none →
        tryExtractFromNextData parse urlOrigin html baseUrl = none) ∧
    (∀ (parse : Str → Option Json) (urlOrigin : Str → Option Str)
       (html payload : Str) (baseUrl : Option Str) (data : Json),
      findNextData html = some payload → parse payload = some data →
      jsonTruthy ((((jsonGet data "props".toList).bind
          (fun p => jsonGet p "pageProps".toList)).bind
          (fun p => jsonGet p "postData".toList)).bind
          (fun pd => jsonGet pd "content".toList)) = false →
        tryExtractFromNextData parse urlOrigin html baseUrl = none) ∧
    (∀ (parse : Str → Option Json) (urlOrigin : Str → Option Str)
       (resp : HttpResponse) (html : Str) (baseUrl : Option Str)
       (parsed : Option ReadabilityArticle),
      resp.ok = true →
      tryExtractFromNextData parse urlOrigin html baseUrl = none →
        extractArticleND parse urlOrigin resp html baseUrl parsed =
          extractArticle resp parsed) := by
  refine ⟨?_, ?_, ?_, ?_⟩
  · intro parse urlOrigin html baseUrl h
    unfold tryExtractFromNextData
    rw [h]
  · intro parse urlOrigin html payload baseUrl h1 h2
    simp only [tryExtractFromNextData, h1, h2]
  · intro parse urlOrigin html payload baseUrl data h1 h2 h3
    simp only [tryExtractFromNextData, h1, h2, h3, Bool.false_eq_true, if_false]
    simp
  · intro parse urlOrigin resp html baseUrl parsed hok hnone
    unfold extractArticleND
    rw [hok, hnone]
    simp

/-- Witness for C3 at concrete inputs: plain HTML with no island; an island
whose payload the parser rejects; an island whose payload parses to an empty
object; and the fall-through to the heuristic result in the last case. -/
theorem tryExtractFromNextData_null_cases_witness :
    tryExtractFromNextData (fun _ => some (.obj [])) (fun _ => none)
      "<p>no island</p>".toList none = none ∧
    tryExtractFromNextData (fun _ => none) (fun _ => none)
      ("<script id=\"__NEXT_DATA__\" type=\"application/json\">bad</script>".toList)
      none = none ∧
    tryExtractFromNextData (fun _ => some (.obj [])) (fun _ => none)
      ("<script id=\"__NEXT_DATA__\" type=\"application/json\">\x7b\x7d</script>".toList)
      none = none ∧
    extractArticleND (fun _ => some (.obj [])) (fun _ => none)
      ⟨true, 200⟩
      ("<script id=\"__NEXT_DATA__\" type=\"application/json\">\x7b\x7d</script>".toList)
      none none =
      extractArticle ⟨true, 200⟩ none := by
  refine ⟨?_, ?_, ?_, ?_⟩
  · exact tryExtractFromNextData_null_cases.1 _ _ _ _ (by decide)
  · exact tryExtractFromNextData_null_cases.2.1 _ _ _
      "bad".toList _ (by decide) rfl
  · exact tryExtractFromNextData_null_cases.2.2.1 _ _ _
      ("\x7b\x7d".toList) _ (.obj []) (by decide) rfl rfl
  · exact tryExtractFromNextData_null_cases.2.2.2 _ _ _ _ _ _ rfl
      (tryExtractFromNextData_null_cases.2.2.1 _ _ _
        ("\x7b\x7d".toList) _ (.obj []) (by decide) rfl rfl)

/-! ## Markup repair: responsive-image fix (`fixPictureSources` in src/utils.js) -/

/-- Case-insensitive character comparison (the `/i` regex flag). -/
def ciEq (a b : Char) : Bool := a.toLower == b.toLower

/-- Case-insensitive prefix test. -/
def ciStartsWith : Str → Str → Bool
  | _, [] => true
  | [], _ :: _ => false
  | c :: cs, p :: ps => ciEq c p && ciStartsWith cs ps

/-- A JavaScript word character (`\w`), used for `\b` boundaries. -/
def isWordChar (c : Char) : Bool :=
  ('a' ≤ c && c ≤ 'z') || ('A' ≤ c && c ≤ 'Z') || ('0' ≤ c && c ≤ '9') || c == '_'

/-- The `\ssrc\s*=` tail of the `img`-has-src test, searched through the
non-`>` run (`[^>]*?`). -/
def srcEqScan : Str → Bool
  | [] => false
  | c :: cs =>
    if c == '>' then false
    else
      (jsWsChar c && ciStartsWith cs "src".toList &&
        (match (cs.drop 3).dropWhile jsWsChar with
         | '=' :: _ => true
         | _ => false))
      || srcEqScan cs

/-- `/<img\b[^>]*?\ssrc\s*=/i.test(inner)`: does the grouping's image element
already declare a direct src attribute? -/
def hasImgSrcTest : Str → Bool
  | [] => false
  | c :: cs =>
    (ciStartsWith (c :: cs) "<img".toList &&
      (match (c :: cs).drop 4 with
       | [] => true
       | d :: _ => !isWordChar d) &&
      srcEqScan ((c :: cs).drop 4))
    || hasImgSrcTest cs

/-- The negative lookahead `(?![^>]*type="image\/webp")`: is the WebP type
marker reachable through non-`>` characters? -/
def webpAhead : Str → Bool
  | [] => false
  | c :: cs =>
    if ciStartsWith (c :: cs) "type=\"image/webp\"".toList then true
    else if c == '>' then false
    else webpAhead cs

/-- The greedy `[^>]*\bsrcset="([^"]+)"` body after `<source`: the LAST
boundary-preceded `srcset="…"` occurrence inside the non-`>` run wins
(greedy backtracking); `prev` is the character before the current position. -/
def lastSrcsetMatch : Char → Str → Option Str
  | prev, s =>
    let here : Option Str :=
      if !isWordChar prev && ciStartsWith s "srcset=\"".toList then
        let p := spanNot '"' (s.drop 8)
        if p.1.isEmpty then none
        else
          match p.2 with
          | '"' :: _ => some p.1
          | _ => none
      else none
    match s with
    | [] => none
    | c :: cs =>
      if c == '>' then none
      else
        match lastSrcsetMatch c cs with
        | some v => some v
        | none => here

/-- Leftmost match of the `<source…srcset="…"` regex; with `requireNonWebp`
the negative WebP lookahead is applied (the first of the two source-selection
regexes), without it the fallback regex. -/
def findSourceCi (requireNonWebp : Bool) : Str → Option Str
  | [] => none
  | c :: cs =>
    if ciStartsWith (c :: cs) "<source".toList
        && (!requireNonWebp || !webpAhead ((c :: cs).drop 7)) then
      match lastSrcsetMatch 'e' ((c :: cs).drop 7) with
      | some v => some v
      | none => findSourceCi requireNonWebp cs
    else findSourceCi requireNonWebp cs

/-- `sourceMatch[1].split(',')[0].trim().split(/\s+/)[0]`. -/
def firstUrlOf (v : Str) : Str :=
  (jsTrim (spanNot ',' v).1).takeWhile (fun c => !jsWsChar c)

/-- `match.replace(/<img\b/i, `<img src="URL"`)`: rewrite the first
word-bounded `<img` occurrence. -/
def replaceFirstImg (url : Str) : Str → Str
  | [] => []
  | c :: cs =>
    if ciStartsWith (c :: cs) "<img".toList &&
        (match (c :: cs).drop 4 with
         | [] => true
         | d :: _ => !isWordChar d) then
      "<img src=\"".toList ++ url ++ "\"".toList ++ (c :: cs).drop 4
    else c :: replaceFirstImg url cs

/-- The replacer callback of `fixPictureSources`, taking the whole matched
grouping and its inner capture. -/
def pictureReplace (matchStr inner : Str) : Str :=
  if hasImgSrcTest inner then matchStr
  else
    let sourceMatch :=
      match findSourceCi true inner with
      | some v => some v
      | none => findSourceCi false inner
    match sourceMatch with
    | none => matchStr
    | some v =>
      let firstUrl := firstUrlOf v
      if firstUrl.isEmpty then matchStr
      else replaceFirstImg firstUrl matchStr

/-- The lazy `([\s\S]*?)` capture up to a case-insensitive marker (possibly
empty). -/
def lazyCloseCi (marker : Str) : Str → Option (Str × Str)
  | [] => if ciStartsWith [] marker then some ([], []) else none
  | c :: cs =>
    if ciStartsWith (c :: cs) marker then some ([], (c :: cs).drop marker.length)
    else
      match lazyCloseCi marker cs with
      | some (a, b) => some (c :: a, b)
      | none => none

/-- The global scan of `/<picture>([\s\S]*?)<\/picture>/gi`. -/
def pictureScanF : Nat → Str → Str
  | 0, s => s
  | fuel + 1, s =>
    match s with
    | [] => []
    | c :: cs =>
      if ciStartsWith (c :: cs) "<picture>".toList then
        match lazyCloseCi "</picture>".toList ((c :: cs).drop 9) with
        | some pr =>
          pictureReplace ((c :: cs).take (9 + pr.1.length + 10)) pr.1
            ++ pictureScanF fuel pr.2
        | none => c :: pictureScanF fuel cs
      else c :: pictureScanF fuel cs

/-- `fixPictureSources` from src/utils.js. -/
def fixPictureSources (html : Str) : Str :=
  pictureScanF html.length html

/-- The first component of `spanNot` ignores everything at and after the
first stop character. -/
theorem spanNot_append_stop (stop : Char) (v rest : Str) :
    (spanNot stop (v ++ stop :: rest)).1 = (spanNot stop v).1 := by
  unfold spanNot
  induction v with
  | nil => simp [List.takeWhile_cons]
  | cons c cs ih =>
    simp only [List.cons_append, List.takeWhile_cons]
    by_cases hc : (c == stop) = true
    · simp [hc]
    · simp only [Bool.not_eq_true] at hc
      simp only [hc]
      simp only [Bool.not_false, if_true, List.cons.injEq, true_and]
      simpa using ih

/-- A non-empty `dropWhile` result keeps the last element. -/
theorem getLast?_dropWhile (p : Char → Bool) (l : Str)
    (h : l.dropWhile p ≠ []) : (l.dropWhile p).getLast? = l.getLast? := by
  induction l with
  | nil => simp at h
  | cons c cs ih =>
    rw [List.dropWhile_cons]
    by_cases hc : p c = true
    · rw [List.dropWhile_cons, hc] at h
      simp only [if_true] at h ⊢
      rw [hc]
      simp only [if_true]
      rw [ih h]
      have hcs : cs ≠ [] := by
        intro he
        rw [he] at h
        simp at h
      cases cs with
      | nil => exact absurd rfl hcs
      | cons d ds => simp [List.getLast?_cons_cons]
    · simp only [Bool.not_eq_true] at hc
      simp [hc]

/-- `takeWhile` of a clean prefix followed by a failing head. -/
theorem takeWhile_append_clean (q : Char → Bool) (t z : Str)
    (ht : ∀ c ∈ t, q c = true)
    (hz : ∀ c, z.head? = some c → q c = false) :
    (t ++ z).takeWhile q = t := by
  induction t with
  | nil =>
    cases z with
    | nil => rfl
    | cons c cs =>
      rw [List.nil_append, List.takeWhile_cons, hz c rfl]
      simp
  | cons c cs ih =>
    rw [List.cons_append, List.takeWhile_cons, ht c (by simp)]
    simp only [if_true, List.cons.injEq, true_and]
    exact ih (fun d hd => ht d (by simp [hd]))

/-- The first whitespace-separated token of the first comma field: the
descriptor tail after the URL is ignored. -/
theorem firstUrlOf_first_token (t rest : Str) (htne : t ≠ [])
    (ht : ∀ c ∈ t, jsWsChar c = false ∧ (c == ',') = false) :
    firstUrlOf (t ++ ' ' :: rest) = t := by
  have hspan : (spanNot ',' (t ++ ' ' :: rest)).1 = t ++ ' ' :: (spanNot ',' rest).1 := by
    unfold spanNot
    simp only
    rw [List.takeWhile_append_of_pos (by
      intro c hc
      simp [(ht c hc).2])]
    rw [List.takeWhile_cons]
    simp
  unfold firstUrlOf
  rw [hspan]
  set r := (spanNot ',' rest).1 with hr
  have hhead : ∀ c, (t ++ ' ' :: r).head? = some c → jsWsChar c = false := by
    intro c hc
    cases t with
    | nil => exact absurd rfl htne
    | cons x xs =>
      simp only [List.cons_append, List.head?_cons, Option.some.injEq] at hc
      subst hc
      exact (ht x (by simp)).1
  have htrim : ∃ z, jsTrim (t ++ ' ' :: r) = t ++ z ∧
      (∀ c, z.head? = some c → jsWsChar c = true) := by
    unfold jsTrim
    rw [dropWhile_eq_self_of_head _ _ hhead]
    rw [List.reverse_append]
    rw [List.dropWhile_append]
    by_cases he : ((' ' :: r).reverse.dropWhile jsWsChar).isEmpty = true
    · refine ⟨[], ?_, by simp⟩
      simp only [he, if_true]
      rw [dropWhile_eq_self_of_head _ _ (by
        intro c hc
        rw [List.head?_reverse] at hc
        cases t with
        | nil => exact absurd rfl htne
        | cons x xs => exact (ht c (List.mem_of_mem_getLast? hc)).1)]
      simp
    · simp only [he, Bool.false_eq_true, if_false]
      refine ⟨((' ' :: r).reverse.dropWhile jsWsChar).reverse, ?_, ?_⟩
      · rw [List.reverse_append, List.reverse_reverse]
      · intro c hc
        rw [List.head?_reverse] at hc
        have hne : (' ' :: r).reverse.dropWhile jsWsChar ≠ [] := by
          simpa using he
        rw [getLast?_dropWhile _ _ hne] at hc
        rw [List.getLast?_reverse] at hc
        simp only [List.head?_cons, Option.some.injEq] at hc
        subst hc
        rfl
  obtain ⟨z, hz, hzh⟩ := htrim
  rw [hz]
  refine takeWhile_append_clean _ t z ?_ ?_
  · intro c hc
    simp [(ht c hc).1]
  · intro c hc
    simp [hzh c hc]

/-- C7: for every `<picture>` grouping — the replacer applied by the global
scan of `fixPictureSources` — an image that already declares a `src` leaves
the grouping unmodified regardless of the alternative sources present;
otherwise the source selected by the non-WebP regex is preferred, falling
back to the first source found by the unrestricted regex, and the injected
URL is the first whitespace-delimited token of the first comma field of the
selected srcset (later comma candidates are ignored); concrete end-to-end
cases exercise each selection rule. -/
theorem fixPictureSources_spec :
    (∀ matchStr inner, hasImgSrcTest inner = true →
      pictureReplace matchStr inner = matchStr) ∧
    (∀ matchStr inner v, hasImgSrcTest inner = false →
      findSourceCi true inner = some v → firstUrlOf v ≠ [] →
      pictureReplace matchStr inner = replaceFirstImg (firstUrlOf v) matchStr) ∧
    (∀ matchStr inner v, hasImgSrcTest inner = false →
      findSourceCi true inner = none → findSourceCi false inner = some v →
      firstUrlOf v ≠ [] →
      pictureReplace matchStr inner = replaceFirstImg (firstUrlOf v) matchStr) ∧
    (∀ v rest, firstUrlOf (v ++ ',' :: rest) = firstUrlOf v) ∧
    (∀ t rest, t ≠ [] → (∀ c ∈ t, jsWsChar c = false ∧ (c == ',') = false) →
      firstUrlOf (t ++ ' ' :: rest) = t) ∧
    fixPictureSources ("<picture><source srcset=\"img.webp\" type=\"image/webp\">" ++
        "<source srcset=\"img.jpg\"><img alt=\"x\"></picture>").toList =
      ("<picture><source srcset=\"img.webp\" type=\"image/webp\">" ++
        "<source srcset=\"img.jpg\"><img src=\"img.jpg\" alt=\"x\"></picture>").toList ∧
    fixPictureSources
        "<picture><source srcset=\"only.webp\" type=\"image/webp\"><img></picture>".toList =
      ("<picture><source srcset=\"only.webp\" type=\"image/webp\">" ++
        "<img src=\"only.webp\"></picture>").toList ∧
    fixPictureSources
        "<picture><source srcset=\"a.jpg 1x, b.jpg 2x\"><img></picture>".toList =
      "<picture><source srcset=\"a.jpg 1x, b.jpg 2x\"><img src=\"a.jpg\"></picture>".toList ∧
    fixPictureSources
        "<picture><source srcset=\"a.jpg\"><img src=\"keep.jpg\"></picture>".toList =
      "<picture><source srcset=\"a.jpg\"><img src=\"keep.jpg\"></picture>".toList := by
  refine ⟨?_, ?_, ?_, ?_, firstUrlOf_first_token,
    by decide, by decide, by decide, by decide⟩
  · intro matchStr inner h
    simp [pictureReplace, h]
  · intro matchStr inner v h hsrc hurl
    have hie : (firstUrlOf v).isEmpty = false := by
      cases hv : firstUrlOf v with
      | nil => exact absurd hv hurl
      | cons a as => simp
    simp only [pictureReplace, h, Bool.false_eq_true, if_false, hsrc, hie]
  · intro matchStr inner v h hno hsrc hurl
    have hie : (firstUrlOf v).isEmpty = false := by
      cases hv : firstUrlOf v with
      | nil => exact absurd hv hurl
      | cons a as => simp
    simp only [pictureReplace, h, Bool.false_eq_true, if_false, hno, hsrc, hie]
  · intro v rest
    unfold firstUrlOf
    rw [spanNot_append_stop]

/-- Witness for C7 at a concrete grouping: an image without src and a plain
jpg alternative, the jpg URL injected. -/
theorem fixPictureSources_spec_witness :
    pictureReplace "<picture><source srcset=\"u.png\"><img></picture>".toList
        "<source srcset=\"u.png\"><img>".toList =
      replaceFirstImg "u.png".toList
        "<picture><source srcset=\"u.png\"><img></picture>".toList ∧
    firstUrlOf ("b.png".toList ++ ' ' :: "2x".toList) = "b.png".toList := by
  constructor
  · exact fixPictureSources_spec.2.1 _ _ "u.png".toList (by decide) (by decide) (by decide)
  · exact fixPictureSources_spec.2.2.2.2.1 "b.png".toList "2x".toList
      (by decide) (by decide)

/-! ## Markup repair: embed-to-link rewrite (`replaceYouTubeEmbeds` in src/utils.js) -/

/-- The URL tail of the embed pattern after `src="`:
`https?:\/\/(?:www\.)?youtube\.com\/embed\/([^"?]+)[^"]*"[^>]*><\/iframe>`,
returning the captured video id and the rest after the whole match. -/
def ytUrlMatch (t : Str) : Option (Str × Str) :=
  let t1 := if ciStartsWith t "https://".toList then some (t.drop 8)
            else if ciStartsWith t "http://".toList then some (t.drop 7) else none
  match t1 with
  | none => none
  | some u =>
    let u2 := if ciStartsWith u "www.youtube.com/embed/".toList then some (u.drop 22)
              else if ciStartsWith u "youtube.com/embed/".toList then some (u.drop 18)
              else none
    match u2 with
    | none => none
    | some r1 =>
      let vid := r1.takeWhile (fun c => !(c == '"' || c == '?'))
      if vid.isEmpty then none
      else
        match (r1.drop vid.length).dropWhile (fun c => !(c == '"')) with
        | '"' :: r4 =>
          match r4.dropWhile (fun c => !(c == '>')) with
          | '>' :: r6 =>
            if ciStartsWith r6 "</iframe>".toList then some (vid, r6.drop 9) else none
          | _ => none
        | _ => none

/-- The greedy `[^>]*\ssrc="` split search: walk the non-`>` run, preferring
the latest workable `\ssrc="` occurrence (greedy backtracking). -/
def srcSplitTry (f : Str → Option (Str × Str)) : Str → Option (Str × Str)
  | [] => none
  | c :: cs =>
    if c == '>' then none
    else
      match srcSplitTry f cs with
      | some r => some r
      | none =>
        if jsWsChar c && ciStartsWith cs "src=\"".toList then f (cs.drop 5) else none

/-- Match the whole embed regex at the start of the string. -/
def matchIframeAt (s : Str) : Option (Str × Str) :=
  if ciStartsWith s "<iframe".toList then srcSplitTry ytUrlMatch (s.drop 7) else none

/-- `match.match(/\stitle="([^"]*)"/i)`: the accessible title of the matched
embed, if declared. -/
def findTitleIn : Str → Option Str
  | [] => none
  | c :: cs =>
    if jsWsChar c && ciStartsWith cs "title=\"".toList then
      let cap := (cs.drop 7).takeWhile (fun c => !(c == '"'))
      match (cs.drop 7).drop cap.length with
      | '"' :: _ => some cap
      | _ => findTitleIn cs
    else findTitleIn cs

/-- One replacement of the embed rewrite. -/
def ytReplacement (vid title : Str) : Str :=
  "<p><a href=\"https://www.youtube.com/watch?v=".toList ++ vid ++ "\">".toList
    ++ title ++ " (YouTube)</a></p>".toList

/-- The global scan of the embed rewrite. -/
def ytScanF : Nat → Str → Str
  | 0, s => s
  | fuel + 1, s =>
    match s with
    | [] => []
    | c :: cs =>
      match matchIframeAt (c :: cs) with
      | some (vid, rest) =>
        let m := (c :: cs).take ((c :: cs).length - rest.length)
        ytReplacement vid
            (match findTitleIn m with
             | some t => t
             | none => "YouTube Video".toList)
          ++ ytScanF fuel rest
      | none => c :: ytScanF fuel cs

/-- `replaceYouTubeEmbeds` from src/utils.js. -/
def replaceYouTubeEmbeds (html : Str) : Str :=
  ytScanF html.length html

/-! ## Idempotence of the markup repair utilities: infrastructure -/

/-- A case-insensitive prefix test only looks at the first `pat.length`
characters. -/
theorem ciStartsWith_congr (pat : Str) :
    ∀ (s t : Str), s.take pat.length = t.take pat.length →
      ciStartsWith s pat = ciStartsWith t pat := by
  induction pat with
  | nil =>
    intro s t _
    cases s <;> cases t <;> rfl
  | cons p ps ih =>
    intro s t h
    cases s with
    | nil =>
      cases t with
      | nil => rfl
      | cons b bs => simp at h
    | cons a as =>
      cases t with
      | nil => simp at h
      | cons b bs =>
        simp only [List.length_cons, List.take_succ_cons, List.cons.injEq] at h
        show (ciEq a p && ciStartsWith as ps) = (ciEq b p && ciStartsWith bs ps)
        rw [h.1, ih as bs h.2]

/-- A successful case-insensitive prefix test needs enough characters. -/
theorem ciStartsWith_length {s pat : Str} (h : ciStartsWith s pat = true) :
    pat.length ≤ s.length := by
  induction pat generalizing s with
  | nil => simp
  | cons p ps ih =>
    cases s with
    | nil => simp [ciStartsWith] at h
    | cons a as =>
      simp only [ciStartsWith, Bool.and_eq_true] at h
      simpa using ih h.2

/-- Two case-insensitive matches against the same character agree on
lowercase forms. -/
theorem ciEq_trans_lower {c x y : Char} (hx : ciEq c x = true) (hy : ciEq c y = true) :
    x.toLower = y.toLower := by
  simp only [ciEq, beq_iff_eq] at hx hy
  rw [← hx, ← hy]

/-- Element extraction from a case-insensitive prefix match: at any offset
inside the pattern the subject continues with a matching character. -/
theorem ciStartsWith_get (pat : Str) :
    ∀ (s a b : Str), ciStartsWith s pat = true → s = a ++ b →
      a.length < pat.length →
      ∃ d t, b = d :: t ∧ ciEq d (pat.getD a.length 'x') = true := by
  induction pat with
  | nil => intro s a b _ _ h; simp at h
  | cons p ps ih =>
    intro s a b hsw hsplit hlen
    cases a with
    | nil =>
      cases s with
      | nil => simp [ciStartsWith] at hsw
      | cons c cs =>
        simp only [List.nil_append] at hsplit
        subst hsplit
        simp only [ciStartsWith, Bool.and_eq_true] at hsw
        exact ⟨c, cs, rfl, hsw.1⟩
    | cons x xs =>
      cases s with
      | nil => simp at hsplit
      | cons c cs =>
        simp only [List.cons_append, List.cons.injEq] at hsplit
        obtain ⟨rfl, hsplit2⟩ := hsplit
        simp only [ciStartsWith, Bool.and_eq_true] at hsw
        simp only [List.length_cons, Nat.succ_lt_succ_iff] at hlen
        have := ih cs xs b hsw.2 hsplit2 hlen
        simpa using this

/-- The lazy case-insensitive close scan, on success, decomposes its input:
capture, a marker-length window matching the marker, and the rest; no
earlier position matches. -/
theorem lazyCloseCi_decomp (marker : Str) :
    ∀ (t a b : Str), lazyCloseCi marker t = some (a, b) →
      ∃ w, t = a ++ w ++ b ∧ w.length = marker.length ∧
        ciStartsWith (w ++ b) marker = true ∧
        (∀ a₁ a₂, a = a₁ ++ a₂ → a₂ ≠ [] →
          ciStartsWith (a₂ ++ w ++ b) marker = false) := by
  intro t
  induction t with
  | nil =>
    intro a b h
    rw [lazyCloseCi] at h
    split at h
    · rename_i hci
      simp only [Option.some.injEq, Prod.mk.injEq] at h
      obtain ⟨rfl, rfl⟩ := h
      have hl := ciStartsWith_length hci
      simp only [List.length_nil, Nat.le_zero] at hl
      refine ⟨[], by simp, by simp [hl], hci, ?_⟩
      intro a₁ a₂ ha hne
      exact absurd (congrArg List.length ha) (by simp_all)
    · simp at h
  | cons c cs ih =>
    intro a b h
    rw [lazyCloseCi] at h
    split at h
    · rename_i hci
      simp only [Option.some.injEq, Prod.mk.injEq] at h
      obtain ⟨rfl, rfl⟩ := h
      have hlen := ciStartsWith_length hci
      refine ⟨(c :: cs).take marker.length, ?_, ?_, ?_, ?_⟩
      · rw [List.nil_append]
        conv_lhs => rw [← List.take_append_drop marker.length (c :: cs)]
      · rw [List.length_take]
        omega
      · rw [List.take_append_drop]
        exact hci
      · intro a₁ a₂ ha hne
        exact absurd (congrArg List.length ha) (by simp_all)
    · rename_i hci
      cases hrec : lazyCloseCi marker cs with
      | none => rw [hrec] at h; simp at h
      | some pr =>
        rw [hrec] at h
        obtain ⟨a₀, b₀⟩ := pr
        simp only [Option.some.injEq, Prod.mk.injEq] at h
        obtain ⟨ha, hb⟩ := h
        subst ha
        subst hb
        obtain ⟨w, hw1, hw2, hw3, hw4⟩ := ih a₀ b₀ hrec
        refine ⟨w, by simp [hw1], hw2, hw3, ?_⟩
        intro a₁ a₂ hsplit hne
        cases a₁ with
        | nil =>
          simp only [List.nil_append] at hsplit
          rw [← hsplit]
          have : (c :: a₀) ++ w ++ b₀ = c :: cs := by simp [hw1]
          rw [this]
          simpa using hci
        | cons x xs =>
          simp only [List.cons_append, List.cons.injEq] at hsplit
          exact hw4 xs a₂ hsplit.2 hne

/-- The lazy close scan fails exactly when no position matches the marker. -/
theorem lazyCloseCi_none_iff (marker : Str) (hm : marker ≠ []) :
    ∀ (t : Str), lazyCloseCi marker t = none ↔
      (∀ a b, t = a ++ b → ciStartsWith b marker = false) := by
  have hci0 : ciStartsWith [] marker = false := by
    cases marker with
    | nil => exact absurd rfl hm
    | cons m ms => rfl
  intro t
  induction t with
  | nil =>
    rw [lazyCloseCi]
    rw [hci0]
    constructor
    · intro _ a b hab
      have hb : b = [] := by
        cases a with
        | nil => simpa using hab.symm
        | cons x xs => simp at hab
      rw [hb, hci0]
    · intro _
      simp
  | cons c cs ih =>
    rw [lazyCloseCi]
    split
    · rename_i hci
      refine iff_of_false (by simp) ?_
      intro hall
      have := hall [] (c :: cs) rfl
      rw [this] at hci
      simp at hci
    · rename_i hci
      cases hrec : lazyCloseCi marker cs with
      | none =>
        refine iff_of_true rfl ?_
        intro a b hab
        cases a with
        | nil =>
          simp only [List.nil_append] at hab
          subst hab
          simpa using hci
        | cons x xs =>
          simp only [List.cons_append, List.cons.injEq] at hab
          exact (ih.1 hrec) xs b hab.2
      | some pr =>
        obtain ⟨a₀, b₀⟩ := pr
        refine iff_of_false (by simp) ?_
        intro hall
        obtain ⟨w, hw1, hw2, hw3, _⟩ := lazyCloseCi_decomp marker cs a₀ b₀ hrec
        have := hall (c :: a₀) (w ++ b₀) (by simp [hw1])
        rw [this] at hw3
        simp at hw3

/-- Converse of the decomposition: a first occurrence determines the lazy
close scan's result. -/
theorem lazyCloseCi_of_decomp (marker : Str) (hm : marker ≠ []) :
    ∀ (a w b : Str), w.length = marker.length →
      ciStartsWith (w ++ b) marker = true →
      (∀ a₁ a₂, a = a₁ ++ a₂ → a₂ ≠ [] →
        ciStartsWith (a₂ ++ w ++ b) marker = false) →
      lazyCloseCi marker (a ++ w ++ b) = some (a, b) := by
  intro a
  induction a with
  | nil =>
    intro w b hwl hci _
    cases hw : w with
    | nil =>
      subst hw
      simp only [List.length_nil] at hwl
      exact absurd hwl.symm (by simpa using hm)
    | cons x xs =>
      subst hw
      simp only [List.nil_append, List.cons_append]
      rw [lazyCloseCi]
      have hci2 : ciStartsWith (x :: (xs ++ b)) marker = true := by
        simpa using hci
      rw [hci2]
      simp only [if_true]
      have hdrop : (x :: (xs ++ b)).drop marker.length = b := by
        rw [← hwl]
        simp only [List.length_cons]
        show (xs ++ b).drop xs.length = b
        simp
      rw [hdrop]
  | cons x xs ih =>
    intro w b hwl hci hfirst
    have hx : ciStartsWith ((x :: xs) ++ w ++ b) marker = false :=
      hfirst [] (x :: xs) rfl (by simp)
    simp only [List.cons_append]
    rw [lazyCloseCi]
    simp only [List.cons_append] at hx
    rw [hx]
    simp only [Bool.false_eq_true, if_false]
    rw [ih w b hwl hci (fun a₁ a₂ ha hne => hfirst (x :: a₁) a₂ (by simp [ha]) hne)]

/-- Length bookkeeping for a successful lazy close scan. -/
theorem lazyCloseCi_length (marker t a b : Str)
    (h : lazyCloseCi marker t = some (a, b)) :
    t.length = a.length + marker.length + b.length := by
  obtain ⟨w, hw1, hw2, _, _⟩ := lazyCloseCi_decomp marker t a b h
  rw [hw1]
  simp only [List.length_append, hw2]

/-- The picture scan does not depend on the fuel, as long as the fuel covers
the input length. -/
theorem pictureScanF_fuel : ∀ (n : Nat) (s : Str) (f g : Nat),
    s.length ≤ n → s.length ≤ f → s.length ≤ g →
    pictureScanF f s = pictureScanF g s := by
  intro n
  induction n with
  | zero =>
    intro s f g hn _ _
    have : s = [] := by
      cases s with
      | nil => rfl
      | cons c cs => simp at hn
    subst this
    cases f <;> cases g <;> rfl
  | succ n ih =>
    intro s f g hn hf hg
    cases s with
    | nil => cases f <;> cases g <;> rfl
    | cons c cs =>
      cases f with
      | zero => simp at hf
      | succ f' =>
        cases g with
        | zero => simp at hg
        | succ g' =>
          show (if ciStartsWith (c :: cs) "<picture>".toList then _ else _) =
            (if ciStartsWith (c :: cs) "<picture>".toList then _ else _)
          by_cases hop : ciStartsWith (c :: cs) "<picture>".toList = true
          · simp only [hop, if_true]
            cases hlz : lazyCloseCi "</picture>".toList ((c :: cs).drop 9) with
            | none =>
              simp only
              rw [ih cs f' g' (by simpa using Nat.le_of_succ_le_succ hn)
                (by simpa using Nat.le_of_succ_le_succ hf)
                (by simpa using Nat.le_of_succ_le_succ hg)]
            | some pr =>
              obtain ⟨a₀, b₀⟩ := pr
              simp only
              have hlen := lazyCloseCi_length _ _ _ _ hlz
              have hds : ((c :: cs).drop 9).length ≤ cs.length := by
                simp [Nat.sub_le_iff_le_add]
              have hb : b₀.length ≤ n := by
                simp at hlen hn
                omega
              rw [ih b₀ f' g' hb (by simp at hlen hf ⊢; omega)
                (by simp at hlen hg ⊢; omega)]
          · simp only [Bool.not_eq_true] at hop
            simp only [hop, Bool.false_eq_true, if_false]
            rw [ih cs f' g' (by simpa using Nat.le_of_succ_le_succ hn)
              (by simpa using Nat.le_of_succ_le_succ hf)
              (by simpa using Nat.le_of_succ_le_succ hg)]

/-- If no position of `s` starts a (case-insensitive) `</picture>`, the
picture scan leaves `s` unchanged. -/
theorem pictureScanF_closerFree : ∀ (s : Str),
    (∀ a b, s = a ++ b → ciStartsWith b "</picture>".toList = false) →
    ∀ (f : Nat), pictureScanF f s = s := by
  intro s
  induction s with
  | nil =>
    intro _ f
    cases f <;> rfl
  | cons c cs ih =>
    intro hfree f
    cases f with
    | zero => rfl
    | succ f' =>
      have hcs : ∀ a b, cs = a ++ b → ciStartsWith b "</picture>".toList = false := by
        intro a b hab
        exact hfree (c :: a) b (by simp [hab])
      show (if ciStartsWith (c :: cs) "<picture>".toList then _ else _) = c :: cs
      by_cases hop : ciStartsWith (c :: cs) "<picture>".toList = true
      · simp only [hop, if_true]
        have hnone : lazyCloseCi "</picture>".toList ((c :: cs).drop 9) = none := by
          rw [lazyCloseCi_none_iff _ (by decide)]
          intro a b hab
          refine hfree ((c :: cs).take 9 ++ a) b ?_
          conv_lhs => rw [← List.take_append_drop 9 (c :: cs)]
          rw [hab]
          simp
        rw [hnone]
        simp only
        rw [ih hcs f']
      · simp only [Bool.not_eq_true] at hop
        simp only [hop, Bool.false_eq_true, if_false]
        rw [ih hcs f']

/-- The image-tag position test shared by `hasImgSrcTest` and
`replaceFirstImg`: a case-insensitive `<img` followed by a word boundary. -/
def imgTagAt (t : Str) : Bool :=
  ciStartsWith t "<img".toList &&
    (match t.drop 4 with
     | [] => true
     | d :: _ => !isWordChar d)

/-- `replaceFirstImg` expressed through `imgTagAt`. -/
theorem replaceFirstImg_eq (url : Str) (c : Char) (cs : Str) :
    replaceFirstImg url (c :: cs) =
      (if imgTagAt (c :: cs) then
        "<img src=\"".toList ++ url ++ "\"".toList ++ (c :: cs).drop 4
      else c :: replaceFirstImg url cs) := rfl

/-- `toLower` moves nothing onto a non-lowercase-letter character. -/
theorem toLower_pin (c t : Char) (h : c.toLower = t)
    (ht : ¬(97 ≤ t.toNat ∧ t.toNat ≤ 122)) : c = t := by
  unfold Char.toLower at h
  simp only at h
  by_cases hc : c.toNat ≥ 65 ∧ c.toNat ≤ 90
  · rw [if_pos hc] at h
    exfalso
    apply ht
    have hv : Nat.isValidChar (c.toNat + 32) := Or.inl (by omega)
    have h2 := congrArg Char.toNat h
    rw [Char.ofNat, dif_pos hv] at h2
    have h3 : (Char.ofNatAux (c.toNat + 32) hv).toNat = c.toNat + 32 := by
      simp [Char.ofNatAux, Char.toNat, UInt32.toNat]
    rw [h3] at h2
    omega
  · rw [if_neg hc] at h
    exact h

/-- A case-insensitive match against a non-letter character is exact. -/
theorem ciEq_pin {c : Char} (t : Char) (h : ciEq c t = true)
    (h1 : t.toLower = t) (h2 : ¬(97 ≤ t.toNat ∧ t.toNat ≤ 122)) : c = t := by
  simp only [ciEq, beq_iff_eq] at h
  exact toLower_pin c t (by rw [h, h1]) h2

/-- Two overlapping case-insensitive matches force lowercase agreement of the
pattern characters at the overlap. -/
theorem ci_pos_lower (P Q : Str) (s x y : Str)
    (hP : ciStartsWith s P = true) (hxy : s = x ++ y)
    (hQ : ciStartsWith y Q = true) :
    ∀ j, j < Q.length → x.length + j < P.length →
      (P.getD (x.length + j) 'x').toLower = (Q.getD j 'x').toLower := by
  intro j hj hxj
  have hyl : Q.length ≤ y.length := ciStartsWith_length hQ
  have hjy : j ≤ y.length := le_of_lt (lt_of_lt_of_le hj hyl)
  have hxl : (x ++ y.take j).length = x.length + j := by
    simp [List.length_take]
    omega
  obtain ⟨d, t, hdt, hd⟩ := ciStartsWith_get P s (x ++ y.take j) (y.drop j) hP
    (by rw [hxy, List.append_assoc, List.take_append_drop])
    (by rw [hxl]; exact hxj)
  have hyl2 : (y.take j).length = j := by
    simp [List.length_take]
    omega
  obtain ⟨d', t', hdt', hd'⟩ := ciStartsWith_get Q y (y.take j) (y.drop j) hQ
    (by rw [List.take_append_drop]) (by rw [hyl2]; exact hj)
  rw [hxl] at hd
  rw [hyl2] at hd'
  rw [hdt] at hdt'
  injection hdt' with h1 h2
  subst h1
  exact ciEq_trans_lower hd hd'

/-- Inside the first nine characters of a (case-insensitive) `<picture>`
opener, no word-bounded `<img` tag can start. -/
theorem imgTagAt_false_of_opener {m : Str}
    (hm : ciStartsWith m "<picture>".toList = true) :
    ∀ x y, m = x ++ y → x.length < 9 → imgTagAt y = false := by
  intro x y hxy hxl
  cases hit : imgTagAt y with
  | false => rfl
  | true =>
    exfalso
    have himg : ciStartsWith y "<img".toList = true := by
      have h := hit
      simp only [imgTagAt, Bool.and_eq_true] at h
      exact h.1
    have hP9 : ("<picture>".toList).length = 9 := by decide
    rcases Nat.eq_zero_or_pos x.length with h0 | hpos
    · have h1 := ci_pos_lower "<picture>".toList "<img".toList m x y hm hxy himg
        1 (by decide) (by omega)
      rw [h0] at h1
      exact absurd h1 (by decide)
    · have h1 := ci_pos_lower "<picture>".toList "<img".toList m x y hm hxy himg
        0 (by decide) (by omega)
      have hfact : ∀ i, i < 9 → 1 ≤ i →
          ¬(("<picture>".toList.getD i 'x').toLower =
            ("<img".toList.getD 0 'x').toLower) := by decide
      exact hfact (x.length + 0) (by omega) (by omega) h1

/-- Inside the first nine characters of a (case-insensitive) `<picture>`
opener, no (case-insensitive) `</picture>` closer can start. -/
theorem closer_false_of_opener {m : Str}
    (hm : ciStartsWith m "<picture>".toList = true) :
    ∀ x y, m = x ++ y → x.length < 9 → ciStartsWith y "</picture>".toList = false := by
  intro x y hxy hxl
  cases hit : ciStartsWith y "</picture>".toList with
  | false => rfl
  | true =>
    exfalso
    have hP9 : ("<picture>".toList).length = 9 := by decide
    rcases Nat.eq_zero_or_pos x.length with h0 | hpos
    · have h1 := ci_pos_lower "<picture>".toList "</picture>".toList m x y hm hxy hit
        1 (by decide) (by omega)
      rw [h0] at h1
      exact absurd h1 (by decide)
    · have h1 := ci_pos_lower "<picture>".toList "</picture>".toList m x y hm hxy hit
        0 (by decide) (by omega)
      have hfact : ∀ i, i < 9 → 1 ≤ i →
          ¬(("<picture>".toList.getD i 'x').toLower =
            ("</picture>".toList.getD 0 'x').toLower) := by decide
      exact hfact (x.length + 0) (by omega) (by omega) h1

/-- A closer-free tail region extends over the opener to the whole string. -/
theorem closerFree_extend {s : Str}
    (hop : ciStartsWith s "<picture>".toList = true)
    (hfree : ∀ x y, s.drop 9 = x ++ y → ciStartsWith y "</picture>".toList = false) :
    ∀ x y, s = x ++ y → ciStartsWith y "</picture>".toList = false := by
  intro x y hxy
  by_cases hx : 9 ≤ x.length
  · refine hfree (x.drop 9) y ?_
    rw [hxy, List.drop_append_of_le_length hx]
  · exact closer_false_of_opener hop x y hxy (by omega)

/-- `replaceFirstImg` never shortens its input. -/
theorem replaceFirstImg_len (url : Str) : ∀ m, m.length ≤ (replaceFirstImg url m).length := by
  intro m
  induction m with
  | nil => simp [replaceFirstImg]
  | cons c cs ih =>
    rw [replaceFirstImg_eq]
    by_cases h : imgTagAt (c :: cs) = true
    · rw [if_pos h]
      have h4 : 4 ≤ (c :: cs).length := by
        have hci : ciStartsWith (c :: cs) "<img".toList = true := by
          simp only [imgTagAt, Bool.and_eq_true] at h
          exact h.1
        simpa using ciStartsWith_length hci
      simp only [List.length_append, List.length_drop, List.length_cons]
      simp at h4 ⊢
      omega
    · rw [if_neg h]
      simpa using ih

/-- `replaceFirstImg` preserves any prefix free of word-bounded `<img` tags. -/
theorem replaceFirstImg_take (url : Str) : ∀ (m : Str) (k : Nat),
    (∀ x y, m = x ++ y → x.length < k → imgTagAt y = false) →
    (replaceFirstImg url m).take k = m.take k := by
  intro m
  induction m with
  | nil => intro k _; rfl
  | cons c cs ih =>
    intro k hk
    cases k with
    | zero => simp
    | succ k' =>
      have h0 : imgTagAt (c :: cs) = false := hk [] (c :: cs) rfl (by simp)
      rw [replaceFirstImg_eq, if_neg (by simp [h0])]
      simp only [List.take_succ_cons]
      rw [ih k' ?_]
      intro x y hxy hxl
      exact hk (c :: x) y (by simp [hxy]) (by simpa using Nat.succ_lt_succ hxl)

/-- `replaceFirstImg` either leaves its input alone or splices the
src-attributed tag over the first word-bounded `<img`. -/
theorem replaceFirstImg_decomp (url : Str) : ∀ (m : Str),
    replaceFirstImg url m = m ∨
    ∃ m₁ i4 m₂, m = m₁ ++ i4 ++ m₂ ∧ i4.length = 4 ∧
      imgTagAt (i4 ++ m₂) = true ∧
      replaceFirstImg url m =
        m₁ ++ "<img src=\"".toList ++ url ++ "\"".toList ++ m₂ := by
  intro m
  induction m with
  | nil => left; rfl
  | cons c cs ih =>
    by_cases h : imgTagAt (c :: cs) = true
    · right
      have h4 : ciStartsWith (c :: cs) "<img".toList = true := by
        simp only [imgTagAt, Bool.and_eq_true] at h
        exact h.1
      have hl : 4 ≤ cs.length + 1 := by simpa using ciStartsWith_length h4
      refine ⟨[], (c :: cs).take 4, (c :: cs).drop 4, by simp,
        by simp [List.length_take]; omega, ?_, ?_⟩
      · rw [List.take_append_drop]
        exact h
      · rw [replaceFirstImg_eq, if_pos (by simp [h])]
        simp
    · rcases ih with h1 | ⟨m₁, i4, m₂, hm, hi4, htag, hrf⟩
      · left
        rw [replaceFirstImg_eq, if_neg (by simp [h]), h1]
      · right
        refine ⟨c :: m₁, i4, m₂, by simp [hm], hi4, htag, ?_⟩
        rw [replaceFirstImg_eq, if_neg (by simp [h]), hrf]
        simp

/-- `pictureReplace` never shortens the matched grouping. -/
theorem pictureReplace_len (ms i : Str) : ms.length ≤ (pictureReplace ms i).length := by
  unfold pictureReplace
  by_cases h1 : hasImgSrcTest i = true
  · rw [if_pos h1]
  · rw [if_neg h1]
    simp only
    cases h2 : (match findSourceCi true i with
      | some v => some v
      | none => findSourceCi false i) with
    | none => exact le_refl _
    | some v =>
      simp only
      by_cases h3 : (firstUrlOf v).isEmpty = true
      · rw [if_pos h3]
      · rw [if_neg h3]
        exact replaceFirstImg_len _ ms

/-- `pictureReplace` preserves the first nine characters of an opener-led
grouping. -/
theorem pictureReplace_take (ms i : Str) (k : Nat) (hk : k ≤ 9)
    (hm : ciStartsWith ms "<picture>".toList = true) :
    (pictureReplace ms i).take k = ms.take k := by
  unfold pictureReplace
  by_cases h1 : hasImgSrcTest i = true
  · rw [if_pos h1]
  · rw [if_neg h1]
    simp only
    cases h2 : (match findSourceCi true i with
      | some v => some v
      | none => findSourceCi false i) with
    | none => rfl
    | some v =>
      simp only
      by_cases h3 : (firstUrlOf v).isEmpty = true
      · rw [if_pos h3]
      · rw [if_neg h3]
        refine replaceFirstImg_take _ ms k ?_
        intro x y hxy hxl
        exact imgTagAt_false_of_opener hm x y hxy (by omega)

/-- The picture scan preserves the first nine characters of its input. -/
theorem pictureScanF_take : ∀ (n : Nat) (s : Str) (f k : Nat), s.length ≤ n → k ≤ 9 →
    (pictureScanF f s).take k = s.take k := by
  intro n
  induction n with
  | zero =>
    intro s f k hn _
    have hs : s = [] := by
      cases s with
      | nil => rfl
      | cons c cs => simp at hn
    subst hs
    cases f <;> rfl
  | succ n ih =>
    intro s f k hn hk
    cases s with
    | nil => cases f <;> rfl
    | cons c cs =>
      cases f with
      | zero => rfl
      | succ f' =>
        show (pictureScanF (f' + 1) (c :: cs)).take k = _
        rw [show pictureScanF (f' + 1) (c :: cs) =
            (if ciStartsWith (c :: cs) "<picture>".toList then
              match lazyCloseCi "</picture>".toList ((c :: cs).drop 9) with
              | some pr =>
                pictureReplace ((c :: cs).take (9 + pr.1.length + 10)) pr.1
                  ++ pictureScanF f' pr.2
              | none => c :: pictureScanF f' cs
            else c :: pictureScanF f' cs) from rfl]
        by_cases hop : ciStartsWith (c :: cs) "<picture>".toList = true
        · rw [if_pos hop]
          cases hlz : lazyCloseCi "</picture>".toList ((c :: cs).drop 9) with
          | none =>
            simp only
            cases k with
            | zero => simp
            | succ k' =>
              simp only [List.take_succ_cons]
              rw [ih cs f' k' (by simpa using Nat.le_of_succ_le_succ hn) (by omega)]
          | some pr =>
            obtain ⟨a₀, b₀⟩ := pr
            simp only
            obtain ⟨w, hw1, hw2, hwc, -⟩ :=
              lazyCloseCi_decomp "</picture>".toList _ a₀ b₀ hlz
            have h9 : 9 ≤ cs.length + 1 := by
              have := ciStartsWith_length hop
              simpa using this
            have hdl : ((c :: cs).drop 9).length = cs.length + 1 - 9 := by
              simp
            have hlen : cs.length + 1 - 9 = a₀.length + 10 + b₀.length := by
              rw [← hdl, hw1]
              simp [hw2]
              omega
            set M := (c :: cs).take (9 + a₀.length + 10) with hM
            have hMl : M.length = 19 + a₀.length := by
              rw [hM]
              simp [List.length_take]
              omega
            have hMt : M.take 9 = (c :: cs).take 9 := by
              rw [hM, List.take_take]
              congr 1
            have hMop : ciStartsWith M "<picture>".toList = true := by
              rw [ciStartsWith_congr "<picture>".toList M (c :: cs)
                (by rw [show ("<picture>".toList).length = 9 from by decide]; exact hMt)]
              exact hop
            have hXl : 9 ≤ (pictureReplace M a₀).length := by
              have := pictureReplace_len M a₀
              omega
            rw [List.take_append_of_le_length (le_trans hk hXl)]
            rw [pictureReplace_take M a₀ k hk hMop]
            rw [hM, List.take_take]
            congr 1
            omega
        · simp only [Bool.not_eq_true] at hop
          rw [hop]
          simp only [Bool.false_eq_true, if_false]
          cases k with
          | zero => simp
          | succ k' =>
            simp only [List.take_succ_cons]
            rw [ih cs f' k' (by simpa using Nat.le_of_succ_le_succ hn) (by omega)]

/-- A word-bounded `<img` match inside an opener-and-closer delimited
grouping lies strictly inside the inner capture. -/
theorem imgMatch_in_inner (op9 a w b M₁ i4 M₂ : Str)
    (hM : op9 ++ a ++ w = M₁ ++ i4 ++ M₂)
    (hop : ciStartsWith (op9 ++ a ++ w) "<picture>".toList = true)
    (hop9 : op9.length = 9)
    (hw : w.length = 10)
    (hcl : ciStartsWith (w ++ b) "</picture>".toList = true)
    (hi4 : i4.length = 4)
    (htag : imgTagAt (i4 ++ M₂) = true) :
    ∃ m₁ a₂, a = m₁ ++ i4 ++ a₂ ∧ M₁ = op9 ++ m₁ ∧ M₂ = a₂ ++ w := by
  have hcl10 : ("</picture>".toList).length = 10 := by decide
  have himg4 : ("<img".toList).length = 4 := by decide
  have himg : ciStartsWith (i4 ++ M₂) "<img".toList = true := by
    simp only [imgTagAt, Bool.and_eq_true] at htag
    exact htag.1
  have hM₁9 : 9 ≤ M₁.length := by
    by_contra h
    have := imgTagAt_false_of_opener hop M₁ (i4 ++ M₂)
      (by rw [hM, List.append_assoc]) (by omega)
    rw [htag] at this
    exact absurd this (by decide)
  have hsplit : ∃ m₁, M₁ = op9 ++ m₁ ∧ a ++ w = m₁ ++ (i4 ++ M₂) := by
    have h2 : op9 ++ (a ++ w) = M₁ ++ (i4 ++ M₂) := by
      rw [← List.append_assoc, ← List.append_assoc, hM]
    rcases List.append_eq_append_iff.mp h2 with ⟨u, hu1, hu2⟩ | ⟨u, hu1, hu2⟩
    · exact ⟨u, hu1, hu2⟩
    · have hul : u.length = 0 := by
        have := congrArg List.length hu1
        simp at this
        omega
      have hu : u = [] := List.eq_nil_of_length_eq_zero hul
      subst hu
      refine ⟨[], by simpa using hu1.symm, ?_⟩
      simpa using hu2.symm
  obtain ⟨m₁, hm₁, haw⟩ := hsplit
  have himgE : ciStartsWith (i4 ++ M₂ ++ b) "<img".toList = true := by
    rw [ciStartsWith_congr "<img".toList (i4 ++ M₂ ++ b) (i4 ++ M₂) ?_]
    · exact himg
    · rw [List.append_assoc, himg4,
        List.take_append_of_le_length (by omega),
        List.take_append_of_le_length (by omega)]
  rcases List.append_eq_append_iff.mp haw with ⟨u, hu1, hu2⟩ | ⟨u, hu1, hu2⟩
  · -- m₁ = a ++ u, w = u ++ (i4 ++ M₂) : the tag would start inside the closer
    exfalso
    cases u with
    | nil =>
      simp only [List.nil_append] at hu2
      have hcc := ci_pos_lower "</picture>".toList "<img".toList
        (w ++ b) [] (w ++ b) hcl rfl
        (by rw [ciStartsWith_congr "<img".toList (w ++ b) (i4 ++ M₂ ++ b) ?_]
            · exact himgE
            · rw [hu2])
        1 (by decide) (by decide)
      exact absurd hcc (by decide)
    | cons u0 us =>
      have hul : (u0 :: us).length < 10 := by
        have hh := congrArg List.length hu2
        simp [hi4] at hh
        simp
        omega
      have hcc := ci_pos_lower "</picture>".toList "<img".toList
        (w ++ b) (u0 :: us) (i4 ++ M₂ ++ b) hcl
        (by rw [hu2]; simp) himgE
        0 (by decide) (by rw [hcl10]; omega)
      have hfact : ∀ i, i < 10 → 1 ≤ i →
          ¬(("</picture>".toList.getD i 'x').toLower =
            ("<img".toList.getD 0 'x').toLower) := by decide
      exact hfact ((u0 :: us).length + 0) (by omega) (by simp) hcc
  · -- a = m₁ ++ u, i4 ++ M₂ = u ++ w
    rcases List.append_eq_append_iff.mp hu2 with ⟨z, hz1, hz2⟩ | ⟨z, hz1, hz2⟩
    · -- u = i4 ++ z, M₂ = z ++ w : the good case
      exact ⟨m₁, z, by rw [hu1, hz1, List.append_assoc], hm₁, hz2⟩
    · -- i4 = u ++ z, w = z ++ M₂
      cases z with
      | nil =>
        -- i4 = u, w = M₂ : also the good case with an empty middle
        simp only [List.append_nil] at hz1
        refine ⟨m₁, [], ?_, hm₁, ?_⟩
        · rw [hu1, hz1]
          simp
        · simpa using hz2.symm
      | cons z0 zs =>
        -- the tag would cross into the closer
        exfalso
        have hul3 : u.length < 4 := by
          have hh := congrArg List.length hz1
          simp [hi4] at hh
          omega
        have hclE : ciStartsWith ((z0 :: zs) ++ M₂ ++ b) "</picture>".toList = true := by
          rw [ciStartsWith_congr "</picture>".toList ((z0 :: zs) ++ M₂ ++ b) (w ++ b) ?_]
          · exact hcl
          · rw [hz2]
        rcases Nat.eq_zero_or_pos u.length with h0 | hpos
        · have hu0 : u = [] := List.eq_nil_of_length_eq_zero h0
          subst hu0
          simp only [List.nil_append] at hz1
          have hcc2 := ci_pos_lower "<img".toList "</picture>".toList
            (i4 ++ M₂ ++ b) [] (i4 ++ M₂ ++ b) himgE rfl
            (by rw [ciStartsWith_congr "</picture>".toList (i4 ++ M₂ ++ b)
                  ((z0 :: zs) ++ M₂ ++ b) ?_]
                · exact hclE
                · rw [hz1])
            1 (by decide) (by decide)
          exact absurd hcc2 (by decide)
        · have hcc := ci_pos_lower "<img".toList "</picture>".toList
            (i4 ++ M₂ ++ b) u ((z0 :: zs) ++ M₂ ++ b) himgE
            (by rw [hz1]; simp) hclE
            0 (by decide) (by rw [himg4]; omega)
          have hfact : ∀ i, i < 4 → 1 ≤ i →
              ¬(("<img".toList.getD i 'x').toLower =
                ("</picture>".toList.getD 0 'x').toLower) := by decide
          exact hfact (u.length + 0) (by omega) (by omega) hcc

/-- A case-insensitive prefix test ignores material beyond the pattern
length. -/
theorem ciStartsWith_append_congr (pat x ρ₁ ρ₂ : Str) (h : pat.length ≤ x.length) :
    ciStartsWith (x ++ ρ₁) pat = ciStartsWith (x ++ ρ₂) pat := by
  refine ciStartsWith_congr pat _ _ ?_
  rw [List.take_append_of_le_length h, List.take_append_of_le_length h]

/-- The srcset capture is a quote-free infix of the searched region. -/
theorem lastSrcsetMatch_infix : ∀ (s : Str) (prev : Char) (v : Str),
    lastSrcsetMatch prev s = some v →
    (∀ c ∈ v, c ≠ '"') ∧ ∃ p q, s = p ++ v ++ q := by
  intro s
  induction s with
  | nil =>
    intro prev v h
    rw [lastSrcsetMatch] at h
    simp at h
  | cons c cs ih =>
    intro prev v h
    rw [lastSrcsetMatch] at h
    simp only at h
    by_cases hgt : (c == '>') = true
    · rw [if_pos hgt] at h
      exact absurd h (by simp)
    · rw [if_neg hgt] at h
      cases hrec : lastSrcsetMatch c cs with
      | some v' =>
        rw [hrec] at h
        simp only [Option.some.injEq] at h
        subst h
        obtain ⟨hq, p, q, hpq⟩ := ih c v' hrec
        exact ⟨hq, c :: p, q, by simp [hpq]⟩
      | none =>
        rw [hrec] at h
        simp only at h
        by_cases hcond : (!isWordChar prev &&
            ciStartsWith (c :: cs) "srcset=\"".toList) = true
        · rw [if_pos hcond] at h
          by_cases hne : (spanNot '"' ((c :: cs).drop 8)).1.isEmpty = true
          · rw [if_pos hne] at h
            exact absurd h (by simp)
          · rw [if_neg hne] at h
            split at h
            · rename_i ds heq
              simp only [Option.some.injEq] at h
              subst h
              constructor
              · intro x hx hex
                have hp := List.mem_takeWhile_imp (p := fun c => !(c == '"'))
                  (by simpa [spanNot] using hx)
                rw [hex] at hp
                simp at hp
              · refine ⟨(c :: cs).take 8, (spanNot '"' ((c :: cs).drop 8)).2, ?_⟩
                conv_lhs => rw [← List.take_append_drop 8 (c :: cs)]
                rw [List.append_assoc]
                congr 1
                rw [show (spanNot '"' ((c :: cs).drop 8)).1 ++
                    (spanNot '"' ((c :: cs).drop 8)).2 =
                    (c :: cs).drop 8 from by
                  simp [spanNot, List.takeWhile_append_dropWhile]]
            · exact absurd h (by simp)
        · rw [if_neg hcond] at h
          exact absurd h (by simp)

/-- The chosen source's srcset capture is a quote-free infix of the inner
capture. -/
theorem findSourceCi_infix : ∀ (s : Str) (r : Bool) (v : Str),
    findSourceCi r s = some v →
    (∀ c ∈ v, c ≠ '"') ∧ ∃ p q, s = p ++ v ++ q := by
  intro s
  induction s with
  | nil =>
    intro r v h
    rw [findSourceCi] at h
    exact absurd h (by simp)
  | cons c cs ih =>
    intro r v h
    rw [findSourceCi] at h
    by_cases hcond : (ciStartsWith (c :: cs) "<source".toList &&
        (!r || !webpAhead ((c :: cs).drop 7))) = true
    · rw [if_pos hcond] at h
      cases hls : lastSrcsetMatch 'e' ((c :: cs).drop 7) with
      | some v' =>
        rw [hls] at h
        simp only [Option.some.injEq] at h
        subst h
        obtain ⟨hq, p, q, hpq⟩ := lastSrcsetMatch_infix _ _ _ hls
        refine ⟨hq, (c :: cs).take 7 ++ p, q, ?_⟩
        conv_lhs => rw [← List.take_append_drop 7 (c :: cs)]
        rw [hpq]
        simp
      | none =>
        rw [hls] at h
        obtain ⟨hq, p, q, hpq⟩ := ih r v h
        exact ⟨hq, c :: p, q, by simp [hpq]⟩
    · rw [if_neg hcond] at h
      obtain ⟨hq, p, q, hpq⟩ := ih r v h
      exact ⟨hq, c :: p, q, by simp [hpq]⟩

/-- `jsTrim` produces an infix of its input. -/
theorem jsTrim_infix (s : Str) : ∃ p q, s = p ++ jsTrim s ++ q := by
  refine ⟨s.takeWhile jsWsChar,
    (((s.dropWhile jsWsChar).reverse.takeWhile jsWsChar)).reverse, ?_⟩
  unfold jsTrim
  conv_lhs => rw [← List.takeWhile_append_dropWhile jsWsChar s]
  rw [List.append_assoc]
  congr 1
  conv_lhs => rw [← List.reverse_reverse (s.dropWhile jsWsChar)]
  conv_lhs =>
    rw [← List.takeWhile_append_dropWhile jsWsChar (s.dropWhile jsWsChar).reverse]
  rw [List.reverse_append]

/-- The injected URL is an infix of the source value it is extracted from. -/
theorem firstUrlOf_infix (v : Str) : ∃ p q, v = p ++ firstUrlOf v ++ q := by
  obtain ⟨p₁, q₁, h₁⟩ := jsTrim_infix (spanNot ',' v).1
  refine ⟨p₁, (jsTrim (spanNot ',' v).1).dropWhile (fun c => !jsWsChar c) ++
    (q₁ ++ (spanNot ',' v).2), ?_⟩
  have hv : v = (spanNot ',' v).1 ++ (spanNot ',' v).2 :=
    (List.takeWhile_append_dropWhile (fun c => !(c == ',')) v).symm
  conv_lhs => rw [hv, h₁]
  conv_lhs => rw [← List.takeWhile_append_dropWhile
    (fun c => !jsWsChar c) (jsTrim (spanNot ',' v).1)]
  rw [show (jsTrim (spanNot ',' v).1).takeWhile (fun c => !jsWsChar c) =
    firstUrlOf v from rfl]
  simp [List.append_assoc]

/-- Characters of the injected URL come from the source value. -/
theorem firstUrlOf_subset (v : Str) : ∀ c ∈ firstUrlOf v, c ∈ v := by
  intro c hc
  unfold firstUrlOf at hc
  have h1 : c ∈ jsTrim (spanNot ',' v).1 := (List.takeWhile_sublist _).subset hc
  have h2 : c ∈ (spanNot ',' v).1 := by
    unfold jsTrim at h1
    rw [List.mem_reverse] at h1
    have h3 := (List.dropWhile_sublist _).subset h1
    rw [List.mem_reverse] at h3
    exact (List.dropWhile_sublist _).subset h3
  exact (List.takeWhile_sublist _).subset h2

/-- The spliced `<img src="URL"` always passes the has-src test. -/
theorem hasImgSrcTest_inj : ∀ (x : Str) (url z : Str),
    hasImgSrcTest (x ++ "<img src=\"".toList ++ url ++ "\"".toList ++ z) = true := by
  intro x
  induction x with
  | nil =>
    intro url z
    rfl
  | cons c cs ih =>
    intro url z
    show (_ || hasImgSrcTest (cs ++ "<img src=\"".toList ++ url ++ "\"".toList ++ z)) = true
    rw [ih url z, Bool.or_true]

/-- `pictureReplace` either returns the match unchanged, or rewrites it by
`replaceFirstImg` with a nonempty quote-free URL drawn from the inner
capture, and only when the inner capture fails the has-src test. -/
theorem pictureReplace_cases (ms i : Str) :
    pictureReplace ms i = ms ∨
    ∃ url, url ≠ [] ∧ (∀ c ∈ url, c ≠ '"') ∧ (∃ p q, i = p ++ url ++ q) ∧
      hasImgSrcTest i = false ∧ pictureReplace ms i = replaceFirstImg url ms := by
  unfold pictureReplace
  by_cases h1 : hasImgSrcTest i = true
  · rw [if_pos h1]
    left
    rfl
  · rw [if_neg h1]
    simp only
    cases h2 : (match findSourceCi true i with
      | some v => some v
      | none => findSourceCi false i) with
    | none => left; rfl
    | some v =>
      simp only
      by_cases h3 : (firstUrlOf v).isEmpty = true
      · rw [if_pos h3]
        left
        rfl
      · rw [if_neg h3]
        right
        have hv : findSourceCi true i = some v ∨ findSourceCi false i = some v := by
          cases h4 : findSourceCi true i with
          | some v' =>
            rw [h4] at h2
            simp only [Option.some.injEq] at h2
            subst h2
            exact Or.inl rfl
          | none =>
            rw [h4] at h2
            exact Or.inr h2
        have hvfacts : (∀ c ∈ v, c ≠ '"') ∧ ∃ p q, i = p ++ v ++ q := by
          rcases hv with hv | hv
          · exact findSourceCi_infix i true v hv
          · exact findSourceCi_infix i false v hv
        refine ⟨firstUrlOf v, by simpa using h3, ?_, ?_, by simpa using h1, rfl⟩
        · intro c hc
          exact hvfacts.1 c (firstUrlOf_subset v c hc)
        · obtain ⟨p₁, q₁, h₁⟩ := hvfacts.2
          obtain ⟨p₂, q₂, h₂⟩ := firstUrlOf_infix v
          refine ⟨p₁ ++ p₂, q₂ ++ q₁, ?_⟩
          conv_lhs => rw [h₁]
          conv_lhs => rw [h₂]
          simp [List.append_assoc]

/-- No closer can start inside the injected URL or at the closing quote. -/
theorem inj_url_tail_free (a w b url s₁ s₂ a₂ : Str)
    (hmin : ∀ x y, a = x ++ y → y ≠ [] →
      ciStartsWith (y ++ w ++ b) "</picture>".toList = false)
    (hinf : ∃ p q, a = p ++ url ++ q)
    (hurl : url = s₁ ++ s₂) :
    ciStartsWith ((s₂ ++ '"' :: a₂) ++ w ++ b) "</picture>".toList = false := by
  have hcl10 : ("</picture>".toList).length = 10 := by decide
  cases s₂ with
  | nil => rfl
  | cons e es =>
    by_cases hlen : 10 ≤ (e :: es).length
    · -- the whole closer would sit inside the URL, hence inside the capture
      obtain ⟨p, q, hpq⟩ := hinf
      have hm2 : ciStartsWith (((e :: es) ++ q) ++ w ++ b) "</picture>".toList = false := by
        refine hmin (p ++ s₁) ((e :: es) ++ q) ?_ (by simp)
        rw [hpq, hurl]
        simp [List.append_assoc]
      have e1 : ((e :: es) ++ '"' :: a₂) ++ w ++ b =
          (e :: es) ++ (('"' :: a₂) ++ w ++ b) := by simp [List.append_assoc]
      have e2 : ((e :: es) ++ q) ++ w ++ b = (e :: es) ++ (q ++ w ++ b) := by
        simp [List.append_assoc]
      rw [e1, ciStartsWith_append_congr "</picture>".toList (e :: es) _ (q ++ w ++ b)
        (by rw [hcl10]; exact hlen), ← e2]
      exact hm2
    · -- the closer would cross the closing quote, but no closer position is a quote
      cases hres : ciStartsWith (((e :: es) ++ '"' :: a₂) ++ w ++ b)
          "</picture>".toList with
      | false => rfl
      | true =>
        exfalso
        obtain ⟨d, t, hdt, hd⟩ := ciStartsWith_get "</picture>".toList
          (((e :: es) ++ '"' :: a₂) ++ w ++ b) (e :: es) (('"' :: a₂) ++ (w ++ b))
          hres (by simp [List.append_assoc]) (by rw [hcl10]; omega)
        have h1 : (('"' :: a₂) ++ (w ++ b)).head? = some '"' := rfl
        rw [hdt] at h1
        simp only [List.head?_cons, Option.some.injEq] at h1
        subst h1
        have hfact : ∀ i, i < 10 →
            ciEq '"' ("</picture>".toList.getD i 'x') = false := by decide
        rw [hfact ((e :: es).length) (by omega)] at hd
        exact absurd hd (by simp)

/-- No closer can start inside or cross the spliced inner capture except at
suffixes of the original capture, where the original minimality applies. -/
theorem inner_spliced_free (a w b m₁ i4 a₂ url : Str)
    (hmin : ∀ x y, a = x ++ y → y ≠ [] →
      ciStartsWith (y ++ w ++ b) "</picture>".toList = false)
    (ha : a = m₁ ++ i4 ++ a₂)
    (hinf : ∃ p q, a = p ++ url ++ q) :
    ∀ x y, m₁ ++ "<img src=\"".toList ++ url ++ "\"".toList ++ a₂ = x ++ y → y ≠ [] →
      ciStartsWith (y ++ w ++ b) "</picture>".toList = false := by
  have hcl10 : ("</picture>".toList).length = 10 := by decide
  intro x y hxy hy
  have hxy' : m₁ ++ ("<img src=\"".toList ++ (url ++ ('"' :: a₂))) = x ++ y := by
    rw [← hxy]
    simp [List.append_assoc]
  rcases List.append_eq_append_iff.mp hxy' with ⟨u, hu1, hu2⟩ | ⟨u, hu1, hu2⟩
  · -- y lies inside the injected material or the trailing capture
    rcases List.append_eq_append_iff.mp hu2 with ⟨s₁, hs1, hs2⟩ | ⟨s₁, hs1, hs2⟩
    · -- y lies inside url ++ '"' :: a₂
      rcases List.append_eq_append_iff.mp hs2 with ⟨s₂, ht1, ht2⟩ | ⟨s₂, ht1, ht2⟩
      · -- y lies inside '"' :: a₂
        cases s₂ with
        | nil =>
          simp only [List.nil_append] at ht2
          rw [← ht2]
          rfl
        | cons e es =>
          have he : e = '"' ∧ a₂ = es ++ y := by
            have := ht2
            rw [List.cons_append] at this
            injection this with h1 h2
            exact ⟨h1.symm, h2⟩
          refine hmin (m₁ ++ i4 ++ es) y ?_ hy
          rw [ha, he.2]
          simp [List.append_assoc]
      · -- y = s₂ ++ '"' :: a₂ with url = s₁ ++ s₂
        rw [ht2]
        exact inj_url_tail_free a w b url s₁ s₂ a₂ hmin hinf ht1
    · -- y = s₁ ++ url ++ '"' :: a₂ with the literal `<img src="` = u ++ s₁
      cases s₁ with
      | nil =>
        rw [hs2]
        simp only [List.nil_append]
        exact inj_url_tail_free a w b url [] url a₂ hmin hinf (by simp)
      | cons d ds =>
        rcases Nat.eq_zero_or_pos u.length with h0 | hpos
        · -- y is the whole injected tail: starts with '<', 'i'
          have hu : u = [] := List.eq_nil_of_length_eq_zero h0
          subst hu
          simp only [List.nil_append] at hs1
          rw [hs2, ← hs1]
          rfl
        · -- y starts at a later literal character, none of which is ci '<'
          have hd : ("<img src=\"".toList).getD u.length 'x' = d := by
            rw [List.getD_eq_getElem?_getD, hs1,
              List.getElem?_append_right (le_refl u.length)]
            simp
          have hul : u.length < 10 := by
            have hh := congrArg List.length hs1
            simp at hh
            omega
          have hfact : ∀ i, i < 10 → 1 ≤ i →
              ciEq ("<img src=\"".toList.getD i 'x') '<' = false := by decide
          cases hres : ciStartsWith (y ++ w ++ b) "</picture>".toList with
          | false => rfl
          | true =>
            exfalso
            have hyv : y ++ w ++ b = d :: (ds ++ (url ++ '"' :: a₂) ++ w ++ b) := by
              rw [hs2]
              simp [List.append_assoc]
            rw [hyv] at hres
            have : ciEq d '<' = true := by
              have hres' := hres
              rw [show ciStartsWith (d :: (ds ++ (url ++ '"' :: a₂) ++ w ++ b))
                  "</picture>".toList =
                  (ciEq d '<' && ciStartsWith (ds ++ (url ++ '"' :: a₂) ++ w ++ b)
                    "</picture>".toList.tail) from rfl] at hres'
              exact (Bool.and_eq_true _ _ |>.mp hres').1
            rw [← hd] at this
            rw [hfact u.length hul hpos] at this
            exact absurd this (by simp)
  · -- y starts inside the pre-image prefix
    cases u with
    | nil =>
      simp only [List.append_nil] at hu1
      simp only [List.nil_append] at hu2
      rw [hu2]
      rfl
    | cons u0 us =>
      have hminM : ciStartsWith (((u0 :: us) ++ i4 ++ a₂) ++ w ++ b)
          "</picture>".toList = false := by
        refine hmin x ((u0 :: us) ++ i4 ++ a₂) ?_ (by simp)
        rw [ha, hu1]
        simp [List.append_assoc]
      by_cases hlen : 10 ≤ (u0 :: us).length
      · have e1 : y ++ w ++ b =
            (u0 :: us) ++ (("<img src=\"".toList ++ (url ++ '"' :: a₂)) ++ (w ++ b)) := by
          rw [hu2]
          simp [List.append_assoc]
        have e2 : ((u0 :: us) ++ i4 ++ a₂) ++ w ++ b =
            (u0 :: us) ++ ((i4 ++ a₂) ++ (w ++ b)) := by
          simp [List.append_assoc]
        rw [e1, ciStartsWith_append_congr "</picture>".toList (u0 :: us) _
          ((i4 ++ a₂) ++ (w ++ b)) (by rw [hcl10]; exact hlen), ← e2]
        exact hminM
      · cases hres : ciStartsWith (y ++ w ++ b) "</picture>".toList with
        | false => rfl
        | true =>
          exfalso
          obtain ⟨d, t, hdt, hd⟩ := ciStartsWith_get "</picture>".toList
            (y ++ w ++ b) (u0 :: us)
            (("<img src=\"".toList ++ (url ++ '"' :: a₂)) ++ (w ++ b))
            hres (by rw [hu2]; simp [List.append_assoc]) (by rw [hcl10]; omega)
          have h1 : (("<img src=\"".toList ++ (url ++ '"' :: a₂)) ++ (w ++ b)).head? =
              some '<' := rfl
          rw [hdt] at h1
          simp only [List.head?_cons, Option.some.injEq] at h1
          subst h1
          have hfact : ∀ i, i < 10 → 1 ≤ i →
              ciEq '<' ("</picture>".toList.getD i 'x') = false := by decide
          rw [hfact ((u0 :: us).length) (by omega) (by simp)] at hd
          exact absurd hd (by simp)

/-- One scan step on a grouping match. -/
theorem pictureScanF_step_match (g' : Nat) (s a b : Str)
    (hop : ciStartsWith s "<picture>".toList = true)
    (hlz : lazyCloseCi "</picture>".toList (s.drop 9) = some (a, b)) :
    pictureScanF (g' + 1) s =
      pictureReplace (s.take (9 + a.length + 10)) a ++ pictureScanF g' b := by
  cases s with
  | nil =>
    rw [show lazyCloseCi "</picture>".toList (List.drop 9 ([] : Str)) = none from rfl]
      at hlz
    exact absurd hlz (by simp)
  | cons c cs =>
    rw [show pictureScanF (g' + 1) (c :: cs) =
      (if ciStartsWith (c :: cs) "<picture>".toList then
        match lazyCloseCi "</picture>".toList ((c :: cs).drop 9) with
        | some pr =>
          pictureReplace ((c :: cs).take (9 + pr.1.length + 10)) pr.1
            ++ pictureScanF g' pr.2
        | none => c :: pictureScanF g' cs
      else c :: pictureScanF g' cs) from rfl]
    rw [if_pos hop, hlz]

/-- One scan step without a grouping match at the head. -/
theorem pictureScanF_step_nomatch (g' : Nat) (c : Char) (cs : Str)
    (h : ciStartsWith (c :: cs) "<picture>".toList = false ∨
      lazyCloseCi "</picture>".toList ((c :: cs).drop 9) = none) :
    pictureScanF (g' + 1) (c :: cs) = c :: pictureScanF g' cs := by
  rw [show pictureScanF (g' + 1) (c :: cs) =
    (if ciStartsWith (c :: cs) "<picture>".toList then
      match lazyCloseCi "</picture>".toList ((c :: cs).drop 9) with
      | some pr =>
        pictureReplace ((c :: cs).take (9 + pr.1.length + 10)) pr.1
          ++ pictureScanF g' pr.2
      | none => c :: pictureScanF g' cs
    else c :: pictureScanF g' cs) from rfl]
  rcases h with h | h
  · rw [h]
    simp
  · by_cases hop : ciStartsWith (c :: cs) "<picture>".toList = true
    · rw [if_pos hop, h]
    · simp only [Bool.not_eq_true] at hop
      rw [hop]
      simp

/-- `pictureReplace` either keeps the match or splices the src-attributed
image tag over the first word-bounded `<img` of the match. -/
theorem pictureReplace_full_cases (ms i : Str) :
    pictureReplace ms i = ms ∨
    ∃ url M₁ i4 M₂, url ≠ [] ∧ (∃ p q, i = p ++ url ++ q) ∧
      hasImgSrcTest i = false ∧
      ms = M₁ ++ i4 ++ M₂ ∧ i4.length = 4 ∧ imgTagAt (i4 ++ M₂) = true ∧
      pictureReplace ms i = M₁ ++ "<img src=\"".toList ++ url ++ "\"".toList ++ M₂ := by
  rcases pictureReplace_cases ms i with h | ⟨url, hne, hq, hinf, hno, hR⟩
  · left
    exact h
  · rcases replaceFirstImg_decomp url ms with h2 | ⟨M₁, i4, M₂, hM, hi4, htag, hRF⟩
    · left
      rw [hR, h2]
    · right
      exact ⟨url, M₁, i4, M₂, hne, hinf, hno, hM, hi4, htag, by rw [hR, hRF]⟩

/-- A second scan pass over the output of the picture scan changes nothing. -/
theorem pictureScanF_idem : ∀ (n : Nat) (s : Str), s.length ≤ n →
    ∀ f g, s.length ≤ f → (pictureScanF f s).length ≤ g →
    pictureScanF g (pictureScanF f s) = pictureScanF f s := by
  intro n
  induction n with
  | zero =>
    intro s hn f g _ _
    have hs : s = [] := by
      cases s with
      | nil => rfl
      | cons c cs => simp at hn
    subst hs
    have h1 : pictureScanF f [] = [] := by cases f <;> rfl
    rw [h1]
    cases g <;> rfl
  | succ n ih =>
    intro s hn f g hf hg
    cases s with
    | nil =>
      have h1 : pictureScanF f [] = [] := by cases f <;> rfl
      rw [h1]
      cases g <;> rfl
    | cons c cs =>
      cases f with
      | zero => simp at hf
      | succ f' =>
        simp only [List.length_cons] at hn hf
        by_cases hop : ciStartsWith (c :: cs) "<picture>".toList = true
        · cases hlz : lazyCloseCi "</picture>".toList ((c :: cs).drop 9) with
          | none =>
            have hfree0 := (lazyCloseCi_none_iff "</picture>".toList (by decide)
              ((c :: cs).drop 9)).mp hlz
            have hfree := closerFree_extend hop hfree0
            rw [pictureScanF_closerFree (c :: cs) hfree (f' + 1)]
            exact pictureScanF_closerFree (c :: cs) hfree g
          | some pr =>
            obtain ⟨a, b⟩ := pr
            obtain ⟨w, hw1, hw2, hwc, hmin⟩ :=
              lazyCloseCi_decomp "</picture>".toList _ a b hlz
            have hw10 : w.length = 10 := by rw [hw2]; decide
            have h9 : 9 ≤ cs.length + 1 := by
              have := ciStartsWith_length hop
              simpa using this
            have hsd : (c :: cs) = (c :: cs).take 9 ++ (a ++ w ++ b) := by
              conv_lhs => rw [← List.take_append_drop 9 (c :: cs)]
              rw [hw1]
            have hop9 : ((c :: cs).take 9).length = 9 := by
              simp [List.length_take]
              omega
            have hslen : cs.length + 1 = 19 + a.length + b.length := by
              have hh := congrArg List.length hsd
              simp only [List.length_cons, List.length_append, hop9, hw10] at hh
              omega
            have hM : (c :: cs).take (9 + a.length + 10) =
                (c :: cs).take 9 ++ a ++ w := by
              conv_lhs => rw [hsd]
              rw [show 9 + a.length + 10 = ((c :: cs).take 9).length +
                (a.length + 10) from by rw [hop9]; omega]
              rw [List.take_append]
              rw [show a.length + 10 = (a ++ w).length from by simp [hw10]]
              rw [List.take_append_of_le_length (le_refl _), List.take_length,
                List.append_assoc]
            rw [pictureScanF_step_match f' (c :: cs) a b hop hlz] at hg ⊢
            set op9 := (c :: cs).take 9 with hop9d
            set M := (c :: cs).take (9 + a.length + 10) with hMd
            have hMl : M.length = 19 + a.length := by
              rw [hM]
              simp only [List.length_append, hop9, hw10]
              omega
            have hMop : ciStartsWith M "<picture>".toList = true := by
              have he : M.take ("<picture>".toList).length =
                  (c :: cs).take ("<picture>".toList).length := by
                rw [show ("<picture>".toList).length = 9 from by decide]
                rw [hMd, List.take_take]
                congr 1
              rw [ciStartsWith_congr "<picture>".toList M (c :: cs) he]
              exact hop
            set T := pictureScanF f' b with hTd
            have hbn : b.length ≤ n := by omega
            have hbf : b.length ≤ f' := by omega
            have hPRl : 19 + a.length ≤ (pictureReplace M a).length := by
              have := pictureReplace_len M a
              omega
            cases g with
            | zero =>
              exfalso
              simp only [List.length_append] at hg
              omega
            | succ g' =>
              simp only [List.length_append] at hg
              have hTg : T.length ≤ g' := by omega
              have hT : pictureScanF g' T = T := by
                rw [hTd]
                exact ih b hbn f' g' hbf (by rw [← hTd]; exact hTg)
              have hwT : ciStartsWith (w ++ T) "</picture>".toList = true := by
                rw [ciStartsWith_append_congr "</picture>".toList w T b
                  (by rw [show ("</picture>".toList).length = 10 from by decide, hw10])]
                exact hwc
              rcases pictureReplace_full_cases M a with hV |
                ⟨url, M₁, i4, M₂, hune, huinf, hno, hM12, hi4, htag, hV⟩
              · rw [hV]
                have hop2 : ciStartsWith (M ++ T) "<picture>".toList = true := by
                  have he : (M ++ T).take ("<picture>".toList).length =
                      (c :: cs).take ("<picture>".toList).length := by
                    rw [show ("<picture>".toList).length = 9 from by decide]
                    rw [List.take_append_of_le_length (by omega)]
                    rw [hMd, List.take_take]
                    congr 1
                  rw [ciStartsWith_congr "<picture>".toList (M ++ T) (c :: cs) he]
                  exact hop
                have hdrop : (M ++ T).drop 9 = a ++ w ++ T := by
                  rw [hM]
                  rw [show op9 ++ a ++ w ++ T = op9 ++ (a ++ w ++ T) from by
                    simp [List.append_assoc]]
                  rw [show (9 : Nat) = op9.length from hop9.symm]
                  exact List.drop_left _ _
                have hlz2 : lazyCloseCi "</picture>".toList ((M ++ T).drop 9) =
                    some (a, T) := by
                  rw [hdrop]
                  refine lazyCloseCi_of_decomp "</picture>".toList (by decide)
                    a w T hw2 hwT ?_
                  intro a₁ a₂ ha12 hne2
                  have hb2 := hmin a₁ a₂ ha12 hne2
                  rw [show a₂ ++ w ++ T = (a₂ ++ w) ++ T from by
                    simp [List.append_assoc]]
                  rw [ciStartsWith_append_congr "</picture>".toList (a₂ ++ w) T b
                    (by rw [show ("</picture>".toList).length = 10 from by decide]
                        simp [hw10])]
                  rw [show (a₂ ++ w) ++ b = a₂ ++ w ++ b from by
                    simp [List.append_assoc]]
                  exact hb2
                rw [pictureScanF_step_match g' (M ++ T) a T hop2 hlz2]
                rw [show 9 + a.length + 10 = M.length from by omega]
                rw [List.take_left]
                rw [hV, hT]
              · obtain ⟨m₁, a₂, ha2, hM₁, hM₂⟩ := imgMatch_in_inner op9 a w b M₁ i4 M₂
                  (by rw [← hM]; exact hM12)
                  (by rw [← hM]; exact hMop)
                  hop9 hw10 hwc hi4 htag
                have hRform : pictureReplace M a =
                    op9 ++ (m₁ ++ "<img src=\"".toList ++ url ++ "\"".toList ++ a₂)
                      ++ w := by
                  rw [hV, hM₁, hM₂]
                  simp [List.append_assoc]
                have hinjT : hasImgSrcTest
                    (m₁ ++ "<img src=\"".toList ++ url ++ "\"".toList ++ a₂) = true :=
                  hasImgSrcTest_inj m₁ url a₂
                set inner2 := m₁ ++ "<img src=\"".toList ++ url ++ "\"".toList ++ a₂
                  with hin
                have hinl : (pictureReplace M a).length = 9 + inner2.length + 10 := by
                  rw [hRform]
                  simp only [List.length_append, hop9, hw10]
                have hop2 : ciStartsWith (pictureReplace M a ++ T)
                    "<picture>".toList = true := by
                  have he : (pictureReplace M a ++ T).take ("<picture>".toList).length =
                      (c :: cs).take ("<picture>".toList).length := by
                    rw [show ("<picture>".toList).length = 9 from by decide]
                    rw [List.take_append_of_le_length (by omega)]
                    rw [hRform]
                    rw [List.take_append_of_le_length (by simp [hop9])]
                    rw [List.take_append_of_le_length (by simp [hop9])]
                    rw [hop9d, List.take_take]
                    congr 1
                  rw [ciStartsWith_congr "<picture>".toList (pictureReplace M a ++ T)
                    (c :: cs) he]
                  exact hop
                have hdrop : (pictureReplace M a ++ T).drop 9 = inner2 ++ w ++ T := by
                  rw [hRform]
                  rw [show op9 ++ inner2 ++ w ++ T = op9 ++ (inner2 ++ w ++ T) from by
                    simp [List.append_assoc]]
                  rw [show (9 : Nat) = op9.length from hop9.symm]
                  exact List.drop_left _ _
                have hfree2 := inner_spliced_free a w b m₁ i4 a₂ url hmin ha2 huinf
                have hlz2 : lazyCloseCi "</picture>".toList
                    ((pictureReplace M a ++ T).drop 9) = some (inner2, T) := by
                  rw [hdrop]
                  refine lazyCloseCi_of_decomp "</picture>".toList (by decide)
                    inner2 w T hw2 hwT ?_
                  intro a₁ a₂' ha12 hne2
                  have hb2 := hfree2 a₁ a₂' (by rw [← hin]; exact ha12) hne2
                  rw [show a₂' ++ w ++ T = (a₂' ++ w) ++ T from by
                    simp [List.append_assoc]]
                  rw [ciStartsWith_append_congr "</picture>".toList (a₂' ++ w) T b
                    (by rw [show ("</picture>".toList).length = 10 from by decide]
                        simp [hw10])]
                  rw [show (a₂' ++ w) ++ b = a₂' ++ w ++ b from by
                    simp [List.append_assoc]]
                  exact hb2
                rw [pictureScanF_step_match g' (pictureReplace M a ++ T) inner2 T
                  hop2 hlz2]
                rw [show 9 + inner2.length + 10 = (pictureReplace M a).length from
                  hinl.symm]
                rw [List.take_left]
                rw [hT]
                congr 1
                unfold pictureReplace
                rw [if_pos hinjT]
        · simp only [Bool.not_eq_true] at hop
          rw [pictureScanF_step_nomatch f' c cs (Or.inl hop)] at hg ⊢
          set T := pictureScanF f' cs with hTd
          cases g with
          | zero => simp at hg
          | succ g' =>
            have hop2 : ciStartsWith (c :: T) "<picture>".toList = false := by
              have he : (c :: T).take ("<picture>".toList).length =
                  (c :: cs).take ("<picture>".toList).length := by
                rw [show ("<picture>".toList).length = 9 from by decide]
                simp only [List.take_succ_cons]
                rw [hTd, pictureScanF_take cs.length cs f' 8 (le_refl _) (by omega)]
              rw [ciStartsWith_congr "<picture>".toList (c :: T) (c :: cs) he]
              exact hop
            rw [pictureScanF_step_nomatch g' c T (Or.inl hop2)]
            simp only [List.length_cons] at hg
            congr 1
            rw [hTd]
            exact ih cs (by omega) f' g' (by omega) (by rw [← hTd]; omega)

/-- The responsive-image fix is idempotent. -/
theorem fixPictureSources_idem (s : Str) :
    fixPictureSources (fixPictureSources s) = fixPictureSources s := by
  unfold fixPictureSources
  exact pictureScanF_idem s.length s (le_refl _) s.length
    (pictureScanF s.length s).length (le_refl _) (le_refl _)

/-! ### Embed-rewrite idempotence: helpers -/

/-- JavaScript whitespace is one of six concrete characters. -/
theorem jsWsChar_cases {c : Char} (h : jsWsChar c = true) :
    c = ' ' ∨ c = '\t' ∨ c = '\n' ∨ c = '\r' ∨ c = '\x0b' ∨ c = '\x0c' := by
  simp only [jsWsChar, Bool.or_eq_true, beq_iff_eq] at h
  tauto

/-- Whitespace is never `>`. -/
theorem jsWsChar_ne_gt {c : Char} (h : jsWsChar c = true) : c ≠ '>' := by
  rcases jsWsChar_cases h with rfl | rfl | rfl | rfl | rfl | rfl <;> decide

/-- Whitespace is never `"`. -/
theorem jsWsChar_ne_quot {c : Char} (h : jsWsChar c = true) : c ≠ '"' := by
  rcases jsWsChar_cases h with rfl | rfl | rfl | rfl | rfl | rfl <;> decide

/-- A failed exact comparison against a non-letter target refutes the
case-insensitive one. -/
theorem ciEq_ne_pin {c : Char} (t : Char) (h1 : t.toLower = t)
    (h2 : ¬(97 ≤ t.toNat ∧ t.toNat ≤ 122)) (h : c ≠ t) : ciEq c t = false := by
  cases hb : ciEq c t with
  | false => rfl
  | true => exact absurd (ciEq_pin t hb h1 h2) h

/-- A case-insensitive prefix certificate truncates to any initial run. -/
theorem ciStartsWith_take_of_append : ∀ (x z pat : Str),
    ciStartsWith (x ++ z) pat = true →
    ciStartsWith x (pat.take x.length) = true := by
  intro x
  induction x with
  | nil => intro z pat _; rfl
  | cons c cs ih =>
    intro z pat h
    cases pat with
    | nil => rfl
    | cons p ps =>
      simp only [List.cons_append, ciStartsWith, Bool.and_eq_true] at h
      simp only [List.length_cons, List.take_succ_cons]
      show (ciEq c p && ciStartsWith cs (ps.take cs.length)) = true
      rw [h.1, ih z ps h.2]
      rfl

/-- A character reached through a case-insensitive match against a pattern
without quote-like images cannot be that character. -/
theorem not_mem_of_ci (LIT seg : Str) (t : Char)
    (hci : ciStartsWith seg LIT = true) (hlen : seg.length = LIT.length)
    (hfa : ∀ i, i < LIT.length → ciEq t (LIT.getD i 'x') = false) :
    t ∉ seg := by
  intro hmem
  obtain ⟨s1, s2, hs⟩ := List.append_of_mem hmem
  obtain ⟨d, t', hdt, hd⟩ := ciStartsWith_get LIT seg s1 (t :: s2) hci hs
    (by have := congrArg List.length hs; simp at this; omega)
  have hdd : d = t := by
    have h1 : (t :: s2).head? = some t := rfl
    rw [hdt] at h1
    simp only [List.head?_cons, Option.some.injEq] at h1
    exact h1
  subst hdd
  rw [hfa s1.length (by have := congrArg List.length hs; simp at this; omega)] at hd
  exact absurd hd (by simp)

/-- Taking from an append keeps membership on either side. -/
theorem mem_takeWhile_append (p : Char → Bool) (u v : Str) (x : Char)
    (h : x ∈ (u ++ v).takeWhile p) : x ∈ u ∨ x ∈ v.takeWhile p := by
  induction u with
  | nil => right; simpa using h
  | cons c cs ih =>
    rw [List.cons_append, List.takeWhile_cons] at h
    by_cases hc : p c = true
    · rw [hc] at h
      simp only [if_true] at h
      rcases List.mem_cons.mp h with rfl | h2
      · left; simp
      · rcases ih h2 with h3 | h3
        · left; simp [h3]
        · right; exact h3
    · simp only [Bool.not_eq_true] at hc
      rw [hc] at h
      simp at h

/-- A quote-free run closed by a quote is exactly the quote-free prefix. -/
theorem takeWhile_of_split (Y t z : Str) (hY : Y = t ++ '"' :: z)
    (ht : ∀ c ∈ t, c ≠ '"') :
    t = Y.takeWhile (fun c => !(c == '"')) := by
  subst hY
  induction t with
  | nil => simp [List.takeWhile_cons]
  | cons c cs ih =>
    rw [List.cons_append, List.takeWhile_cons]
    have hc : c ≠ '"' := ht c (by simp)
    rw [show (!(c == '"')) = true from by simpa using hc]
    simp only [if_true, List.cons.injEq, true_and]
    exact ih (fun x hx => ht x (by simp [hx]))

/-- `takeWhile` passes over a fully satisfying prefix. -/
theorem takeWhile_append_all (p : Char → Bool) : ∀ (u w : Str),
    (∀ c ∈ u, p c = true) → (u ++ w).takeWhile p = u ++ w.takeWhile p := by
  intro u
  induction u with
  | nil => intro w _; simp
  | cons c cs ih =>
    intro w hall
    rw [List.cons_append, List.takeWhile_cons, hall c (by simp)]
    simp only [if_true, List.cons_append, List.cons.injEq, true_and]
    exact ih w (fun x hx => hall x (by simp [hx]))

/-- `dropWhile` passes over a fully satisfying prefix. -/
theorem dropWhile_append_all (p : Char → Bool) : ∀ (u w : Str),
    (∀ c ∈ u, p c = true) → (u ++ w).dropWhile p = w.dropWhile p := by
  intro u
  induction u with
  | nil => intro w _; simp
  | cons c cs ih =>
    intro w hall
    rw [List.cons_append, List.dropWhile_cons, hall c (by simp)]
    simp only [if_true]
    exact ih w (fun x hx => hall x (by simp [hx]))

/-- The first survivor of `dropWhile` fails the predicate. -/
theorem dropWhile_head_false (p : Char → Bool) : ∀ (l : Str) (c : Char) (rest : Str),
    l.dropWhile p = c :: rest → p c = false := by
  intro l
  induction l with
  | nil => intro c rest h; simp at h
  | cons d ds ih =>
    intro c rest h
    rw [List.dropWhile_cons] at h
    by_cases hd : p d = true
    · rw [hd] at h
      simp only [if_true] at h
      exact ih c rest h
    · simp only [Bool.not_eq_true] at hd
      rw [hd] at h
      simp only [Bool.false_eq_true, if_false] at h
      injection h with h1 h2
      subst h1
      exact hd

/-- Dropping the `takeWhile` prefix leaves the `dropWhile` remainder. -/
theorem drop_takeWhile_eq_dropWhile (p : Char → Bool) : ∀ (l : Str),
    l.drop (l.takeWhile p).length = l.dropWhile p := by
  intro l
  induction l with
  | nil => rfl
  | cons c cs ih =>
    rw [List.takeWhile_cons, List.dropWhile_cons]
    by_cases h : p c = true
    · rw [h]
      simp only [if_true, List.length_cons, List.drop_succ_cons]
      exact ih
    · simp only [Bool.not_eq_true] at h
      rw [h]
      simp

/-- No second protocol test fires on an `http://`-led subject. -/
theorem https_clash (hp R : Str) (h7 : hp.length = 7)
    (hci : ciStartsWith hp "http://".toList = true) :
    ciStartsWith (hp ++ R) "https://".toList = false := by
  cases hres : ciStartsWith (hp ++ R) "https://".toList with
  | false => rfl
  | true =>
    exfalso
    have hfull : ciStartsWith (hp ++ R) "http://".toList = true := by
      rw [ciStartsWith_append_congr "http://".toList hp R []
        (by rw [h7]; decide)]
      rw [List.append_nil]
      exact hci
    have hcl := ci_pos_lower "https://".toList "http://".toList (hp ++ R) [] (hp ++ R)
      hres rfl hfull 4 (by decide) (by decide)
    exact absurd hcl (by decide)

/-- No `www.` test fires on a bare `youtube.com`-led subject. -/
theorem www_clash (yt R : Str) (h18 : yt.length = 18)
    (hci : ciStartsWith yt "youtube.com/embed/".toList = true) :
    ciStartsWith (yt ++ R) "www.youtube.com/embed/".toList = false := by
  cases hres : ciStartsWith (yt ++ R) "www.youtube.com/embed/".toList with
  | false => rfl
  | true =>
    exfalso
    have hfull : ciStartsWith (yt ++ R) "youtube.com/embed/".toList = true := by
      rw [ciStartsWith_append_congr "youtube.com/embed/".toList yt R []
        (by rw [h18]; decide)]
      rw [List.append_nil]
      exact hci
    have hcl := ci_pos_lower "www.youtube.com/embed/".toList
      "youtube.com/embed/".toList
      (yt ++ R) [] (yt ++ R) hres rfl hfull 0 (by decide) (by decide)
    exact absurd hcl (by decide)

/-- Rebuilding a structured embed URL always matches, leaving exactly the
trailing material. -/
theorem ytUrlMatch_build (hp yt v ext g2 f9 z : Str)
    (hhp : (hp.length = 8 ∧ ciStartsWith hp "https://".toList = true) ∨
           (hp.length = 7 ∧ ciStartsWith hp "http://".toList = true))
    (hyt : (yt.length = 22 ∧ ciStartsWith yt "www.youtube.com/embed/".toList = true) ∨
           (yt.length = 18 ∧ ciStartsWith yt "youtube.com/embed/".toList = true))
    (hv : v ≠ []) (hvp : ∀ c ∈ v, ¬(c = '"' ∨ c = '?'))
    (hext : ∀ c ∈ ext, c ≠ '"') (hexth : ext = [] ∨ ∃ es, ext = '?' :: es)
    (hg2 : ∀ c ∈ g2, c ≠ '>')
    (hf9l : f9.length = 9) (hf9 : ciStartsWith f9 "</iframe>".toList = true) :
    ytUrlMatch (hp ++ (yt ++ (v ++ (ext ++ '"' :: (g2 ++ '>' :: (f9 ++ z)))))) =
      some (v, z) := by
  have hu : (hp ++ (yt ++ (v ++ (ext ++ '"' :: (g2 ++ '>' :: (f9 ++ z)))))).drop
      hp.length = yt ++ (v ++ (ext ++ '"' :: (g2 ++ '>' :: (f9 ++ z)))) :=
    List.drop_left _ _
  have hr1 : (yt ++ (v ++ (ext ++ '"' :: (g2 ++ '>' :: (f9 ++ z))))).drop
      yt.length = v ++ (ext ++ '"' :: (g2 ++ '>' :: (f9 ++ z))) :=
    List.drop_left _ _
  have ht1 : (if ciStartsWith (hp ++ (yt ++ (v ++ (ext ++ '"' ::
        (g2 ++ '>' :: (f9 ++ z)))))) "https://".toList then
        some ((hp ++ (yt ++ (v ++ (ext ++ '"' :: (g2 ++ '>' :: (f9 ++ z)))))).drop 8)
      else if ciStartsWith (hp ++ (yt ++ (v ++ (ext ++ '"' ::
        (g2 ++ '>' :: (f9 ++ z)))))) "http://".toList then
        some ((hp ++ (yt ++ (v ++ (ext ++ '"' :: (g2 ++ '>' :: (f9 ++ z)))))).drop 7)
      else none) =
      some (yt ++ (v ++ (ext ++ '"' :: (g2 ++ '>' :: (f9 ++ z))))) := by
    rcases hhp with ⟨hl, hc⟩ | ⟨hl, hc⟩
    · rw [if_pos ?_]
      · rw [show (8 : Nat) = hp.length from hl.symm, hu]
      · rw [ciStartsWith_append_congr "https://".toList hp _ []
          (by rw [hl]; decide)]
        rw [List.append_nil]
        exact hc
    · rw [if_neg ?_, if_pos ?_]
      · rw [show (7 : Nat) = hp.length from hl.symm, hu]
      · rw [ciStartsWith_append_congr "http://".toList hp _ []
          (by rw [hl]; decide)]
        rw [List.append_nil]
        exact hc
      · rw [https_clash hp _ hl hc]
        simp
  have ht2 : (if ciStartsWith (yt ++ (v ++ (ext ++ '"' :: (g2 ++ '>' :: (f9 ++ z)))))
        "www.youtube.com/embed/".toList then
        some ((yt ++ (v ++ (ext ++ '"' :: (g2 ++ '>' :: (f9 ++ z))))).drop 22)
      else if ciStartsWith (yt ++ (v ++ (ext ++ '"' :: (g2 ++ '>' :: (f9 ++ z)))))
        "youtube.com/embed/".toList then
        some ((yt ++ (v ++ (ext ++ '"' :: (g2 ++ '>' :: (f9 ++ z))))).drop 18)
      else none) =
      some (v ++ (ext ++ '"' :: (g2 ++ '>' :: (f9 ++ z)))) := by
    rcases hyt with ⟨hl, hc⟩ | ⟨hl, hc⟩
    · rw [if_pos ?_]
      · rw [show (22 : Nat) = yt.length from hl.symm, hr1]
      · rw [ciStartsWith_append_congr "www.youtube.com/embed/".toList yt _ []
          (by rw [hl]; decide)]
        rw [List.append_nil]
        exact hc
    · rw [if_neg ?_, if_pos ?_]
      · rw [show (18 : Nat) = yt.length from hl.symm, hr1]
      · rw [ciStartsWith_append_congr "youtube.com/embed/".toList yt _ []
          (by rw [hl]; decide)]
        rw [List.append_nil]
        exact hc
      · rw [www_clash yt _ hl hc]
        simp
  have hvid : (v ++ (ext ++ '"' :: (g2 ++ '>' :: (f9 ++ z)))).takeWhile
      (fun c => !(c == '"' || c == '?')) = v := by
    rw [takeWhile_append_all _ v _ ?_]
    · rcases hexth with rfl | ⟨es, rfl⟩
      · simp [List.takeWhile_cons]
      · simp [List.takeWhile_cons]
    · intro c hc
      have := hvp c hc
      simp only [Bool.not_eq_true']
      simp only [Bool.or_eq_false_iff, beq_eq_false_iff_ne]
      tauto
  have hdv : (v ++ (ext ++ '"' :: (g2 ++ '>' :: (f9 ++ z)))).drop v.length =
      ext ++ '"' :: (g2 ++ '>' :: (f9 ++ z)) := List.drop_left _ _
  have hd1 : (ext ++ '"' :: (g2 ++ '>' :: (f9 ++ z))).dropWhile
      (fun c => !(c == '"')) = '"' :: (g2 ++ '>' :: (f9 ++ z)) := by
    rw [dropWhile_append_all _ ext _ ?_]
    · simp [List.dropWhile_cons]
    · intro c hc
      simpa using hext c hc
  have hd2 : (g2 ++ '>' :: (f9 ++ z)).dropWhile (fun c => !(c == '>')) =
      '>' :: (f9 ++ z) := by
    rw [dropWhile_append_all _ g2 _ ?_]
    · simp [List.dropWhile_cons]
    · intro c hc
      simpa using hg2 c hc
  have hf : ciStartsWith (f9 ++ z) "</iframe>".toList = true := by
    rw [ciStartsWith_append_congr "</iframe>".toList f9 z [] (by rw [hf9l]; decide)]
    rw [List.append_nil]
    exact hf9
  have hdz : (f9 ++ z).drop 9 = z := by
    rw [show (9 : Nat) = f9.length from hf9l.symm]
    exact List.drop_left _ _
  unfold ytUrlMatch
  simp only
  rw [ht1]
  simp only
  rw [ht2]
  simp only
  rw [hvid]
  rw [if_neg (by simpa using hv)]
  rw [hdv, hd1]
  simp only
  rw [hd2]
  simp only
  rw [hf]
  simp only [if_true]
  rw [hdz]

/-- Structure of a successful embed-URL match. -/
theorem ytUrlMatch_decomp (t v r : Str) (h : ytUrlMatch t = some (v, r)) :
    ∃ hp yt ext g2 f9,
      t = hp ++ (yt ++ (v ++ (ext ++ '"' :: (g2 ++ '>' :: (f9 ++ r))))) ∧
      ((hp.length = 8 ∧ ciStartsWith hp "https://".toList = true) ∨
       (hp.length = 7 ∧ ciStartsWith hp "http://".toList = true)) ∧
      ((yt.length = 22 ∧ ciStartsWith yt "www.youtube.com/embed/".toList = true) ∨
       (yt.length = 18 ∧ ciStartsWith yt "youtube.com/embed/".toList = true)) ∧
      v ≠ [] ∧ (∀ c ∈ v, ¬(c = '"' ∨ c = '?')) ∧
      (∀ c ∈ ext, c ≠ '"') ∧ (ext = [] ∨ ∃ es, ext = '?' :: es) ∧
      (∀ c ∈ g2, c ≠ '>') ∧ f9.length = 9 ∧
      ciStartsWith f9 "</iframe>".toList = true := by
  unfold ytUrlMatch at h
  simp only at h
  have hL8 : ("https://".toList).length = 8 := by decide
  have hL7 : ("http://".toList).length = 7 := by decide
  have hL22 : ("www.youtube.com/embed/".toList).length = 22 := by decide
  have hL18 : ("youtube.com/embed/".toList).length = 18 := by decide
  have hL9 : ("</iframe>".toList).length = 9 := by decide
  -- protocol step
  have hstep1 : ∃ hp u, t = hp ++ u ∧
      ((hp.length = 8 ∧ ciStartsWith hp "https://".toList = true) ∨
       (hp.length = 7 ∧ ciStartsWith hp "http://".toList = true)) ∧
      (match (some u : Option Str) with
        | none => (none : Option (Str × Str))
        | some u =>
          match (if ciStartsWith u "www.youtube.com/embed/".toList then
              some (u.drop 22)
            else if ciStartsWith u "youtube.com/embed/".toList then
              some (u.drop 18) else none) with
          | none => none
          | some r1 =>
            let vid := r1.takeWhile (fun c => !(c == '"' || c == '?'))
            if vid.isEmpty then none
            else
              match (r1.drop vid.length).dropWhile (fun c => !(c == '"')) with
              | '"' :: r4 =>
                (match r4.dropWhile (fun c => !(c == '>')) with
                  | '>' :: r6 =>
                    if ciStartsWith r6 "</iframe>".toList then
                      some (vid, r6.drop 9)
                    else none
                  | _ => none)
              | _ => none) = some (v, r) := by
    by_cases h1 : ciStartsWith t "https://".toList = true
    · rw [if_pos h1] at h
      refine ⟨t.take 8, t.drop 8, (List.take_append_drop 8 t).symm, Or.inl ⟨?_, ?_⟩, h⟩
      · have := ciStartsWith_length h1
        simp [List.length_take]
        omega
      · have h2 := ciStartsWith_take_of_append (t.take 8) (t.drop 8)
          "https://".toList (by rw [List.take_append_drop]; exact h1)
        have hl : (t.take 8).length = 8 := by
          have := ciStartsWith_length h1
          simp [List.length_take]
          omega
        rw [hl] at h2
        simpa using h2
    · rw [if_neg h1] at h
      by_cases h2 : ciStartsWith t "http://".toList = true
      · rw [if_pos h2] at h
        refine ⟨t.take 7, t.drop 7, (List.take_append_drop 7 t).symm, Or.inr ⟨?_, ?_⟩, h⟩
        · have := ciStartsWith_length h2
          simp [List.length_take]
          omega
        · have h3 := ciStartsWith_take_of_append (t.take 7) (t.drop 7)
            "http://".toList (by rw [List.take_append_drop]; exact h2)
          have hl : (t.take 7).length = 7 := by
            have := ciStartsWith_length h2
            simp [List.length_take]
            omega
          rw [hl] at h3
          simpa using h3
      · rw [if_neg h2] at h
        simp at h
  obtain ⟨hp, u, htu, hhp, h⟩ := hstep1
  simp only at h
  -- host step
  have hstep2 : ∃ yt r1, u = yt ++ r1 ∧
      ((yt.length = 22 ∧ ciStartsWith yt "www.youtube.com/embed/".toList = true) ∨
       (yt.length = 18 ∧ ciStartsWith yt "youtube.com/embed/".toList = true)) ∧
      (let vid := r1.takeWhile (fun c => !(c == '"' || c == '?'))
        if vid.isEmpty then none
        else
          match (r1.drop vid.length).dropWhile (fun c => !(c == '"')) with
          | '"' :: r4 =>
            (match r4.dropWhile (fun c => !(c == '>')) with
              | '>' :: r6 =>
                if ciStartsWith r6 "</iframe>".toList then some (vid, r6.drop 9)
                else none
              | _ => none)
          | _ => none) = some (v, r) := by
    by_cases h1 : ciStartsWith u "www.youtube.com/embed/".toList = true
    · rw [if_pos h1] at h
      refine ⟨u.take 22, u.drop 22, (List.take_append_drop 22 u).symm,
        Or.inl ⟨?_, ?_⟩, h⟩
      · have := ciStartsWith_length h1
        simp [List.length_take]
        omega
      · have h2 := ciStartsWith_take_of_append (u.take 22) (u.drop 22)
          "www.youtube.com/embed/".toList (by rw [List.take_append_drop]; exact h1)
        have hl : (u.take 22).length = 22 := by
          have := ciStartsWith_length h1
          simp [List.length_take]
          omega
        rw [hl] at h2
        simpa using h2
    · rw [if_neg h1] at h
      by_cases h2 : ciStartsWith u "youtube.com/embed/".toList = true
      · rw [if_pos h2] at h
        refine ⟨u.take 18, u.drop 18, (List.take_append_drop 18 u).symm,
          Or.inr ⟨?_, ?_⟩, h⟩
        · have := ciStartsWith_length h2
          simp [List.length_take]
          omega
        · have h3 := ciStartsWith_take_of_append (u.take 18) (u.drop 18)
            "youtube.com/embed/".toList (by rw [List.take_append_drop]; exact h2)
          have hl : (u.take 18).length = 18 := by
            have := ciStartsWith_length h2
            simp [List.length_take]
            omega
          rw [hl] at h3
          simpa using h3
      · rw [if_neg h2] at h
        simp at h
  obtain ⟨yt, r1, hur, hyt, h⟩ := hstep2
  simp only at h
  -- capture and closers
  by_cases hvz : (r1.takeWhile (fun c => !(c == '"' || c == '?'))).isEmpty = true
  · rw [if_pos hvz] at h
    simp at h
  · rw [if_neg hvz] at h
    rw [drop_takeWhile_eq_dropWhile] at h
    cases hd1 : (r1.dropWhile (fun c => !(c == '"' || c == '?'))).dropWhile
        (fun c => !(c == '"')) with
    | nil =>
      rw [hd1] at h
      simp at h
    | cons d0 r4 =>
      rw [hd1] at h
      split at h
      rotate_left
      · simp at h
      next r4 heq =>
        injection heq with heq0 heq1
        subst heq0
        subst heq1
        cases hd2 : r4.dropWhile (fun c => !(c == '>')) with
        | nil =>
          rw [hd2] at h
          simp at h
        | cons e0 r6 =>
          rw [hd2] at h
          split at h
          rotate_left
          · simp at h
          next r6 heq2 =>
            injection heq2 with heq3 heq4
            subst heq3
            subst heq4
            by_cases hf : ciStartsWith r6 "</iframe>".toList = true
            · rw [if_pos hf] at h
              simp only [Option.some.injEq, Prod.mk.injEq] at h
              obtain ⟨hveq, hreq⟩ := h
              have h9r : 9 ≤ r6.length := by
                have := ciStartsWith_length hf
                simpa using this
              set VID := r1.takeWhile (fun c => !(c == '"' || c == '?')) with hVID
              set D := r1.dropWhile (fun c => !(c == '"' || c == '?')) with hD
              set EXT := D.takeWhile (fun c => !(c == '"')) with hEXT
              set G2 := r4.takeWhile (fun c => !(c == '>')) with hG2
              have hr1s : r1 = VID ++ D := by
                rw [hVID, hD, List.takeWhile_append_dropWhile]
              have hDs : D = EXT ++ '"' :: r4 := by
                conv_lhs => rw [← List.takeWhile_append_dropWhile
                  (fun c => !(c == '"')) D]
                rw [hd1, hEXT]
              have hr4s : r4 = G2 ++ '>' :: r6 := by
                conv_lhs => rw [← List.takeWhile_append_dropWhile
                  (fun c => !(c == '>')) r4]
                rw [hd2, hG2]
              have hr6s : r6 = r6.take 9 ++ r := by
                rw [← hreq, List.take_append_drop]
              refine ⟨hp, yt, EXT, G2, r6.take 9, ?_, hhp, hyt, ?_, ?_, ?_, ?_,
                ?_, ?_, ?_⟩
              · conv_rhs => rw [← hr6s]
                rw [htu, hur, hr1s, hDs, hr4s, ← hveq]
              · rw [← hveq]
                intro he
                exact hvz (by rw [he]; rfl)
              · rw [← hveq]
                intro c hc
                have := List.mem_takeWhile_imp hc
                simpa using this
              · intro c hc
                have := List.mem_takeWhile_imp (hEXT ▸ hc)
                simpa using this
              · cases hE : EXT with
                | nil => exact Or.inl rfl
                | cons e es =>
                  right
                  refine ⟨es, ?_⟩
                  have hDe : D = e :: (es ++ '"' :: r4) := by
                    rw [hDs, hE]
                    simp
                  have hpe := dropWhile_head_false
                    (fun c => !(c == '"' || c == '?')) r1 e (es ++ '"' :: r4)
                    (by rw [← hD]; exact hDe)
                  have hene : e ≠ '"' := by
                    have := List.mem_takeWhile_imp (l := D)
                      (show e ∈ EXT from by rw [hE]; simp)
                    simpa using this
                  have hpe2 : ¬e = '"' → e = '?' := by simpa using hpe
                  rw [hpe2 hene]
              · intro c hc
                have := List.mem_takeWhile_imp (hG2 ▸ hc)
                simpa using this
              · simp [List.length_take]
                omega
              · have h2 := ciStartsWith_take_of_append (r6.take 9) (r6.drop 9)
                  "</iframe>".toList (by rw [List.take_append_drop]; exact hf)
                have hl : (r6.take 9).length = 9 := by
                  simp [List.length_take]
                  omega
                rw [hl] at h2
                simpa using h2
            · rw [if_neg hf] at h
              simp at h

/-- One-step equation for the greedy src-position search. -/
theorem srcSplitTry_cons (f : Str → Option (Str × Str)) (c : Char) (cs : Str) :
    srcSplitTry f (c :: cs) =
      (if c == '>' then none
      else
        match srcSplitTry f cs with
        | some r => some r
        | none =>
          if jsWsChar c && ciStartsWith cs "src=\"".toList then f (cs.drop 5)
          else none) := rfl

/-- A workable src position makes the greedy search succeed. -/
theorem srcSplitTry_some_of (f : Str → Option (Str × Str)) :
    ∀ (A : Str) (c₀ : Char) (rest : Str),
      (∀ x ∈ A, x ≠ '>') → jsWsChar c₀ = true →
      ciStartsWith rest "src=\"".toList = true →
      f (rest.drop 5) ≠ none →
      srcSplitTry f (A ++ c₀ :: rest) ≠ none := by
  intro A
  induction A with
  | nil =>
    intro c₀ rest _ hws hci hf
    rw [List.nil_append, srcSplitTry_cons,
      if_neg (by simpa using jsWsChar_ne_gt hws)]
    cases hrec : srcSplitTry f rest with
    | some r => simp
    | none =>
      simp only
      rw [hws, hci]
      simpa using hf
  | cons a as ih =>
    intro c₀ rest hA hws hci hf
    rw [List.cons_append, srcSplitTry_cons,
      if_neg (by simpa using hA a (by simp))]
    cases hrec : srcSplitTry f (as ++ c₀ :: rest) with
    | some r => simp
    | none =>
      exact absurd hrec (ih c₀ rest (fun x hx => hA x (by simp [hx])) hws hci hf)

/-- If every src position fails, the greedy search fails. -/
theorem srcSplitTry_none_of (f : Str → Option (Str × Str)) :
    ∀ (s : Str),
      (∀ A c₀ rest, s = A ++ c₀ :: rest → (∀ x ∈ A, x ≠ '>') →
        jsWsChar c₀ = true → ciStartsWith rest "src=\"".toList = true →
        f (rest.drop 5) = none) →
      srcSplitTry f s = none := by
  intro s
  induction s with
  | nil => intro _; rfl
  | cons c cs ih =>
    intro hall
    rw [srcSplitTry_cons]
    by_cases hgt : (c == '>') = true
    · rw [if_pos hgt]
    · rw [if_neg hgt]
      rw [ih (fun A c₀ rest hs hA hws hci =>
        hall (c :: A) c₀ rest (by rw [hs]; rfl)
          (fun x hx => by
            rcases List.mem_cons.mp hx with rfl | hx2
            · simpa using hgt
            · exact hA x hx2)
          hws hci)]
      simp only
      by_cases hcond : (jsWsChar c && ciStartsWith cs "src=\"".toList) = true
      · rw [if_pos hcond]
        rw [Bool.and_eq_true] at hcond
        exact hall [] c cs rfl (by simp) hcond.1 hcond.2
      · rw [if_neg hcond]

/-- A successful greedy search exhibits a workable src position. -/
theorem srcSplitTry_decomp (f : Str → Option (Str × Str)) :
    ∀ (s : Str) (res : Str × Str), srcSplitTry f s = some res →
      ∃ A c₀ rest, s = A ++ c₀ :: rest ∧ (∀ x ∈ A, x ≠ '>') ∧
        jsWsChar c₀ = true ∧ ciStartsWith rest "src=\"".toList = true ∧
        f (rest.drop 5) = some res := by
  intro s
  induction s with
  | nil => intro res h; exact absurd h (by simp [srcSplitTry])
  | cons c cs ih =>
    intro res h
    rw [srcSplitTry_cons] at h
    by_cases hgt : (c == '>') = true
    · rw [if_pos hgt] at h
      exact absurd h (by simp)
    · rw [if_neg hgt] at h
      cases hrec : srcSplitTry f cs with
      | some r =>
        rw [hrec] at h
        simp only [Option.some.injEq] at h
        subst h
        obtain ⟨A, c₀, rest, hs, hA, hws, hci, hf⟩ := ih r hrec
        refine ⟨c :: A, c₀, rest, by rw [hs]; rfl, ?_, hws, hci, hf⟩
        intro x hx
        rcases List.mem_cons.mp hx with rfl | hx2
        · simpa using hgt
        · exact hA x hx2
      | none =>
        rw [hrec] at h
        simp only at h
        by_cases hcond : (jsWsChar c && ciStartsWith cs "src=\"".toList) = true
        · rw [if_pos hcond] at h
          rw [Bool.and_eq_true] at hcond
          exact ⟨[], c, cs, rfl, by simp, hcond.1, hcond.2, h⟩
        · rw [if_neg hcond] at h
          exact absurd h (by simp)

/-- Split a case-insensitive match along an exact-length prefix. -/
theorem ciStartsWith_append_exact : ∀ (p x : Str), x.length = p.length →
    ∀ (q y : Str), ciStartsWith x p = true → ciStartsWith y q = true →
    ciStartsWith (x ++ y) (p ++ q) = true := by
  intro p
  induction p with
  | nil =>
    intro x hx q y _ hy
    have : x = [] := List.eq_nil_of_length_eq_zero (by simpa using hx)
    subst this
    simpa using hy
  | cons pc ps ih =>
    intro x hx q y hp hy
    cases x with
    | nil => simp at hx
    | cons xc xs =>
      simp only [ciStartsWith, Bool.and_eq_true] at hp
      rw [List.cons_append, List.cons_append]
      show (ciEq xc pc && ciStartsWith (xs ++ y) (ps ++ q)) = true
      rw [hp.1, ih xs (by simpa using hx) q y hp.2 hy]
      rfl

/-- The embed matcher cannot fail when an iframe head and a workable src
position are present. -/
theorem matchIframeAt_some_of (s : Str)
    (hci : ciStartsWith s "<iframe".toList = true)
    (h : srcSplitTry ytUrlMatch (s.drop 7) ≠ none) : matchIframeAt s ≠ none := by
  unfold matchIframeAt
  rw [if_pos hci]
  exact h

/-- Structure of a successful embed match. -/
theorem matchIframeAt_decomp (s v r : Str) (h : matchIframeAt s = some (v, r)) :
    ∃ I7 A c₀ S4 hp yt ext g2 f9,
      s = I7 ++ (A ++ c₀ :: (S4 ++ '"' ::
        (hp ++ (yt ++ (v ++ (ext ++ '"' :: (g2 ++ '>' :: (f9 ++ r)))))))) ∧
      I7.length = 7 ∧ ciStartsWith I7 "<iframe".toList = true ∧
      (∀ x ∈ A, x ≠ '>') ∧ jsWsChar c₀ = true ∧
      S4.length = 4 ∧ ciStartsWith S4 "src=".toList = true ∧
      ((hp.length = 8 ∧ ciStartsWith hp "https://".toList = true) ∨
       (hp.length = 7 ∧ ciStartsWith hp "http://".toList = true)) ∧
      ((yt.length = 22 ∧ ciStartsWith yt "www.youtube.com/embed/".toList = true) ∨
       (yt.length = 18 ∧ ciStartsWith yt "youtube.com/embed/".toList = true)) ∧
      v ≠ [] ∧ (∀ c ∈ v, ¬(c = '"' ∨ c = '?')) ∧
      (∀ c ∈ ext, c ≠ '"') ∧ (ext = [] ∨ ∃ es, ext = '?' :: es) ∧
      (∀ c ∈ g2, c ≠ '>') ∧ f9.length = 9 ∧
      ciStartsWith f9 "</iframe>".toList = true := by
  unfold matchIframeAt at h
  have hLif : ("<iframe".toList).length = 7 := by decide
  have hLsrc : ("src=\"".toList).length = 5 := by decide
  by_cases hci : ciStartsWith s "<iframe".toList = true
  · rw [if_pos hci] at h
    obtain ⟨A, c₀, rest, hs7, hA, hws, hsci, hf⟩ := srcSplitTry_decomp _ _ _ h
    have hrl : 5 ≤ rest.length := by
      have := ciStartsWith_length hsci
      simpa using this
    have hq4 : rest = rest.take 4 ++ '"' :: rest.drop 5 := by
      obtain ⟨d, t, hdt, hd⟩ := ciStartsWith_get "src=\"".toList rest
        (rest.take 4) (rest.drop 4) hsci (List.take_append_drop 4 rest).symm
        (by rw [List.length_take]; omega)
      rw [show (rest.take 4).length = 4 from by rw [List.length_take]; omega] at hd
      have hd2 : d = '"' := ciEq_pin '"'
        (by rw [show ("src=\"".toList.getD 4 'x') = '"' from rfl] at hd; exact hd)
        (by decide) (by decide)
      subst hd2
      have ht : t = rest.drop 5 := by
        have h5 : rest.drop 5 = (rest.drop 4).drop 1 := by
          rw [List.drop_drop]
        rw [h5, hdt]
        rfl
      rw [← ht]
      conv_lhs => rw [← List.take_append_drop 4 rest]
      rw [hdt]
    obtain ⟨hp, yt, ext, g2, f9, hurl, hhp, hyt, hvne, hvp, hext, hexth, hg2,
      hf9l, hf9⟩ := ytUrlMatch_decomp (rest.drop 5) v r hf
    refine ⟨s.take 7, A, c₀, rest.take 4, hp, yt, ext, g2, f9, ?_, ?_, ?_, hA, hws,
      ?_, ?_, hhp, hyt, hvne, hvp, hext, hexth, hg2, hf9l, hf9⟩
    · rw [hurl] at hq4
      conv_lhs => rw [← List.take_append_drop 7 s]
      conv_lhs => rw [hs7]
      conv_lhs => rw [hq4]
    · have := ciStartsWith_length hci
      rw [List.length_take]
      omega
    · have h2 := ciStartsWith_take_of_append (s.take 7) (s.drop 7)
        "<iframe".toList (by rw [List.take_append_drop]; exact hci)
      have hl : (s.take 7).length = 7 := by
        have := ciStartsWith_length hci
        rw [List.length_take]
        omega
      rw [hl] at h2
      simpa using h2
    · rw [List.length_take]
      omega
    · have h2 := ciStartsWith_take_of_append (rest.take 4) (rest.drop 4)
        "src=\"".toList (by rw [List.take_append_drop]; exact hsci)
      have hl : (rest.take 4).length = 4 := by
        rw [List.length_take]
        omega
      rw [hl] at h2
      simpa using h2
  · rw [if_neg hci] at h
    exact absurd h (by simp)

/-- Taking up to the satisfying run recovers it. -/
theorem take_takeWhile_eq (p : Char → Bool) : ∀ (l : Str),
    l.take (l.takeWhile p).length = l.takeWhile p := by
  intro l
  induction l with
  | nil => rfl
  | cons c cs ih =>
    rw [List.takeWhile_cons]
    by_cases h : p c = true
    · rw [h]
      simp only [if_true, List.length_cons, List.take_succ_cons, List.cons.injEq,
        true_and]
      exact ih
    · simp only [Bool.not_eq_true] at h
      rw [h]
      simp

/-- Structure of a successful title extraction: a whitespace-led
case-insensitive `title="` with a quote-free capture closed by a quote. -/
theorem findTitleIn_decomp : ∀ (m t : Str), findTitleIn m = some t →
    ∃ x c₀ T6 z, m = x ++ c₀ :: (T6 ++ '"' :: (t ++ '"' :: z)) ∧
      jsWsChar c₀ = true ∧ T6.length = 6 ∧
      ciStartsWith T6 "title=".toList = true ∧ (∀ c ∈ t, c ≠ '"') := by
  intro m
  induction m with
  | nil => intro t h; exact absurd h (by simp [findTitleIn])
  | cons c cs ih =>
    intro t h
    rw [show findTitleIn (c :: cs) =
      (if jsWsChar c && ciStartsWith cs "title=\"".toList then
        match (cs.drop 7).drop
            ((cs.drop 7).takeWhile (fun c => !(c == '"'))).length with
        | '"' :: _ => some ((cs.drop 7).takeWhile (fun c => !(c == '"')))
        | _ => findTitleIn cs
      else findTitleIn cs) from rfl] at h
    have hLt : ("title=\"".toList).length = 7 := by decide
    by_cases hcond : (jsWsChar c && ciStartsWith cs "title=\"".toList) = true
    · rw [if_pos hcond] at h
      rw [Bool.and_eq_true] at hcond
      split at h
      · next w heq =>
        simp only [Option.some.injEq] at h
        subst h
        have hcl : 7 ≤ cs.length := by
          have := ciStartsWith_length hcond.2
          omega
        have hq7 : cs = cs.take 6 ++ '"' :: cs.drop 7 := by
          obtain ⟨d, t', hdt, hd⟩ := ciStartsWith_get "title=\"".toList cs
            (cs.take 6) (cs.drop 6) hcond.2 (List.take_append_drop 6 cs).symm
            (by rw [List.length_take]; omega)
          rw [show (cs.take 6).length = 6 from by rw [List.length_take]; omega] at hd
          have hd2 : d = '"' := ciEq_pin '"'
            (by rw [show ("title=\"".toList.getD 6 'x') = '"' from rfl] at hd
                exact hd)
            (by decide) (by decide)
          subst hd2
          have ht7 : t' = cs.drop 7 := by
            have h7 : cs.drop 7 = (cs.drop 6).drop 1 := by rw [List.drop_drop]
            rw [h7, hdt]
            rfl
          rw [← ht7]
          conv_lhs => rw [← List.take_append_drop 6 cs]
          rw [hdt]
        have hsplit : cs.drop 7 =
            (cs.drop 7).takeWhile (fun c => !(c == '"')) ++ '"' :: w := by
          conv_lhs => rw [← List.take_append_drop
            ((cs.drop 7).takeWhile (fun c => !(c == '"'))).length (cs.drop 7)]
          rw [take_takeWhile_eq, heq]
        refine ⟨[], c, cs.take 6, w, ?_, hcond.1, ?_, ?_, ?_⟩
        · rw [List.nil_append]
          congr 1
          conv_lhs => rw [hq7]
          conv_lhs => rw [hsplit]
        · rw [List.length_take]
          have := ciStartsWith_length hcond.2
          omega
        · have h2 := ciStartsWith_take_of_append (cs.take 6) (cs.drop 6)
            "title=\"".toList (by rw [List.take_append_drop]; exact hcond.2)
          have hl : (cs.take 6).length = 6 := by
            have := ciStartsWith_length hcond.2
            rw [List.length_take]
            omega
          rw [hl] at h2
          simpa using h2
        · intro x hx
          have := List.mem_takeWhile_imp hx
          simpa using this
      · next hne =>
        obtain ⟨x, c₀, T6, z, hm, hws, hT6l, hT6, hqf⟩ := ih t h
        exact ⟨c :: x, c₀, T6, z, by rw [hm]; rfl, hws, hT6l, hT6, hqf⟩
    · rw [if_neg hcond] at h
      obtain ⟨x, c₀, T6, z, hm, hws, hT6l, hT6, hqf⟩ := ih t h
      exact ⟨c :: x, c₀, T6, z, by rw [hm]; rfl, hws, hT6l, hT6, hqf⟩

/-- The captured title of a matched embed never contains `>`: every quote
zone of the matched string that can host a closed capture is `>`-free. -/
theorem title_free
    (I7 A S4 hp yt v ext g2 f9 t : Str) (c₀ : Char)
    (hI7 : ciStartsWith I7 "<iframe".toList = true) (hI7l : I7.length = 7)
    (hA : ∀ x ∈ A, x ≠ '>') (hws : jsWsChar c₀ = true)
    (hS4 : ciStartsWith S4 "src=".toList = true) (hS4l : S4.length = 4)
    (hhp : (hp.length = 8 ∧ ciStartsWith hp "https://".toList = true) ∨
           (hp.length = 7 ∧ ciStartsWith hp "http://".toList = true))
    (hyt : (yt.length = 22 ∧ ciStartsWith yt "www.youtube.com/embed/".toList = true) ∨
           (yt.length = 18 ∧ ciStartsWith yt "youtube.com/embed/".toList = true))
    (hvp : ∀ c ∈ v, ¬(c = '"' ∨ c = '?'))
    (hext : ∀ c ∈ ext, c ≠ '"')
    (hg2 : ∀ c ∈ g2, c ≠ '>')
    (hf9 : ciStartsWith f9 "</iframe>".toList = true) (hf9l : f9.length = 9)
    (ht : findTitleIn ((I7 ++ (A ++ c₀ :: S4)) ++ '"' ::
      ((hp ++ (yt ++ (v ++ ext))) ++ '"' :: (g2 ++ '>' :: f9))) = some t) :
    ∀ c ∈ t, c ≠ '>' := by
  have hf9q : '"' ∉ f9 := not_mem_of_ci "</iframe>".toList f9 '"' hf9
    (by rw [hf9l]; rfl) (by decide)
  have hI7gt : '>' ∉ I7 := not_mem_of_ci "<iframe".toList I7 '>' hI7
    (by rw [hI7l]; rfl) (by decide)
  have hS4gt : '>' ∉ S4 := not_mem_of_ci "src=".toList S4 '>' hS4
    (by rw [hS4l]; rfl) (by decide)
  obtain ⟨x, c₁, T6, z, hm, hws1, hT6l, hT6, hqf⟩ := findTitleIn_decomp _ _ ht
  have hm2 : (I7 ++ (A ++ c₀ :: S4)) ++ '"' ::
      ((hp ++ (yt ++ (v ++ ext))) ++ '"' :: (g2 ++ '>' :: f9)) =
      (x ++ c₁ :: T6) ++ '"' :: (t ++ '"' :: z) := by
    rw [hm]
    simp [List.append_assoc]
  -- the opening quote cannot be the src quote: `title=` clashes with `src=`
  have hPB : I7 ++ (A ++ c₀ :: S4) = x ++ c₁ :: T6 → False := by
    intro hEq
    have hEq2 : (I7 ++ (A ++ [c₀])) ++ S4 = (x ++ [c₁]) ++ T6 := by
      simpa [List.append_assoc] using hEq
    rcases List.append_eq_append_iff.mp hEq2 with ⟨w, hw1, hw2⟩ | ⟨w, hw1, hw2⟩
    · -- x ++ [c₁] = (I7 ++ (A ++ [c₀])) ++ w, T6 = w ++ S4 is the other shape:
      -- here S4 = w ++ T6 with w a prefix: impossible by length
      have := congrArg List.length hw2
      simp [hS4l, hT6l] at this
    · -- T6 = w ++ S4 up to |w| = 2, clash 't' vs 's'
      have hwl : w.length = 2 := by
        have := congrArg List.length hw2
        simp [hS4l] at this
        omega
      have hclash := ci_pos_lower "title=".toList "src=".toList T6 w S4
        hT6 hw2 hS4 0 (by decide) (by rw [hwl]; decide)
      rw [hwl] at hclash
      exact absurd hclash (by decide)
  -- a capture closed inside the trailing zone lies inside g2
  have hB2case : ∀ (t' : Str), (∀ c ∈ t', c ≠ '"') →
      g2 ++ '>' :: f9 = t' ++ '"' :: z → ∀ c ∈ t', c ≠ '>' := by
    intro t' hq' hEq c hc
    rcases List.append_eq_append_iff.mp hEq with ⟨w, hw1, hw2⟩ | ⟨w, hw1, hw2⟩
    · -- t' = g2 ++ w, '>' :: f9 = w ++ '"' :: z
      cases w with
      | nil =>
        rw [List.append_nil] at hw1
        subst hw1
        exact hg2 c hc
      | cons q ws =>
        rw [List.cons_append] at hw2
        injection hw2 with hq1 hq2
        subst hq1
        exfalso
        apply hf9q
        rw [hq2]
        simp
    · -- g2 = t' ++ w, '"' :: z = w ++ '>' :: f9
      intro hgt
      subst hgt
      exact hg2 '>' (by rw [hw1]; simp [hc]) rfl
  rcases List.append_eq_append_iff.mp hm2 with ⟨u, hu1, hu2⟩ | ⟨u, hu1, hu2⟩
  · -- x ++ c₁ :: T6 = B₁ ++ u : the opening quote is at or beyond the src quote
    cases u with
    | nil =>
      rw [List.append_nil] at hu1
      exact absurd hu1.symm hPB
    | cons q qs =>
      rw [List.cons_append] at hu2
      injection hu2 with hq1 hq2
      subst hq1
      -- hq2 : M₁ ++ '"' :: B₂ = qs ++ '"' :: (t ++ '"' :: z)
      have hM1q : ∀ c ∈ hp ++ (yt ++ (v ++ ext)), c ≠ '"' := by
        intro c hc
        simp only [List.mem_append] at hc
        rcases hc with hc | hc | hc | hc
        · intro he
          subst he
          rcases hhp with ⟨hl, hcp⟩ | ⟨hl, hcp⟩
          · exact not_mem_of_ci "https://".toList hp '"' hcp (by rw [hl]; rfl)
              (by decide) hc
          · exact not_mem_of_ci "http://".toList hp '"' hcp (by rw [hl]; rfl)
              (by decide) hc
        · intro he
          subst he
          rcases hyt with ⟨hl, hcp⟩ | ⟨hl, hcp⟩
          · exact not_mem_of_ci "www.youtube.com/embed/".toList yt '"' hcp
              (by rw [hl]; rfl) (by decide) hc
          · exact not_mem_of_ci "youtube.com/embed/".toList yt '"' hcp
              (by rw [hl]; rfl) (by decide) hc
        · intro he
          subst he
          exact hvp '"' hc (by simp)
        · exact hext c hc
      rcases List.append_eq_append_iff.mp hq2 with ⟨w, hw1, hw2⟩ | ⟨w, hw1, hw2⟩
      · -- qs = M₁ ++ w, '"' :: B₂ = w ++ '"' :: (t ++ '"' :: z)
        cases w with
        | nil =>
          rw [List.nil_append] at hw2
          injection hw2 with _ hw3
          exact hB2case t hqf hw3
        | cons q2 w2 =>
          rw [List.cons_append] at hw2
          injection hw2 with hq3 hq4
          subst hq3
          -- the opening quote sits inside B₂
          rcases List.append_eq_append_iff.mp hq4 with ⟨w3, hx1, hx2⟩ | ⟨w3, hx1, hx2⟩
          · -- w2 = g2 ++ w3, '>' :: f9 = w3 ++ '"' :: (t ++ '"' :: z)
            cases w3 with
            | nil =>
              rw [List.nil_append] at hx2
              exact absurd hx2.symm (by simp)
            | cons q4 w4 =>
              rw [List.cons_append] at hx2
              injection hx2 with hq5 hq6
              exfalso
              apply hf9q
              rw [hq6]
              simp
          · -- g2 = w2 ++ w3, '"' :: (t ++ '"' :: z) = w3 ++ '>' :: f9
            cases w3 with
            | nil =>
              rw [List.nil_append] at hx2
              exact absurd hx2.symm (by simp)
            | cons q4 w4 =>
              rw [List.cons_append] at hx2
              injection hx2 with hq5 hq6
              subst hq5
              -- t ++ '"' :: z = w4 ++ '>' :: f9 with w4 inside g2
              have hw4g2 : ∀ c ∈ w4, c ∈ g2 := by
                intro c hc
                rw [hx1]
                simp [hc]
              rcases List.append_eq_append_iff.mp hq6 with
                ⟨w5, hy1, hy2⟩ | ⟨w5, hy1, hy2⟩
              · -- w4 = t ++ w5
                intro c hc
                exact hg2 c (hw4g2 c (by rw [hy1]; simp [hc]))
              · -- t = w4 ++ w5, '>' :: f9 = w5 ++ '"' :: z
                cases w5 with
                | nil =>
                  rw [List.append_nil] at hy1
                  subst hy1
                  intro c hc
                  exact hg2 c (hw4g2 c hc)
                | cons q6 w6 =>
                  rw [List.cons_append] at hy2
                  injection hy2 with hq7 hq8
                  exfalso
                  apply hf9q
                  rw [hq8]
                  simp
      · -- M₁ = qs ++ w, '"' :: (t ++ '"' :: z) = w ++ '"' :: B₂
        cases w with
        | nil =>
          rw [List.nil_append] at hw2
          injection hw2 with _ hw3
          exact hB2case t hqf hw3.symm
        | cons q2 w2 =>
          rw [List.cons_append] at hw2
          injection hw2 with hq3 _
          exfalso
          apply hM1q q2 (by rw [hw1]; simp)
          exact hq3.symm
  · -- B₁ = (x ++ c₁ :: T6) ++ u : the opening quote is inside or at B₁'s end
    cases u with
    | nil =>
      rw [List.append_nil] at hu1
      exact absurd hu1 hPB
    | cons q qs =>
      rw [List.cons_append] at hu2
      injection hu2 with hq1 hq2
      subst hq1
      -- hq2 : t ++ '"' :: z = qs ++ '"' :: (M₁ ++ '"' :: B₂-shape)
      have hqsB1 : ∀ c ∈ qs, c ∈ I7 ++ (A ++ c₀ :: S4) := by
        intro c hc
        rw [hu1]
        simp [hc]
      have hB1gt : ∀ c ∈ I7 ++ (A ++ c₀ :: S4), c ≠ '>' := by
        intro c hc
        simp only [List.mem_append, List.mem_cons] at hc
        rcases hc with hc | hc | hc | hc
        · intro he; subst he; exact hI7gt hc
        · exact hA c hc
        · subst hc; exact jsWsChar_ne_gt hws
        · intro he; subst he; exact hS4gt hc
      rcases List.append_eq_append_iff.mp hq2 with ⟨w, hw1, hw2⟩ | ⟨w, hw1, hw2⟩
      · -- qs = t ++ w
        intro c hc
        exact hB1gt c (hqsB1 c (by rw [hw1]; simp [hc]))
      · -- t = qs ++ w, '"' :: rest = w ++ '"' :: rest2
        cases w with
        | nil =>
          rw [List.append_nil] at hw1
          subst hw1
          intro c hc
          exact hB1gt c (hqsB1 c hc)
        | cons q2 w2 =>
          rw [List.cons_append] at hw2
          injection hw2 with hq3 _
          exfalso
          exact hqf q2 (by rw [hw1]; simp) hq3.symm

/-- Two decompositions at the first occurrence of a character agree. -/
theorem first_char_align (ch : Char) : ∀ (a b x y : Str),
    a ++ ch :: b = x ++ ch :: y → ch ∉ a → ch ∉ x → a = x ∧ b = y := by
  intro a
  induction a with
  | nil =>
    intro b x y h ha hx
    cases x with
    | nil =>
      simp only [List.nil_append] at h
      injection h with _ h2
      exact ⟨rfl, h2⟩
    | cons d ds =>
      rw [List.nil_append, List.cons_append] at h
      injection h with h1 _
      exact absurd (by rw [← h1]; simp : ch ∈ d :: ds) hx
  | cons c cs ih =>
    intro b x y h ha hx
    cases x with
    | nil =>
      rw [List.nil_append, List.cons_append] at h
      injection h with h1 _
      exact absurd (by rw [h1]; simp : ch ∈ c :: cs) ha
    | cons d ds =>
      rw [List.cons_append, List.cons_append] at h
      injection h with h1 h2
      subst h1
      obtain ⟨h3, h4⟩ := ih b ds y h2 (fun hm => ha (by simp [hm]))
        (fun hm => hx (by simp [hm]))
      exact ⟨by rw [h3], h4⟩

/-- An occurrence inside a region bounded by the first `>` must sit before
that `>`. -/
theorem gt_bound (A G H rest : Str) (c₀ : Char)
    (h : G ++ '>' :: H = A ++ c₀ :: rest)
    (hA : ∀ x ∈ A, x ≠ '>') (hc : c₀ ≠ '>') :
    ∃ gb, G = A ++ c₀ :: gb ∧ rest = gb ++ '>' :: H := by
  rcases List.append_eq_append_iff.mp h with ⟨u, hu1, hu2⟩ | ⟨u, hu1, hu2⟩
  · -- A = G ++ u, '>' :: H = u ++ c₀ :: rest
    cases u with
    | nil =>
      rw [List.nil_append] at hu2
      injection hu2 with h1 _
      exact absurd h1.symm hc
    | cons q qs =>
      rw [List.cons_append] at hu2
      injection hu2 with h1 _
      exact absurd rfl (hA '>' (by rw [hu1, h1]; simp))
  · -- G = A ++ u, c₀ :: rest = u ++ '>' :: H
    cases u with
    | nil =>
      rw [List.nil_append] at hu2
      injection hu2 with h1 _
      exact absurd h1 hc
    | cons q qs =>
      rw [List.cons_append] at hu2
      injection hu2 with h1 h2
      subst h1
      exact ⟨qs, by rw [hu1], h2⟩

/-- A matched `src="` prefix locates a quote at offset four, after a
quote-free, `>`-free run. -/
theorem srcQuote_locate (rest : Str) (hci : ciStartsWith rest "src=\"".toList = true) :
    ∃ r4, rest = r4 ++ '"' :: rest.drop 5 ∧ r4.length = 4 ∧
      ('"' ∉ r4) ∧ ('>' ∉ r4) := by
  have hL : ("src=\"".toList).length = 5 := by decide
  have hrl : 5 ≤ rest.length := by
    have := ciStartsWith_length hci
    omega
  have ht4 : (rest.take 4).length = 4 := by
    rw [List.length_take]; omega
  obtain ⟨d, t, hdt, hd⟩ := ciStartsWith_get "src=\"".toList rest
    (rest.take 4) (rest.drop 4) hci (List.take_append_drop 4 rest).symm
    (by omega)
  rw [ht4] at hd
  have hd2 : d = '"' := ciEq_pin '"'
    (by rw [show ("src=\"".toList.getD 4 'x') = '"' from rfl] at hd; exact hd)
    (by decide) (by decide)
  subst hd2
  have ht : t = rest.drop 5 := by
    have h5 : rest.drop 5 = (rest.drop 4).drop 1 := by
      rw [List.drop_drop]
    rw [h5, hdt]
    rfl
  have hsh : rest = rest.take 4 ++ '"' :: rest.drop 5 := by
    conv_lhs => rw [← List.take_append_drop 4 rest]
    rw [hdt, ht]
  have hci4 : ciStartsWith (rest.take 4) "src=".toList = true := by
    have h1 := ciStartsWith_take_of_append (rest.take 4) (rest.drop 4)
      "src=\"".toList (by rw [List.take_append_drop]; exact hci)
    rw [ht4] at h1
    exact h1
  refine ⟨rest.take 4, hsh, ht4, ?_, ?_⟩
  · exact not_mem_of_ci "src=".toList (rest.take 4) '"' hci4
      (by rw [ht4]; decide) (by decide)
  · exact not_mem_of_ci "src=".toList (rest.take 4) '>' hci4
      (by rw [ht4]; decide) (by decide)

/-- The embed URL matcher fails outright on a head that is not an `h`. -/
theorem ytUrlMatch_head_none (d : Char) (X : Str) (h : ciEq d 'h' = false) :
    ytUrlMatch (d :: X) = none := by
  have h1 : ciStartsWith (d :: X) "https://".toList = false := by
    show (ciEq d 'h' && ciStartsWith X "ttps://".toList) = false
    rw [h]
    rfl
  have h2 : ciStartsWith (d :: X) "http://".toList = false := by
    show (ciEq d 'h' && ciStartsWith X "ttp://".toList) = false
    rw [h]
    rfl
  unfold ytUrlMatch
  rw [h1, h2]
  rfl

/-- In a quote-free region closed by the first `>`, no workable `src="`
position exists at all. -/
theorem region_gt_none (G H : Str) (hG : '"' ∉ G) (A : Str) (c₀ : Char) (rest : Str)
    (h : G ++ '>' :: H = A ++ c₀ :: rest)
    (hA : ∀ x ∈ A, x ≠ '>') (hws : jsWsChar c₀ = true)
    (hci : ciStartsWith rest "src=\"".toList = true) : False := by
  obtain ⟨gb, hG2, hrest⟩ := gt_bound A G H rest c₀ h hA (jsWsChar_ne_gt hws)
  obtain ⟨r4, hrsh, hr4l, hr4q, hr4g⟩ := srcQuote_locate rest hci
  have hgbq : '"' ∉ gb := by
    intro hm
    exact hG (by rw [hG2]; simp [hm])
  have hkey : r4 ++ '"' :: rest.drop 5 = gb ++ '>' :: H := by
    rw [← hrsh, hrest]
  rcases List.append_eq_append_iff.mp hkey with ⟨u, hu1, hu2⟩ | ⟨u, hu1, hu2⟩
  · -- r4 = gb ... wait, orientation: gb = r4 ++ u, '>' :: H = u ++ '"' :: drop
    cases u with
    | nil =>
      rw [List.nil_append] at hu2
      injection hu2 with h1 _
      exact absurd h1 (by decide)
    | cons q qs =>
      rw [List.cons_append] at hu2
      injection hu2 with h1 _
      exact hgbq (by rw [hu1, ← h1]; simp)
  · cases u with
    | nil =>
      rw [List.nil_append] at hu2
      injection hu2 with h1 _
      exact absurd h1 (by decide)
    | cons q qs =>
      rw [List.cons_append] at hu2
      injection hu2 with h1 _
      exact hr4g (by rw [hu1, h1]; simp)

/-- In a region made of a quote-free run, the embed closing quote–bracket
pair, and an arbitrary tail, the only workable `src="` position hands the
URL matcher a `>`-headed input, which fails. -/
theorem region_vid_none (V W : Str) (hV : '"' ∉ V) (A : Str) (c₀ : Char) (rest : Str)
    (h : V ++ '"' :: '>' :: W = A ++ c₀ :: rest)
    (hA : ∀ x ∈ A, x ≠ '>') (hws : jsWsChar c₀ = true)
    (hci : ciStartsWith rest "src=\"".toList = true) :
    ytUrlMatch (rest.drop 5) = none := by
  have hsh : (V ++ ['"']) ++ '>' :: W = A ++ c₀ :: rest := by
    rw [← h]
    simp
  obtain ⟨gb, hG2, hrest⟩ := gt_bound A (V ++ ['"']) W rest c₀ hsh hA
    (jsWsChar_ne_gt hws)
  obtain ⟨r4, hrsh, hr4l, hr4q, hr4g⟩ := srcQuote_locate rest hci
  have hkey : r4 ++ '"' :: rest.drop 5 = gb ++ '>' :: W := by
    rw [← hrsh, hrest]
  rcases List.append_eq_append_iff.mp hkey with ⟨u, hu1, hu2⟩ | ⟨u, hu1, hu2⟩
  · -- gb = r4 ++ u and '>' :: W = u ++ '"' :: rest.drop 5
    cases u with
    | nil =>
      rw [List.nil_append] at hu2
      injection hu2 with h1 _
      exact absurd h1 (by decide)
    | cons q qs =>
      rw [List.cons_append] at hu2
      injection hu2 with h1 h2
      -- q = '"': the located quote is the closing quote of the embed match
      have hAV : '"' ∉ A := by
        intro hm
        have hlen : A.length + (1 + gb.length) = V.length + 1 := by
          have := congrArg List.length hG2
          simp at this
          omega
        have hAl : A.length ≤ V.length := by omega
        have hAtake : A = V.take A.length := by
          have h1 : (A ++ c₀ :: gb).take A.length = A := List.take_left A _
          rw [← hG2] at h1
          conv_lhs => rw [← h1]
          rw [List.take_append_of_le_length hAl]
        exact hV (List.Sublist.mem (by rw [hAtake] at hm; exact hm)
          (List.take_sublist _ _))
      have hal : (A ++ c₀ :: r4) ++ '"' :: qs = V ++ '"' :: [] := by
        have h3 : A ++ c₀ :: gb = V ++ ['"'] := hG2.symm
        rw [hu1, ← h1] at h3
        rw [← h3]
        simp
      obtain ⟨_, hqs⟩ := first_char_align '"' (A ++ c₀ :: r4) qs V [] hal
        (by
          intro hm
          rcases List.mem_append.mp hm with hm1 | hm1
          · exact hAV hm1
          · rcases List.mem_cons.mp hm1 with rfl | hm2
            · exact (jsWsChar_ne_quot hws) rfl
            · exact hr4q hm2)
        hV
      rw [hqs, List.nil_append] at h2
      rw [h2]
      exact ytUrlMatch_head_none '>' W (by decide)
  · cases u with
    | nil =>
      rw [List.nil_append] at hu2
      injection hu2 with h1 _
      exact absurd h1 (by decide)
    | cons q qs =>
      rw [List.cons_append] at hu2
      injection hu2 with h1 _
      exact absurd (by rw [hu1, h1]; simp : '>' ∈ r4) hr4g

/-- The embed matcher fails when the head is not a case-insensitive
`<iframe`. -/
theorem matchIframeAt_none_of_head (s : Str)
    (h : ciStartsWith s "<iframe".toList = false) : matchIframeAt s = none := by
  unfold matchIframeAt
  rw [h]
  rfl

/-- The embed matcher fails when every workable src position hands the URL
matcher a failing input. -/
theorem matchIframeAt_none_of_src_none (s : Str)
    (h : ∀ A c₀ rest, s.drop 7 = A ++ c₀ :: rest → (∀ x ∈ A, x ≠ '>') →
      jsWsChar c₀ = true → ciStartsWith rest "src=\"".toList = true →
      ytUrlMatch (rest.drop 5) = none) : matchIframeAt s = none := by
  unfold matchIframeAt
  by_cases hc : ciStartsWith s "<iframe".toList = true
  · rw [if_pos hc]
    exact srcSplitTry_none_of ytUrlMatch (s.drop 7) h
  · rw [if_neg hc]

/-- The embed matcher fails on a `>`-headed subject. -/
theorem gtHead_none (X : Str) : matchIframeAt ('>' :: X) = none := by
  apply matchIframeAt_none_of_head
  show (ciEq '>' '<' && ciStartsWith X "iframe".toList) = false
  rw [show ciEq '>' '<' = false from by decide]
  rfl

/-- No proper suffix of a literal whose suffixes all clash with `<iframe`
can open an embed match, whatever follows. -/
theorem lit_suffix_none (L : Str)
    (hfact : ∀ i, i < L.length →
      ciStartsWith (L.drop i) ("<iframe".toList.take (L.length - i)) = false) :
    ∀ x u Z, L = x ++ u → u ≠ [] → matchIframeAt (u ++ Z) = none := by
  intro x u Z hL hne
  apply matchIframeAt_none_of_head
  cases hc : ciStartsWith (u ++ Z) "<iframe".toList with
  | false => rfl
  | true =>
    exfalso
    have hu : u = L.drop x.length := by rw [hL, List.drop_left]
    have hul : u.length = L.length - x.length := by rw [hu, List.length_drop]
    have hxl : x.length < L.length := by
      have hlen := congrArg List.length hL
      simp only [List.length_append] at hlen
      cases u with
      | nil => exact absurd rfl hne
      | cons a as => simp at hlen; omega
    have h2 := ciStartsWith_take_of_append u Z "<iframe".toList hc
    rw [hul] at h2
    rw [hu] at h2
    rw [hfact x.length hxl] at h2
    exact absurd h2 (by simp)

/-- No position inside the rewritten video id, nor at the closing
quote–bracket of the injected link, can open a fresh embed match. -/
theorem rep_vid_pos_none (w title Z : Str) (hw : '"' ∉ w) (ht : '"' ∉ title) :
    matchIframeAt (w ++ '"' :: '>' ::
      (title ++ (" (YouTube)</a".toList ++ '>' :: ("</p>".toList ++ Z)))) = none := by
  have h13 : (" (YouTube)</a".toList).length = 13 := by decide
  apply matchIframeAt_none_of_src_none
  intro A c₀ rest hreg hA hws hci
  rcases Nat.lt_or_ge w.length 7 with hlt | hge
  · rcases Nat.lt_or_ge w.length 6 with hlt6 | hge6
    · -- at most five id characters survive the seven-character head skip
      have hF : w ++ '"' :: '>' ::
          (title ++ (" (YouTube)</a".toList ++ '>' :: ("</p>".toList ++ Z)))
          = (w ++ ['"', '>']) ++
            ((title ++ " (YouTube)</a".toList) ++ '>' :: ("</p>".toList ++ Z)) := by
        simp
      have h7 : 7 = (w ++ ['"', '>']).length + (5 - w.length) := by
        simp
        omega
      have hdrop : (w ++ '"' :: '>' ::
          (title ++ (" (YouTube)</a".toList ++ '>' :: ("</p>".toList ++ Z)))).drop 7
          = ((title ++ " (YouTube)</a".toList).drop (5 - w.length)) ++
            '>' :: ("</p>".toList ++ Z) := by
        rw [hF, h7, List.drop_append]
        exact List.drop_append_of_le_length
          (by rw [List.length_append, h13]; omega)
      exact (region_gt_none
        ((title ++ " (YouTube)</a".toList).drop (5 - w.length))
        ("</p>".toList ++ Z)
        (fun hm => by
          rcases List.mem_append.mp (List.mem_of_mem_drop hm) with h1 | h1
          · exact ht h1
          · exact absurd h1 (by decide))
        A c₀ rest (by rw [← hdrop, hreg]) hA hws hci).elim
    · -- exactly six id characters: the skip lands on the closing bracket
      have h6 : (w ++ ['"']).length = 7 := by
        simp
        omega
      have hF : w ++ '"' :: '>' ::
          (title ++ (" (YouTube)</a".toList ++ '>' :: ("</p>".toList ++ Z)))
          = (w ++ ['"']) ++ '>' ::
            (title ++ (" (YouTube)</a".toList ++ '>' :: ("</p>".toList ++ Z))) := by
        simp
      have hdrop : (w ++ '"' :: '>' ::
          (title ++ (" (YouTube)</a".toList ++ '>' :: ("</p>".toList ++ Z)))).drop 7
          = '>' :: (title ++ (" (YouTube)</a".toList ++ '>' ::
            ("</p>".toList ++ Z))) := by
        rw [hF, List.drop_left' h6]
      exact (region_gt_none []
        (title ++ (" (YouTube)</a".toList ++ '>' :: ("</p>".toList ++ Z)))
        (by simp)
        A c₀ rest (by rw [List.nil_append, ← hdrop, hreg]) hA hws hci).elim
  · -- seven or more id characters survive: the closing quote is reachable
    have hdrop : (w ++ '"' :: '>' ::
        (title ++ (" (YouTube)</a".toList ++ '>' :: ("</p>".toList ++ Z)))).drop 7
        = w.drop 7 ++ '"' :: '>' ::
          (title ++ (" (YouTube)</a".toList ++ '>' :: ("</p>".toList ++ Z))) :=
      List.drop_append_of_le_length hge
    exact region_vid_none (w.drop 7)
      (title ++ (" (YouTube)</a".toList ++ '>' :: ("</p>".toList ++ Z)))
      (fun hm => hw (List.mem_of_mem_drop hm))
      A c₀ rest (by rw [← hdrop, hreg]) hA hws hci

/-- No position inside the injected link text can open a fresh embed
match: the closing anchor's `>` cuts off every candidate. -/
theorem rep_title_pos_none (ts Z : Str) (ht : '"' ∉ ts) :
    matchIframeAt ((ts ++ " (YouTube)</a".toList) ++ '>' ::
      ("</p>".toList ++ Z)) = none := by
  have h13 : (" (YouTube)</a".toList).length = 13 := by decide
  apply matchIframeAt_none_of_src_none
  intro A c₀ rest hreg hA hws hci
  have hdrop : ((ts ++ " (YouTube)</a".toList) ++ '>' ::
      ("</p>".toList ++ Z)).drop 7
      = (ts ++ " (YouTube)</a".toList).drop 7 ++ '>' ::
        ("</p>".toList ++ Z) :=
    List.drop_append_of_le_length (by rw [List.length_append, h13]; omega)
  exact (region_gt_none ((ts ++ " (YouTube)</a".toList).drop 7)
    ("</p>".toList ++ Z)
    (fun hm => by
      rcases List.mem_append.mp (List.mem_of_mem_drop hm) with h1 | h1
      · exact ht h1
      · exact absurd h1 (by decide))
    A c₀ rest (by rw [← hdrop, hreg]) hA hws hci).elim

/-- Replacement safety: no position strictly inside the emitted link (and
none at its start) opens an embed match, whatever text follows. -/
theorem ytReplacement_safe (vid title T : Str)
    (hvq : '"' ∉ vid) (htq : '"' ∉ title) :
    ∀ x y, ytReplacement vid title = x ++ y → y ≠ [] →
      matchIframeAt (y ++ T) = none := by
  have fact1 : ∀ i, i < ("<p><a href=\"https://www.youtube.com/watch?v=".toList).length →
      ciStartsWith ("<p><a href=\"https://www.youtube.com/watch?v=".toList.drop i)
        ("<iframe".toList.take
          (("<p><a href=\"https://www.youtube.com/watch?v=".toList).length - i))
        = false := by decide
  have fact3 : ∀ i, i < (" (YouTube)</a></p>".toList).length →
      ciStartsWith (" (YouTube)</a></p>".toList.drop i)
        ("<iframe".toList.take ((" (YouTube)</a></p>".toList).length - i))
        = false := by decide
  have h3 : " (YouTube)</a></p>".toList
      = " (YouTube)</a".toList ++ '>' :: "</p>".toList := by decide
  intro x y hsplit hne
  have hrep : ytReplacement vid title =
      "<p><a href=\"https://www.youtube.com/watch?v=".toList ++
        (vid ++ ('"' :: '>' :: (title ++
          (" (YouTube)</a".toList ++ '>' :: "</p>".toList)))) := by
    unfold ytReplacement
    rw [show "\">".toList = '"' :: '>' :: [] from by decide, h3]
    simp
  rw [hrep] at hsplit
  rcases List.append_eq_append_iff.mp hsplit with ⟨u, hx, h1⟩ | ⟨u, hl, hy⟩
  · -- boundary past the href literal
    rcases List.append_eq_append_iff.mp h1 with ⟨w, hu2, h2⟩ | ⟨w, hvw, hy2⟩
    · -- boundary past the video id
      cases w with
      | nil =>
        rw [List.nil_append] at h2
        rw [← h2]
        have := rep_vid_pos_none [] title T (by simp) htq
        simpa [List.append_assoc] using this
      | cons a as =>
        rw [List.cons_append] at h2
        injection h2 with ha h2'
        cases as with
        | nil =>
          rw [List.nil_append] at h2'
          rw [← h2']
          simpa using gtHead_none ((title ++
            (" (YouTube)</a".toList ++ '>' :: "</p>".toList)) ++ T)
        | cons b bs =>
          rw [List.cons_append] at h2'
          injection h2' with hb h4
          rcases List.append_eq_append_iff.mp h4 with ⟨w4, hb4, h5⟩ | ⟨w4, ht4, hy4⟩
          · -- boundary inside the closing literal
            exact lit_suffix_none " (YouTube)</a></p>".toList fact3 w4 y
              T (by rw [h3]; exact h5) hne
          · -- boundary inside (or at the start of) the link text
            have hq4 : '"' ∉ w4 := fun hm => htq (by rw [ht4]; simp [hm])
            rw [hy4]
            have := rep_title_pos_none w4 T hq4
            simpa [List.append_assoc] using this
    · -- boundary inside (or at the start of) the video id
      have hwq : '"' ∉ w := fun hm => hvq (by rw [hvw]; simp [hm])
      rw [hy2]
      have := rep_vid_pos_none w title T hwq htq
      simpa [List.append_assoc] using this
  · -- boundary inside (or at the start of) the href literal
    cases u with
    | nil =>
      rw [List.nil_append] at hy
      rw [hy]
      have := rep_vid_pos_none vid title T hvq htq
      simpa [List.append_assoc] using this
    | cons c cs =>
      rw [hy, List.append_assoc]
      exact lit_suffix_none "<p><a href=\"https://www.youtube.com/watch?v=".toList
        fact1 x (c :: cs) _ hl (by simp)

/-- Split a string at the first occurrence of a character, or certify its
absence. -/
theorem char_first_split (ch : Char) (l : Str) :
    (∃ a b, l = a ++ ch :: b ∧ ch ∉ a) ∨ ch ∉ l := by
  induction l with
  | nil => right; simp
  | cons c cs ih =>
    by_cases hc : c = ch
    · subst hc
      exact Or.inl ⟨[], cs, rfl, by simp⟩
    · rcases ih with ⟨a, b, hab, hna⟩ | hni
      · refine Or.inl ⟨c :: a, b, by rw [hab]; rfl, ?_⟩
        intro hm
        rcases List.mem_cons.mp hm with h1 | h1
        · exact hc h1.symm
        · exact hna h1
      · refine Or.inr ?_
        intro hm
        rcases List.mem_cons.mp hm with h1 | h1
        · exact hc h1.symm
        · exact hni h1

/-- A closing-tag certificate cannot continue into a `>`-free link text
followed by the space of the injected suffix. -/
theorem f9_title_clash (title f9 r Y : Str) (htg : '>' ∉ title)
    (hl : f9.length = 9) (hci : ciStartsWith f9 "</iframe>".toList = true)
    (heq : f9 ++ r = title ++ ' ' :: Y) : False := by
  have hgt : '>' ∈ f9 := by
    obtain ⟨d, t, hdt, hd⟩ := ciStartsWith_get "</iframe>".toList f9
      (f9.take 8) (f9.drop 8) hci (List.take_append_drop 8 f9).symm
      (by rw [List.length_take]; rw [show ("</iframe>".toList).length = 9 from by decide]; omega)
    have ht8 : (f9.take 8).length = 8 := by rw [List.length_take]; omega
    rw [ht8] at hd
    have hd2 : d = '>' := ciEq_pin '>'
      (by rw [show ("</iframe>".toList.getD 8 'x') = '>' from rfl] at hd; exact hd)
      (by decide) (by decide)
    subst hd2
    have h8 : f9 = f9.take 8 ++ f9.drop 8 := (List.take_append_drop 8 f9).symm
    rw [hdt] at h8
    rw [h8]
    simp
  rcases List.append_eq_append_iff.mp heq with ⟨u, hu1, hu2⟩ | ⟨u, hu1, hu2⟩
  · exact htg (by rw [hu1]; exact List.mem_append.mpr (Or.inl hgt))
  · cases u with
    | nil =>
      rw [List.append_nil] at hu1
      exact htg (by rw [← hu1]; exact hgt)
    | cons q qs =>
      rw [List.cons_append] at hu2
      injection hu2 with h1 _
      have hlt : title.length < 9 := by
        have := congrArg List.length hu1
        simp at this
        omega
      obtain ⟨d, t, hdt, hd⟩ := ciStartsWith_get "</iframe>".toList f9 title
        (q :: qs) hci hu1
        (by rw [show ("</iframe>".toList).length = 9 from by decide]; exact hlt)
      injection hdt with hdq _
      rw [← hdq, ← h1] at hd
      have hfa : ∀ j, j < 9 → ciEq ' ' ("</iframe>".toList.getD j 'x') = false := by
        decide
      rw [hfa title.length hlt] at hd
      exact absurd hd (by simp)

/-- A closing-tag certificate running into a quote-bounded region forces at
least nine quote-free characters, themselves a closing-tag certificate. -/
theorem f9_quote_bound (v1b f9 r Y : Str)
    (hl : f9.length = 9) (hci : ciStartsWith f9 "</iframe>".toList = true)
    (heq : f9 ++ r = v1b ++ '"' :: Y) :
    9 ≤ v1b.length ∧ ciStartsWith v1b "</iframe>".toList = true := by
  rcases List.append_eq_append_iff.mp heq with ⟨u, hu1, hu2⟩ | ⟨u, hu1, hu2⟩
  · constructor
    · rw [hu1, List.length_append]
      omega
    · rw [hu1]
      have hw : (f9 ++ u).take ("</iframe>".toList).length
          = f9.take ("</iframe>".toList).length := by
        rw [show ("</iframe>".toList).length = 9 from by decide, ← hl,
          List.take_left, List.take_length]
      rw [ciStartsWith_congr "</iframe>".toList _ _ hw]
      exact hci
  · cases u with
    | nil =>
      rw [List.append_nil] at hu1
      rw [← hu1]
      exact ⟨by omega, hci⟩
    | cons q qs =>
      rw [List.cons_append] at hu2
      injection hu2 with h1 _
      have hlt : v1b.length < 9 := by
        have := congrArg List.length hu1
        simp at this
        omega
      obtain ⟨d, t, hdt, hd⟩ := ciStartsWith_get "</iframe>".toList f9 v1b
        (q :: qs) hci hu1
        (by rw [show ("</iframe>".toList).length = 9 from by decide]; exact hlt)
      injection hdt with hdq _
      rw [← hdq, ← h1] at hd
      have hfa : ∀ j, j < 9 → ciEq '"' ("</iframe>".toList.getD j 'x') = false := by
        decide
      rw [hfa v1b.length hlt] at hd
      exact absurd hd (by simp)

/-- Rebuilding an embed match from its certified segments. -/
theorem matchIframeAt_build (I7 A S4 R : Str) (c₀ : Char)
    (hI7l : I7.length = 7) (hI7ci : ciStartsWith I7 "<iframe".toList = true)
    (hA : ∀ x ∈ A, x ≠ '>') (hws : jsWsChar c₀ = true)
    (hS4l : S4.length = 4) (hS4ci : ciStartsWith S4 "src=".toList = true)
    (hR : ytUrlMatch R ≠ none) :
    matchIframeAt (I7 ++ (A ++ c₀ :: (S4 ++ '"' :: R))) ≠ none := by
  apply matchIframeAt_some_of
  · have hw : (I7 ++ (A ++ c₀ :: (S4 ++ '"' :: R))).take ("<iframe".toList).length
        = I7.take ("<iframe".toList).length := by
      rw [show ("<iframe".toList).length = 7 from by decide, ← hI7l,
        List.take_left, List.take_length]
    rw [ciStartsWith_congr "<iframe".toList _ _ hw]
    exact hI7ci
  · rw [List.drop_left' hI7l]
    apply srcSplitTry_some_of ytUrlMatch A c₀ (S4 ++ '"' :: R) hA hws
    · rw [show "src=\"".toList = "src=".toList ++ ['"'] from by decide]
      refine ciStartsWith_append_exact "src=".toList S4
        (by rw [hS4l]; decide) ['"'] ('"' :: R) hS4ci ?_
      show (ciEq '"' '"' && ciStartsWith R []) = true
      rw [show ciEq '"' '"' = true from by decide]
      cases R with
      | nil => rfl
      | cons a as => rfl
    · have h5 : (S4 ++ ['"']).length = 5 := by simp [hS4l]
      rw [show S4 ++ '"' :: R = (S4 ++ ['"']) ++ R from by simp,
        List.drop_left' h5]
      exact hR

/-- Decoding the id-character predicate of the URL scanner. -/
theorem vidpred_mem {c : Char} (h : (!(c == '"' || c == '?')) = true) :
    ¬(c = '"' ∨ c = '?') := by
  intro hor
  rcases hor with rfl | rfl <;> simp at h

/-- Decoding the quote-freedom predicate of the URL scanner. -/
theorem qpred_mem {c : Char} (h : (!(c == '"')) = true) : c ≠ '"' := by
  intro he
  rw [he] at h
  simp at h

/-- Encoding the id-character predicate of the URL scanner. -/
theorem vidpred_intro {c : Char} (h : ¬(c = '"' ∨ c = '?')) :
    (!(c == '"' || c == '?')) = true := by
  cases hb : (c == '"' || c == '?') with
  | false => rfl
  | true =>
    exfalso
    cases hc1 : (c == '"') with
    | true => exact h (Or.inl (eq_of_beq hc1))
    | false =>
      cases hc2 : (c == '?') with
      | true => exact h (Or.inr (eq_of_beq hc2))
      | false =>
        rw [hc1, hc2] at hb
        exact absurd hb (by decide)

/-- A failed id-character test names a quote or a query mark. -/
theorem pred_not_or {d : Char} (h : (!(d == '"' || d == '?')) = false) :
    d = '"' ∨ d = '?' := by
  have hb : (d == '"' || d == '?') = true := by
    cases hx : (d == '"' || d == '?') with
    | true => rfl
    | false => rw [hx] at h; exact absurd h (by decide)
  cases hc1 : (d == '"') with
  | true => exact Or.inl (eq_of_beq hc1)
  | false =>
    cases hc2 : (d == '?') with
    | true => exact Or.inr (eq_of_beq hc2)
    | false =>
      rw [hc1, hc2] at hb
      exact absurd hb (by decide)

/-- A failed quote-freedom test names a quote. -/
theorem pred_not_q {d : Char} (h : (!(d == '"')) = false) : d = '"' := by
  have hb : (d == '"') = true := by
    cases hx : (d == '"') with
    | true => rfl
    | false => rw [hx] at h; exact absurd h (by decide)
  exact eq_of_beq hb

/-- Reshaping the tail of a page around a known embed: starting anywhere in
a quote-free run headed by an id character, the URL scanner's greedy
component structure can always be exhibited up to the first `>` inside the
embed's video id. -/
theorem embed_tail_shape (PRE Am S4m hpm ytm v1a v1b TAIL : Str) (c₀m : Char)
    (hPREq : ∀ c ∈ PRE, c ≠ '"')
    (hPREh : ∃ p ps, PRE = p :: ps ∧ ¬(p = '"' ∨ p = '?'))
    (hAmg : ∀ x ∈ Am, x ≠ '>') (hcg : c₀m ≠ '>')
    (hS4g : ∀ x ∈ S4m, x ≠ '>')
    (hhpg : ∀ x ∈ hpm, x ≠ '>') (hytg : ∀ x ∈ ytm, x ≠ '>')
    (hv1ag : ∀ x ∈ v1a, x ≠ '>') :
    ∃ VID EXT G2,
      PRE ++ (Am ++ c₀m :: (S4m ++ '"' ::
          (hpm ++ (ytm ++ ((v1a ++ '>' :: v1b) ++ TAIL)))))
        = VID ++ (EXT ++ '"' :: (G2 ++ '>' :: (v1b ++ TAIL))) ∧
      VID ≠ [] ∧ (∀ c ∈ VID, ¬(c = '"' ∨ c = '?')) ∧
      (∀ c ∈ EXT, c ≠ '"') ∧ (EXT = [] ∨ ∃ es, EXT = '?' :: es) ∧
      (∀ c ∈ G2, c ≠ '>') := by
  obtain ⟨pc, ps, hPRE, hpcp⟩ := hPREh
  have hAMCg : ∀ x ∈ Am ++ c₀m :: S4m, x ≠ '>' := by
    intro x hx
    rcases List.mem_append.mp hx with h1 | h1
    · exact hAmg x h1
    · rcases List.mem_cons.mp h1 with rfl | h2
      · exact hcg
      · exact hS4g x h2
  have hG2base : ∀ x ∈ hpm ++ (ytm ++ v1a), x ≠ '>' := by
    intro x hx
    rcases List.mem_append.mp hx with h1 | h1
    · exact hhpg x h1
    · rcases List.mem_append.mp h1 with h2 | h2
      · exact hytg x h2
      · exact hv1ag x h2
  by_cases hP : ∀ c ∈ PRE, (!(c == '"' || c == '?')) = true
  · -- no query character before the embed's own attributes
    have htkW : (PRE ++ (Am ++ c₀m :: S4m)).takeWhile (fun c => !(c == '"' || c == '?'))
        = PRE ++ (Am ++ c₀m :: S4m).takeWhile (fun c => !(c == '"' || c == '?')) :=
      takeWhile_append_all _ PRE _ hP
    have hdWe : (PRE ++ (Am ++ c₀m :: S4m)).dropWhile (fun c => !(c == '"' || c == '?'))
        = (Am ++ c₀m :: S4m).dropWhile (fun c => !(c == '"' || c == '?')) :=
      dropWhile_append_all _ PRE _ hP
    cases hdA : (Am ++ c₀m :: S4m).dropWhile (fun c => !(c == '"' || c == '?')) with
    | nil =>
      -- the whole attribute run is free of quotes and query marks
      have hall : ∀ c ∈ Am ++ c₀m :: S4m, ¬(c = '"' ∨ c = '?') := by
        intro c hc
        have hsp := List.takeWhile_append_dropWhile
          (p := fun c => !(c == '"' || c == '?')) (l := Am ++ c₀m :: S4m)
        rw [hdA, List.append_nil] at hsp
        have hmem : c ∈ (Am ++ c₀m :: S4m).takeWhile
            (fun c => !(c == '"' || c == '?')) := by
          rw [hsp]; exact hc
        have hpc := List.mem_takeWhile_imp hmem
        exact vidpred_mem hpc
      refine ⟨PRE ++ (Am ++ c₀m :: S4m), [], hpm ++ (ytm ++ v1a), by simp, ?_, ?_,
        by simp, Or.inl rfl, hG2base⟩
      · rw [hPRE]; simp
      · intro c hc
        rcases List.mem_append.mp hc with h1 | h1
        · intro hor
          rcases hor with rfl | rfl
          · exact hPREq _ h1 rfl
          · have := hP _ h1
            simp at this
        · exact hall c h1
    | cons d dr =>
      have hdf : (!(d == '"' || d == '?')) = false := dropWhile_head_false _ _ _ _ hdA
      have hdor : d = '"' ∨ d = '?' := pred_not_or hdf
      have hAsp : Am ++ c₀m :: S4m
          = (Am ++ c₀m :: S4m).takeWhile (fun c => !(c == '"' || c == '?')) ++ d :: dr := by
        conv_lhs => rw [← List.takeWhile_append_dropWhile
          (p := fun c => !(c == '"' || c == '?')) (l := Am ++ c₀m :: S4m)]
        rw [hdA]
      have hdrA : ∀ x ∈ dr, x ∈ Am ++ c₀m :: S4m := by
        intro x hx
        rw [hAsp]
        simp [hx]
      have hVne : PRE ++ (Am ++ c₀m :: S4m).takeWhile (fun c => !(c == '"' || c == '?'))
          ≠ [] := by
        rw [hPRE]; simp
      have hVpred : ∀ c ∈ PRE ++ (Am ++ c₀m :: S4m).takeWhile
          (fun c => !(c == '"' || c == '?')), ¬(c = '"' ∨ c = '?') := by
        intro c hc
        rcases List.mem_append.mp hc with h1 | h1
        · exact vidpred_mem (hP _ h1)
        · have hpc := List.mem_takeWhile_imp h1
          exact vidpred_mem hpc
      rcases hdor with rfl | rfl
      · -- first stop is a quote: empty extra run, quote consumed there
        refine ⟨PRE ++ (Am ++ c₀m :: S4m).takeWhile (fun c => !(c == '"' || c == '?')),
          [], dr ++ '"' :: (hpm ++ (ytm ++ v1a)), ?_, hVne, hVpred, by simp,
          Or.inl rfl, ?_⟩
        · have hL : PRE ++ (Am ++ c₀m :: (S4m ++ '"' ::
              (hpm ++ (ytm ++ ((v1a ++ '>' :: v1b) ++ TAIL)))))
              = (PRE ++ (Am ++ c₀m :: S4m)) ++ '"' ::
                (hpm ++ (ytm ++ ((v1a ++ '>' :: v1b) ++ TAIL))) := by simp
          rw [hL]
          conv_lhs => rw [hAsp]
          simp
        · intro x hx
          rcases List.mem_append.mp hx with h1 | h1
          · exact hAMCg x (hdrA x h1)
          · rcases List.mem_cons.mp h1 with rfl | h2
            · exact (by decide : ('"' : Char) ≠ '>')
            · exact hG2base x h2
      · -- first stop is a query mark: scan its quote-free continuation
        cases hdd : dr.dropWhile (fun c => !(c == '"')) with
        | nil =>
          have hdrq : ∀ c ∈ dr, c ≠ '"' := by
            intro c hc
            have hsp := List.takeWhile_append_dropWhile
              (p := fun c => !(c == '"')) (l := dr)
            rw [hdd, List.append_nil] at hsp
            have hmem : c ∈ dr.takeWhile (fun c => !(c == '"')) := by
              rw [hsp]; exact hc
            have hpc := List.mem_takeWhile_imp hmem
            exact qpred_mem hpc
          refine ⟨PRE ++ (Am ++ c₀m :: S4m).takeWhile (fun c => !(c == '"' || c == '?')),
            '?' :: dr, hpm ++ (ytm ++ v1a), ?_, hVne, hVpred, ?_, Or.inr ⟨dr, rfl⟩,
            hG2base⟩
          · have hL : PRE ++ (Am ++ c₀m :: (S4m ++ '"' ::
                (hpm ++ (ytm ++ ((v1a ++ '>' :: v1b) ++ TAIL)))))
                = (PRE ++ (Am ++ c₀m :: S4m)) ++ '"' ::
                  (hpm ++ (ytm ++ ((v1a ++ '>' :: v1b) ++ TAIL))) := by simp
            rw [hL]
            conv_lhs => rw [hAsp]
            simp
          · intro c hc
            rcases List.mem_cons.mp hc with rfl | h2
            · exact (by decide : ('?' : Char) ≠ '"')
            · exact hdrq c h2
        | cons e er =>
          have hef : (!(e == '"')) = false := dropWhile_head_false _ _ _ _ hdd
          have he : e = '"' := pred_not_q hef
          subst he
          have hdsp : dr = dr.takeWhile (fun c => !(c == '"')) ++ '"' :: er := by
            conv_lhs => rw [← List.takeWhile_append_dropWhile
              (p := fun c => !(c == '"')) (l := dr)]
            rw [hdd]
          have herA : ∀ x ∈ er, x ∈ Am ++ c₀m :: S4m := by
            intro x hx
            exact hdrA x (by rw [hdsp]; simp [hx])
          refine ⟨PRE ++ (Am ++ c₀m :: S4m).takeWhile (fun c => !(c == '"' || c == '?')),
            '?' :: dr.takeWhile (fun c => !(c == '"')),
            er ++ '"' :: (hpm ++ (ytm ++ v1a)), ?_, hVne, hVpred, ?_,
            Or.inr ⟨_, rfl⟩, ?_⟩
          · have hL : PRE ++ (Am ++ c₀m :: (S4m ++ '"' ::
                (hpm ++ (ytm ++ ((v1a ++ '>' :: v1b) ++ TAIL)))))
                = (PRE ++ (Am ++ c₀m :: S4m)) ++ '"' ::
                  (hpm ++ (ytm ++ ((v1a ++ '>' :: v1b) ++ TAIL))) := by simp
            rw [hL]
            conv_lhs => rw [hAsp]
            conv_lhs => rw [hdsp]
            simp
          · intro c hc
            rcases List.mem_cons.mp hc with rfl | h2
            · exact (by decide : ('?' : Char) ≠ '"')
            · have hpc := List.mem_takeWhile_imp h2
              exact qpred_mem hpc
          · intro x hx
            rcases List.mem_append.mp hx with h1 | h1
            · exact hAMCg x (herA x h1)
            · rcases List.mem_cons.mp h1 with rfl | h2
              · exact (by decide : ('"' : Char) ≠ '>')
              · exact hG2base x h2
  · -- a query mark occurs before the embed's own attributes
    cases hPd : PRE.dropWhile (fun c => !(c == '"' || c == '?')) with
    | nil =>
      exfalso
      apply hP
      intro c hc
      have hsp := List.takeWhile_append_dropWhile
        (p := fun c => !(c == '"' || c == '?')) (l := PRE)
      rw [hPd, List.append_nil] at hsp
      have hmem : c ∈ PRE.takeWhile (fun c => !(c == '"' || c == '?')) := by
        rw [hsp]; exact hc
      have hpc := List.mem_takeWhile_imp hmem
      exact hpc
    | cons d pr =>
      have hdf : (!(d == '"' || d == '?')) = false := dropWhile_head_false _ _ _ _ hPd
      have hdP : d ∈ PRE := by
        have hsp := List.takeWhile_append_dropWhile
          (p := fun c => !(c == '"' || c == '?')) (l := PRE)
        rw [hPd] at hsp
        rw [← hsp]
        simp
      have hd : d = '?' := by
        rcases pred_not_or hdf with rfl | rfl
        · exact absurd rfl (hPREq _ hdP)
        · rfl
      subst hd
      have hPsp : PRE = PRE.takeWhile (fun c => !(c == '"' || c == '?')) ++ '?' :: pr := by
        conv_lhs => rw [← List.takeWhile_append_dropWhile
          (p := fun c => !(c == '"' || c == '?')) (l := PRE)]
        rw [hPd]
      have hprP : ∀ x ∈ pr, x ∈ PRE := by
        intro x hx
        rw [hPsp]
        simp [hx]
      have hVne : PRE.takeWhile (fun c => !(c == '"' || c == '?')) ≠ [] := by
        intro h0
        rw [h0, List.nil_append, hPRE] at hPsp
        injection hPsp with h1 _
        exact hpcp (Or.inr h1)
      have hVpred : ∀ c ∈ PRE.takeWhile (fun c => !(c == '"' || c == '?')),
          ¬(c = '"' ∨ c = '?') := by
        intro c hc
        have hpc := List.mem_takeWhile_imp hc
        exact vidpred_mem hpc
      have hprq : ∀ c ∈ pr, (!(c == '"')) = true := by
        intro c hc
        cases hx : (c == '"') with
        | false => rfl
        | true => exact absurd (eq_of_beq hx) (hPREq c (hprP c hc))
      have hdde : (pr ++ (Am ++ c₀m :: S4m)).dropWhile (fun c => !(c == '"'))
          = (Am ++ c₀m :: S4m).dropWhile (fun c => !(c == '"')) :=
        dropWhile_append_all _ pr _ hprq
    -- continue by scanning for the first quote past the query mark
      cases hdd : (Am ++ c₀m :: S4m).dropWhile (fun c => !(c == '"')) with
      | nil =>
        have hallq : ∀ c ∈ Am ++ c₀m :: S4m, c ≠ '"' := by
          intro c hc
          have hsp := List.takeWhile_append_dropWhile
            (p := fun c => !(c == '"')) (l := Am ++ c₀m :: S4m)
          rw [hdd, List.append_nil] at hsp
          have hmem : c ∈ (Am ++ c₀m :: S4m).takeWhile (fun c => !(c == '"')) := by
            rw [hsp]; exact hc
          have hpc := List.mem_takeWhile_imp hmem
          exact qpred_mem hpc
        refine ⟨PRE.takeWhile (fun c => !(c == '"' || c == '?')),
          '?' :: (pr ++ (Am ++ c₀m :: S4m)), hpm ++ (ytm ++ v1a), ?_, hVne, hVpred,
          ?_, Or.inr ⟨_, rfl⟩, hG2base⟩
        · have hL : PRE ++ (Am ++ c₀m :: (S4m ++ '"' ::
              (hpm ++ (ytm ++ ((v1a ++ '>' :: v1b) ++ TAIL)))))
              = (PRE ++ (Am ++ c₀m :: S4m)) ++ '"' ::
                (hpm ++ (ytm ++ ((v1a ++ '>' :: v1b) ++ TAIL))) := by simp
          rw [hL]
          conv_lhs => rw [hPsp]
          simp
        · intro c hc
          rcases List.mem_cons.mp hc with rfl | h2
          · exact (by decide : ('?' : Char) ≠ '"')
          · rcases List.mem_append.mp h2 with h3 | h3
            · exact hPREq c (hprP c h3)
            · exact hallq c h3
      | cons e er =>
        have hef : (!(e == '"')) = false := dropWhile_head_false _ _ _ _ hdd
        have he : e = '"' := pred_not_q hef
        subst he
        have hdsp : Am ++ c₀m :: S4m
            = (Am ++ c₀m :: S4m).takeWhile (fun c => !(c == '"')) ++ '"' :: er := by
          conv_lhs => rw [← List.takeWhile_append_dropWhile
            (p := fun c => !(c == '"')) (l := Am ++ c₀m :: S4m)]
          rw [hdd]
        have herA : ∀ x ∈ er, x ∈ Am ++ c₀m :: S4m := by
          intro x hx
          rw [hdsp]
          simp [hx]
        refine ⟨PRE.takeWhile (fun c => !(c == '"' || c == '?')),
          '?' :: (pr ++ (Am ++ c₀m :: S4m).takeWhile (fun c => !(c == '"'))),
          er ++ '"' :: (hpm ++ (ytm ++ v1a)), ?_, hVne, hVpred, ?_,
          Or.inr ⟨_, rfl⟩, ?_⟩
        · have hL : PRE ++ (Am ++ c₀m :: (S4m ++ '"' ::
              (hpm ++ (ytm ++ ((v1a ++ '>' :: v1b) ++ TAIL)))))
              = (PRE ++ (Am ++ c₀m :: S4m)) ++ '"' ::
                (hpm ++ (ytm ++ ((v1a ++ '>' :: v1b) ++ TAIL))) := by simp
          rw [hL]
          conv_lhs => rw [hPsp]
          conv_lhs => rw [hdsp]
          simp
        · intro c hc
          rcases List.mem_cons.mp hc with rfl | h2
          · exact (by decide : ('?' : Char) ≠ '"')
          · rcases List.mem_append.mp h2 with h3 | h3
            · exact hPREq c (hprP c h3)
            · have hpc := List.mem_takeWhile_imp h3
              exact qpred_mem hpc
        · intro x hx
          rcases List.mem_append.mp hx with h1 | h1
          · exact hAMCg x (herA x h1)
          · rcases List.mem_cons.mp h1 with rfl | h2
            · exact (by decide : ('"' : Char) ≠ '>')
            · exact hG2base x h2

/-- An embed match rebuilt from a complete set of certified segments never
fails, whatever follows the closing tag. -/
theorem pass1_rebuild (I7 A S4 hp yt v ext g2 f9 z : Str) (c₀ : Char)
    (hI7l : I7.length = 7) (hI7ci : ciStartsWith I7 "<iframe".toList = true)
    (hA : ∀ x ∈ A, x ≠ '>') (hws : jsWsChar c₀ = true)
    (hS4l : S4.length = 4) (hS4ci : ciStartsWith S4 "src=".toList = true)
    (hhp : (hp.length = 8 ∧ ciStartsWith hp "https://".toList = true) ∨
           (hp.length = 7 ∧ ciStartsWith hp "http://".toList = true))
    (hyt : (yt.length = 22 ∧ ciStartsWith yt "www.youtube.com/embed/".toList = true) ∨
           (yt.length = 18 ∧ ciStartsWith yt "youtube.com/embed/".toList = true))
    (hv : v ≠ []) (hvp : ∀ c ∈ v, ¬(c = '"' ∨ c = '?'))
    (hext : ∀ c ∈ ext, c ≠ '"') (hexth : ext = [] ∨ ∃ es, ext = '?' :: es)
    (hg2 : ∀ c ∈ g2, c ≠ '>') (hf9l : f9.length = 9)
    (hf9 : ciStartsWith f9 "</iframe>".toList = true) :
    matchIframeAt (I7 ++ (A ++ c₀ :: (S4 ++ '"' ::
      (hp ++ (yt ++ (v ++ (ext ++ '"' :: (g2 ++ '>' :: (f9 ++ z))))))))) ≠ none := by
  apply matchIframeAt_build I7 A S4 _ c₀ hI7l hI7ci hA hws hS4l hS4ci
  rw [ytUrlMatch_build hp yt v ext g2 f9 z hhp hyt hv hvp hext hexth hg2 hf9l hf9]
  simp

/-- Pinning the character of a fixed-length case-insensitive segment at the
offset where a split lands. -/
theorem ci_seg_head_pin (LIT seg yEk u : Str) (q : Char)
    (hci : ciStartsWith seg LIT = true) (hl : seg.length = LIT.length)
    (hsp : seg = yEk ++ q :: u) :
    yEk.length < LIT.length ∧ ciEq q (LIT.getD yEk.length 'x') = true := by
  have hlt : yEk.length < LIT.length := by
    have hle := congrArg List.length hsp
    simp at hle
    omega
  obtain ⟨d, t, hdt, hd⟩ := ciStartsWith_get LIT seg yEk (q :: u) hci hsp hlt
  injection hdt with h1 _
  rw [← h1] at hd
  exact ⟨hlt, hd⟩

/-- No-match transfer across the rewrite: if the scanner found nothing at a
position strictly before a recognized embed, then after the embed is
replaced by its link, the same position still matches nothing. -/
theorem no_match_transfer
    (yE R T' vid title : Str)
    (I7m Am S4m hpm ytm extm g2m f9m : Str) (c₀m : Char)
    (hyEne : yE ≠ [])
    (hnone : matchIframeAt (yE ++ (I7m ++ (Am ++ c₀m :: (S4m ++ '"' ::
        (hpm ++ (ytm ++ (vid ++ (extm ++ '"' ::
          (g2m ++ '>' :: (f9m ++ R)))))))))) = none)
    (hI7l : I7m.length = 7) (hI7ci : ciStartsWith I7m "<iframe".toList = true)
    (hAm : ∀ x ∈ Am, x ≠ '>') (hwsm : jsWsChar c₀m = true)
    (hS4l : S4m.length = 4) (hS4ci : ciStartsWith S4m "src=".toList = true)
    (hhpm : (hpm.length = 8 ∧ ciStartsWith hpm "https://".toList = true) ∨
            (hpm.length = 7 ∧ ciStartsWith hpm "http://".toList = true))
    (hytm : (ytm.length = 22 ∧ ciStartsWith ytm "www.youtube.com/embed/".toList = true) ∨
            (ytm.length = 18 ∧ ciStartsWith ytm "youtube.com/embed/".toList = true))
    (htg : '>' ∉ title) :
    matchIframeAt (yE ++ (ytReplacement vid title ++ T')) = none := by
  cases hM : matchIframeAt (yE ++ (ytReplacement vid title ++ T')) with
  | none => rfl
  | some res =>
    exfalso
    obtain ⟨v', r'⟩ := res
    obtain ⟨I7', A', c₀', S4', hp', yt', ext', g2', f9', hEQ, hI7l', hI7ci', hA',
      hws', hS4l', hS4ci', hhp', hyt', hvne', hvq', hexq', hexh', hg2', hf9l',
      hf9ci'⟩ := matchIframeAt_decomp _ _ _ hM
    have hRfull : ytReplacement vid title ++ T'
        = "<p><a href=\"https://www.youtube.com/watch?v=".toList ++
          (vid ++ ('"' :: '>' :: (title ++ (" (YouTube)</a".toList ++ '>' ::
            ("</p>".toList ++ T'))))) := by
      unfold ytReplacement
      rw [show "\">".toList = '"' :: '>' :: [] from by decide,
        show " (YouTube)</a></p>".toList
          = " (YouTube)</a".toList ++ '>' :: "</p>".toList from by decide]
      simp
    have hRcons : ytReplacement vid title ++ T'
        = '<' :: 'p' :: '>' :: ("<a href=\"https://www.youtube.com/watch?v=".toList ++
          (vid ++ ('"' :: '>' :: (title ++ (" (YouTube)</a".toList ++ '>' ::
            ("</p>".toList ++ T')))))) := by
      rw [hRfull, show "<p><a href=\"https://www.youtube.com/watch?v=".toList
        = '<' :: 'p' :: '>' :: "<a href=\"https://www.youtube.com/watch?v=".toList
        from by decide]
      simp
    have hR11 : ytReplacement vid title ++ T'
        = "<p><a href=".toList ++ '"' ::
          ("https://www.youtube.com/watch?v=".toList ++
            (vid ++ ('"' :: '>' :: (title ++ (" (YouTube)</a".toList ++ '>' ::
              ("</p>".toList ++ T')))))) := by
      rw [hRfull, show "<p><a href=\"https://www.youtube.com/watch?v=".toList
        = "<p><a href=".toList ++ '"' :: "https://www.youtube.com/watch?v=".toList
        from by decide]
      simp
    -- stage 1: peel the iframe head literal
    have hst1 : ∃ yE1, yE = I7' ++ yE1 ∧
        yE1 ++ (ytReplacement vid title ++ T') = A' ++ c₀' :: (S4' ++ '"' ::
          (hp' ++ (yt' ++ (v' ++ (ext' ++ '"' ::
            (g2' ++ '>' :: (f9' ++ r'))))))) := by
      rcases List.append_eq_append_iff.mp hEQ with ⟨u1, hu11, hu12⟩ | ⟨u1, hu11, hu12⟩
      · cases u1 with
        | nil =>
          rw [List.append_nil] at hu11
          rw [List.nil_append] at hu12
          exact ⟨[], by rw [List.append_nil]; exact hu11.symm,
            by rw [List.nil_append]; exact hu12⟩
        | cons q qs =>
          exfalso
          rw [List.cons_append, hRcons] at hu12
          injection hu12 with hq _
          obtain ⟨hlt, hpin⟩ := ci_seg_head_pin "<iframe".toList I7' yE qs q hI7ci'
            (by rw [hI7l']; decide) hu11
          rw [← hq] at hpin
          have hfa : ∀ j, j < 7 → 1 ≤ j →
              ciEq '<' ("<iframe".toList.getD j 'x') = false := by decide
          have hyl : 1 ≤ yE.length := by
            cases yE with
            | nil => exact absurd rfl hyEne
            | cons a as => simp
          rw [hfa yE.length
            (by rw [show ("<iframe".toList).length = 7 from by decide] at hlt; exact hlt)
            hyl] at hpin
          exact absurd hpin (by simp)
      · exact ⟨u1, hu11, hu12.symm⟩
    obtain ⟨yE1, hacc1, heq1⟩ := hst1
    -- stage 2: peel the attribute run before the whitespace
    have hst2 : ∃ yE2, yE1 = A' ++ yE2 ∧
        yE2 ++ (ytReplacement vid title ++ T') = c₀' :: (S4' ++ '"' ::
          (hp' ++ (yt' ++ (v' ++ (ext' ++ '"' ::
            (g2' ++ '>' :: (f9' ++ r'))))))) := by
      rcases List.append_eq_append_iff.mp heq1 with ⟨u, hu1, hu2⟩ | ⟨u, hu1, hu2⟩
      · cases u with
        | nil =>
          rw [List.append_nil] at hu1
          rw [List.nil_append] at hu2
          exact ⟨[], by rw [List.append_nil]; exact hu1.symm,
            by rw [List.nil_append]; exact hu2⟩
        | cons q qs =>
          exfalso
          rw [List.cons_append, hRcons] at hu2
          injection hu2 with hq hrest
          cases qs with
          | nil =>
            rw [List.nil_append] at hrest
            injection hrest with hc _
            rw [← hc] at hws'
            exact absurd hws' (by decide)
          | cons q2 qs2 =>
            rw [List.cons_append] at hrest
            injection hrest with hq2 hrest2
            cases qs2 with
            | nil =>
              rw [List.nil_append] at hrest2
              injection hrest2 with hc _
              rw [← hc] at hws'
              exact absurd hws' (by decide)
            | cons q3 qs3 =>
              rw [List.cons_append] at hrest2
              injection hrest2 with hq3 _
              refine hA' '>' ?_ rfl
              rw [hu1, ← hq3]
              simp
      · exact ⟨u, hu1, hu2.symm⟩
    obtain ⟨yE2, hacc2, heq2⟩ := hst2
    -- stage 3: peel the whitespace character
    have hst3 : ∃ yE3, yE2 = c₀' :: yE3 ∧
        yE3 ++ (ytReplacement vid title ++ T') = S4' ++ '"' ::
          (hp' ++ (yt' ++ (v' ++ (ext' ++ '"' ::
            (g2' ++ '>' :: (f9' ++ r')))))) := by
      cases yE2 with
      | nil =>
        exfalso
        rw [List.nil_append, hRcons] at heq2
        injection heq2 with hc _
        rw [← hc] at hws'
        exact absurd hws' (by decide)
      | cons e yE3 =>
        rw [List.cons_append] at heq2
        injection heq2 with he hrest
        exact ⟨yE3, by rw [he], hrest⟩
    obtain ⟨yE3, hacc3, heq3⟩ := hst3
    -- stage 4: peel the src attribute name
    have hst4 : ∃ yE4, yE3 = S4' ++ yE4 ∧
        yE4 ++ (ytReplacement vid title ++ T') = '"' ::
          (hp' ++ (yt' ++ (v' ++ (ext' ++ '"' ::
            (g2' ++ '>' :: (f9' ++ r')))))) := by
      rcases List.append_eq_append_iff.mp heq3 with ⟨u, hu1, hu2⟩ | ⟨u, hu1, hu2⟩
      · cases u with
        | nil =>
          rw [List.append_nil] at hu1
          rw [List.nil_append] at hu2
          exact ⟨[], by rw [List.append_nil]; exact hu1.symm,
            by rw [List.nil_append]; exact hu2⟩
        | cons q qs =>
          exfalso
          rw [List.cons_append, hRcons] at hu2
          injection hu2 with hq _
          obtain ⟨hlt, hpin⟩ := ci_seg_head_pin "src=".toList S4' yE3 qs q hS4ci'
            (by rw [hS4l']; decide) hu1
          rw [← hq] at hpin
          have hfa : ∀ j, j < 4 →
              ciEq '<' ("src=".toList.getD j 'x') = false := by decide
          rw [hfa yE3.length
            (by rw [show ("src=".toList).length = 4 from by decide] at hlt; exact hlt)]
            at hpin
          exact absurd hpin (by simp)
      · exact ⟨u, hu1, hu2.symm⟩
    obtain ⟨yE4, hacc4, heq4⟩ := hst4
    -- stage 5: peel the opening quote of the source attribute
    have hst5 : ∃ yE5, yE4 = '"' :: yE5 ∧
        yE5 ++ (ytReplacement vid title ++ T') =
          hp' ++ (yt' ++ (v' ++ (ext' ++ '"' ::
            (g2' ++ '>' :: (f9' ++ r'))))) := by
      cases yE4 with
      | nil =>
        exfalso
        rw [List.nil_append, hRcons] at heq4
        injection heq4 with hc _
        exact absurd hc (by decide)
      | cons e yE5 =>
        rw [List.cons_append] at heq4
        injection heq4 with he hrest
        exact ⟨yE5, by rw [he], hrest⟩
    obtain ⟨yE5, hacc5, heq5⟩ := hst5
    -- stage 6: peel the scheme
    have hst6 : ∃ yE6, yE5 = hp' ++ yE6 ∧
        yE6 ++ (ytReplacement vid title ++ T') =
          yt' ++ (v' ++ (ext' ++ '"' :: (g2' ++ '>' :: (f9' ++ r')))) := by
      rcases List.append_eq_append_iff.mp heq5 with ⟨u, hu1, hu2⟩ | ⟨u, hu1, hu2⟩
      · cases u with
        | nil =>
          rw [List.append_nil] at hu1
          rw [List.nil_append] at hu2
          exact ⟨[], by rw [List.append_nil]; exact hu1.symm,
            by rw [List.nil_append]; exact hu2⟩
        | cons q qs =>
          exfalso
          rw [List.cons_append, hRcons] at hu2
          injection hu2 with hq _
          rcases hhp' with ⟨hl, hc⟩ | ⟨hl, hc⟩
          · obtain ⟨hlt, hpin⟩ := ci_seg_head_pin "https://".toList hp' yE5 qs q hc
              (by rw [hl]; decide) hu1
            rw [← hq] at hpin
            have hfa : ∀ j, j < 8 →
                ciEq '<' ("https://".toList.getD j 'x') = false := by decide
            rw [hfa yE5.length
              (by rw [show ("https://".toList).length = 8 from by decide] at hlt
                  exact hlt)] at hpin
            exact absurd hpin (by simp)
          · obtain ⟨hlt, hpin⟩ := ci_seg_head_pin "http://".toList hp' yE5 qs q hc
              (by rw [hl]; decide) hu1
            rw [← hq] at hpin
            have hfa : ∀ j, j < 7 →
                ciEq '<' ("http://".toList.getD j 'x') = false := by decide
            rw [hfa yE5.length
              (by rw [show ("http://".toList).length = 7 from by decide] at hlt
                  exact hlt)] at hpin
            exact absurd hpin (by simp)
      · exact ⟨u, hu1, hu2.symm⟩
    obtain ⟨yE6, hacc6, heq6⟩ := hst6
    -- stage 7: peel the embed host path
    have hst7 : ∃ yE7, yE6 = yt' ++ yE7 ∧
        yE7 ++ (ytReplacement vid title ++ T') =
          v' ++ (ext' ++ '"' :: (g2' ++ '>' :: (f9' ++ r'))) := by
      rcases List.append_eq_append_iff.mp heq6 with ⟨u, hu1, hu2⟩ | ⟨u, hu1, hu2⟩
      · cases u with
        | nil =>
          rw [List.append_nil] at hu1
          rw [List.nil_append] at hu2
          exact ⟨[], by rw [List.append_nil]; exact hu1.symm,
            by rw [List.nil_append]; exact hu2⟩
        | cons q qs =>
          exfalso
          rw [List.cons_append, hRcons] at hu2
          injection hu2 with hq _
          rcases hyt' with ⟨hl, hc⟩ | ⟨hl, hc⟩
          · obtain ⟨hlt, hpin⟩ := ci_seg_head_pin "www.youtube.com/embed/".toList
              yt' yE6 qs q hc (by rw [hl]; decide) hu1
            rw [← hq] at hpin
            have hfa : ∀ j, j < 22 →
                ciEq '<' ("www.youtube.com/embed/".toList.getD j 'x') = false := by
              decide
            rw [hfa yE6.length
              (by rw [show ("www.youtube.com/embed/".toList).length = 22 from by decide]
                    at hlt
                  exact hlt)] at hpin
            exact absurd hpin (by simp)
          · obtain ⟨hlt, hpin⟩ := ci_seg_head_pin "youtube.com/embed/".toList
              yt' yE6 qs q hc (by rw [hl]; decide) hu1
            rw [← hq] at hpin
            have hfa : ∀ j, j < 18 →
                ciEq '<' ("youtube.com/embed/".toList.getD j 'x') = false := by
              decide
            rw [hfa yE6.length
              (by rw [show ("youtube.com/embed/".toList).length = 18 from by decide]
                    at hlt
                  exact hlt)] at hpin
            exact absurd hpin (by simp)
      · exact ⟨u, hu1, hu2.symm⟩
    obtain ⟨yE7, hacc7, heq7⟩ := hst7
    -- accumulated structure of the scanned prefix
    have hyEacc : yE = I7' ++ (A' ++ c₀' :: (S4' ++ '"' ::
        (hp' ++ (yt' ++ yE7)))) := by
      rw [hacc1, hacc2, hacc3, hacc4, hacc5, hacc6, hacc7]
    -- derived freeness facts of the known embed's segments
    have hI7mq : '"' ∉ I7m := not_mem_of_ci "<iframe".toList I7m '"' hI7ci
      (by rw [hI7l]; rfl) (by decide)
    have hS4g : ∀ x ∈ S4m, x ≠ '>' := by
      intro x hx
      have hn : '>' ∉ S4m := not_mem_of_ci "src=".toList S4m '>' hS4ci
        (by rw [hS4l]; rfl) (by decide)
      intro he
      exact hn (he ▸ hx)
    have hhpg : ∀ x ∈ hpm, x ≠ '>' := by
      intro x hx he
      rcases hhpm with ⟨hl, hc⟩ | ⟨hl, hc⟩
      · exact not_mem_of_ci "https://".toList hpm '>' hc (by rw [hl]; rfl)
          (by decide) (he ▸ hx)
      · exact not_mem_of_ci "http://".toList hpm '>' hc (by rw [hl]; rfl)
          (by decide) (he ▸ hx)
    have hytg : ∀ x ∈ ytm, x ≠ '>' := by
      intro x hx he
      rcases hytm with ⟨hl, hc⟩ | ⟨hl, hc⟩
      · exact not_mem_of_ci "www.youtube.com/embed/".toList ytm '>' hc
          (by rw [hl]; rfl) (by decide) (he ▸ hx)
      · exact not_mem_of_ci "youtube.com/embed/".toList ytm '>' hc
          (by rw [hl]; rfl) (by decide) (he ▸ hx)
    have hvextq : ∀ x ∈ v' ++ ext', x ≠ '"' := by
      intro x hx
      rcases List.mem_append.mp hx with h1 | h1
      · exact fun he => (hvq' x h1) (Or.inl he)
      · exact hexq' x h1
    -- stage 8: the video id and extra-run region
    have heq8 : yE7 ++ (ytReplacement vid title ++ T')
        = (v' ++ ext') ++ '"' :: (g2' ++ '>' :: (f9' ++ r')) := by
      rw [heq7]
      simp
    rcases List.append_eq_append_iff.mp heq8 with ⟨u8, hu81, hu82⟩ | ⟨u8, hu81, hu82⟩
    · -- the closing quote of the match is the href quote of the link
      have hu8q : '"' ∉ u8 := by
        intro hm
        exact hvextq '"' (by rw [hu81]; simp [hm]) rfl
      have hyE7q : ∀ x ∈ yE7, x ≠ '"' := by
        intro x hx
        exact hvextq x (by rw [hu81]; simp [hx])
      rw [hR11] at hu82
      obtain ⟨hu8e, hAR⟩ := first_char_align '"' "<p><a href=".toList
        ("https://www.youtube.com/watch?v=".toList ++
          (vid ++ ('"' :: '>' :: (title ++ (" (YouTube)</a".toList ++ '>' ::
            ("</p>".toList ++ T'))))))
        u8 (g2' ++ '>' :: (f9' ++ r')) hu82 (by decide) hu8q
      rcases char_first_split '>' vid with ⟨v1a, v1b, hvsp, hv1a⟩ | hvg
      · -- the id contains a closing bracket: rebuild the original match
        have hT : (("https://www.youtube.com/watch?v=".toList ++ v1a) ++ '>' ::
            (v1b ++ ('"' :: '>' :: (title ++ (" (YouTube)</a".toList ++ '>' ::
              ("</p>".toList ++ T'))))))
            = g2' ++ '>' :: (f9' ++ r') := by
        -- reassociate the aligned tail at the id's first bracket
          rw [← hAR, hvsp]
          simp
        obtain ⟨hg2e, hfr⟩ := first_char_align '>'
          ("https://www.youtube.com/watch?v=".toList ++ v1a)
          (v1b ++ ('"' :: '>' :: (title ++ (" (YouTube)</a".toList ++ '>' ::
            ("</p>".toList ++ T')))))
          g2' (f9' ++ r') hT
          (by
            intro hm
            rcases List.mem_append.mp hm with h1 | h1
            · exact absurd h1 (by decide)
            · exact hv1a h1)
          (fun hm => hg2' '>' hm rfl)
        obtain ⟨hv1bl, hv1bci⟩ := f9_quote_bound v1b f9' r'
          ('>' :: (title ++ (" (YouTube)</a".toList ++ '>' ::
            ("</p>".toList ++ T')))) hf9l' hf9ci' hfr.symm
        -- head of the rebuilt id region
        have hPREq2 : ∀ c ∈ yE7 ++ I7m, c ≠ '"' := by
          intro c hc
          rcases List.mem_append.mp hc with h1 | h1
          · exact hyE7q c h1
          · exact fun he => hI7mq (he ▸ h1)
        have hPREh2 : ∃ p ps, yE7 ++ I7m = p :: ps ∧ ¬(p = '"' ∨ p = '?') := by
          cases hyE7c : yE7 with
          | nil =>
            cases hI7c : I7m with
            | nil => rw [hI7c] at hI7l; simp at hI7l
            | cons i0 irest =>
              refine ⟨i0, irest, by simp, ?_⟩
              have hci0 : ciEq i0 '<' = true := by
                have hx := hI7ci
                rw [hI7c, show "<iframe".toList = '<' :: "iframe".toList
                  from by decide] at hx
                simp only [ciStartsWith, Bool.and_eq_true] at hx
                exact hx.1
              have : i0 = '<' := ciEq_pin '<' hci0 (by decide) (by decide)
              subst this
              decide
          | cons p0 ps0 =>
            refine ⟨p0, ps0 ++ I7m, by simp, ?_⟩
            have hp0 : p0 ∈ v' := by
              cases hvc : v' with
              | nil => exact absurd hvc hvne'
              | cons q0 v0 =>
                rw [hvc, hyE7c, List.cons_append, List.cons_append] at hu81
                injection hu81 with hhd _
                rw [hhd]
                simp
            exact hvq' p0 hp0
        obtain ⟨VID, EXT, G2, hsh, hVne, hVp, hEq, hEh, hG2g⟩ :=
          embed_tail_shape (yE7 ++ I7m) Am S4m hpm ytm v1a v1b
            (extm ++ '"' :: (g2m ++ '>' :: (f9m ++ R))) c₀m
            hPREq2 hPREh2 hAm (jsWsChar_ne_gt hwsm) hS4g hhpg hytg (fun x hx he => hv1a (he ▸ hx))
        have hF9l : (v1b.take 9).length = 9 := by
          rw [List.length_take]
          omega
        have hF9ci : ciStartsWith (v1b.take 9) "</iframe>".toList = true := by
          have hw : (v1b.take 9).take ("</iframe>".toList).length
              = v1b.take ("</iframe>".toList).length := by
            rw [show ("</iframe>".toList).length = 9 from by decide, List.take_take]
            simp
          rw [ciStartsWith_congr "</iframe>".toList _ _ hw]
          exact hv1bci
        have hinner : yE7 ++ (I7m ++ (Am ++ c₀m :: (S4m ++ '"' ::
            (hpm ++ (ytm ++ (vid ++ (extm ++ '"' :: (g2m ++ '>' :: (f9m ++ R)))))))))
            = VID ++ (EXT ++ '"' :: (G2 ++ '>' ::
              (v1b ++ (extm ++ '"' :: (g2m ++ '>' :: (f9m ++ R)))))) := by
          rw [hvsp, ← hsh]
          simp
        have hfuse : (v1b.take 9) ++ ((v1b.drop 9) ++
            (extm ++ '"' :: (g2m ++ '>' :: (f9m ++ R))))
            = v1b ++ (extm ++ '"' :: (g2m ++ '>' :: (f9m ++ R))) := by
          rw [← List.append_assoc, List.take_append_drop]
        have hstr : yE ++ (I7m ++ (Am ++ c₀m :: (S4m ++ '"' ::
            (hpm ++ (ytm ++ (vid ++ (extm ++ '"' ::
              (g2m ++ '>' :: (f9m ++ R)))))))))
            = I7' ++ (A' ++ c₀' :: (S4' ++ '"' :: (hp' ++ (yt' ++
              (VID ++ (EXT ++ '"' :: (G2 ++ '>' :: ((v1b.take 9) ++
                ((v1b.drop 9) ++ (extm ++ '"' ::
                  (g2m ++ '>' :: (f9m ++ R)))))))))))) := by
          conv_rhs => rw [hfuse]
          conv_rhs => rw [← hinner]
          rw [hyEacc]
          simp
        rw [hstr] at hnone
        exact pass1_rebuild I7' A' S4' hp' yt' VID EXT G2 (v1b.take 9)
          ((v1b.drop 9) ++ (extm ++ '"' :: (g2m ++ '>' :: (f9m ++ R)))) c₀'
          hI7l' hI7ci' hA' hws' hS4l' hS4ci' hhp' hyt'
          hVne hVp hEq hEh hG2g hF9l hF9ci hnone
      · -- the id is bracket-free: the closing tag collides with the link text
        have hT : (("https://www.youtube.com/watch?v=".toList ++ (vid ++ ['"'])) ++ '>' ::
            (title ++ (" (YouTube)</a".toList ++ '>' :: ("</p>".toList ++ T'))))
            = g2' ++ '>' :: (f9' ++ r') := by
          rw [← hAR]
          simp
        obtain ⟨hg2e, hfr⟩ := first_char_align '>'
          ("https://www.youtube.com/watch?v=".toList ++ (vid ++ ['"']))
          (title ++ (" (YouTube)</a".toList ++ '>' :: ("</p>".toList ++ T')))
          g2' (f9' ++ r') hT
          (by
            intro hm
            rcases List.mem_append.mp hm with h1 | h1
            · exact absurd h1 (by decide)
            · rcases List.mem_append.mp h1 with h2 | h2
              · exact hvg h2
              · rcases List.mem_cons.mp h2 with h3 | h3
                · exact absurd h3 (by decide)
                · simp at h3)
          (fun hm => hg2' '>' hm rfl)
        exact f9_title_clash title f9' r'
          ("(YouTube)</a".toList ++ '>' :: ("</p>".toList ++ T')) htg hf9l' hf9ci'
          (by
            rw [← hfr, show " (YouTube)</a".toList
              = ' ' :: "(YouTube)</a".toList from by decide]
            simp)
    · -- the scanned prefix runs past the href quote of the link
      cases u8 with
      | nil =>
        rw [List.nil_append, hRcons] at hu82
        injection hu82 with hq _
        exact absurd hq (by decide)
      | cons q qs =>
        rw [List.cons_append] at hu82
        injection hu82 with hq hrest
        -- stage 11: the bracket-free run of the match
        rcases List.append_eq_append_iff.mp hrest.symm with
          ⟨u11, hu111, hu112⟩ | ⟨u11, hu111, hu112⟩
        · cases u11 with
          | nil =>
            rw [List.nil_append, hRcons] at hu112
            injection hu112 with hgt _
            exact absurd hgt (by decide)
          | cons w1 ws1 =>
            rw [List.cons_append, hRcons] at hu112
            injection hu112 with hw1 hr1
            cases ws1 with
            | nil =>
              rw [List.nil_append] at hr1
              injection hr1 with hp1 _
              exact absurd hp1 (by decide)
            | cons w2 ws2 =>
              rw [List.cons_append] at hr1
              injection hr1 with hw2 hr2
              cases ws2 with
              | nil =>
                rw [List.nil_append] at hr2
                injection hr2 with _ hr3
                -- the closing tag would have to start on the anchor literal
                rw [show "<a href=\"https://www.youtube.com/watch?v=".toList
                  = '<' :: 'a' :: " href=\"https://www.youtube.com/watch?v=".toList
                  from by decide, List.cons_append, List.cons_append] at hr3
                cases hf9c : f9' with
                | nil => rw [hf9c] at hf9l'; simp at hf9l'
                | cons d1 f9a =>
                  rw [hf9c, List.cons_append] at hr3
                  injection hr3 with hd1 hr4
                  cases hf9a : f9a with
                  | nil => rw [hf9c, hf9a] at hf9l'; simp at hf9l'
                  | cons d2 f9b =>
                    rw [hf9a, List.cons_append] at hr4
                    injection hr4 with hd2 _
                    have hcx := hf9ci'
                    rw [hf9c, hf9a, show "</iframe>".toList
                      = '<' :: '/' :: "iframe>".toList from by decide] at hcx
                    simp only [ciStartsWith, Bool.and_eq_true] at hcx
                    rw [← hd2] at hcx
                    exact absurd hcx.2.1 (by decide)
              | cons w3 ws3 =>
                rw [List.cons_append] at hr2
                injection hr2 with hw3 _
                refine hg2' '>' ?_ rfl
                rw [hu111, ← hw3]
                simp
        · -- stage 13: the closing tag region
          cases u11 with
          | nil =>
            rw [List.nil_append, hRcons] at hu112
            injection hu112 with hgt _
            exact absurd hgt (by decide)
          | cons w1 ws1 =>
            rw [List.cons_append] at hu112
            injection hu112 with hw1 hfr2
            -- common full rebuild for any boundary at or past the closing tag
            have hFR : ∀ utail, ws1 = f9' ++ utail → False := by
              intro utail hws1
              have hstr : yE ++ (I7m ++ (Am ++ c₀m :: (S4m ++ '"' ::
                  (hpm ++ (ytm ++ (vid ++ (extm ++ '"' ::
                    (g2m ++ '>' :: (f9m ++ R)))))))))
                  = I7' ++ (A' ++ c₀' :: (S4' ++ '"' :: (hp' ++ (yt' ++
                    (v' ++ (ext' ++ '"' :: (g2' ++ '>' :: (f9' ++
                      (utail ++ (I7m ++ (Am ++ c₀m :: (S4m ++ '"' ::
                        (hpm ++ (ytm ++ (vid ++ (extm ++ '"' ::
                          (g2m ++ '>' :: (f9m ++ R)))))))))))))))))) := by
                rw [hyEacc, hu81, ← hq, hu111, ← hw1, hws1]
                simp
              rw [hstr] at hnone
              exact pass1_rebuild I7' A' S4' hp' yt' v' ext' g2' f9'
                (utail ++ (I7m ++ (Am ++ c₀m :: (S4m ++ '"' ::
                  (hpm ++ (ytm ++ (vid ++ (extm ++ '"' ::
                    (g2m ++ '>' :: (f9m ++ R))))))))))
                c₀' hI7l' hI7ci' hA' hws' hS4l' hS4ci' hhp' hyt'
                hvne' hvq' hexq' hexh' hg2' hf9l' hf9ci' hnone
            rcases List.append_eq_append_iff.mp hfr2.symm with
              ⟨u13, hu131, hu132⟩ | ⟨u13, hu131, hu132⟩
            · cases u13 with
              | nil =>
                rw [List.append_nil] at hu131
                exact hFR [] (by rw [List.append_nil]; exact hu131.symm)
              | cons q13 qs13 =>
                rw [List.cons_append, hRcons] at hu132
                injection hu132 with hq13 hr13
                cases hws1c : ws1 with
                | nil =>
                  rw [hws1c, List.nil_append] at hu131
                  cases qs13 with
                  | nil =>
                    rw [hu131] at hf9l'
                    simp at hf9l'
                  | cons q14 qs14 =>
                    rw [List.cons_append] at hr13
                    injection hr13 with hq14 _
                    have hcx := hf9ci'
                    rw [hu131, ← hq13, ← hq14, show "</iframe>".toList
                      = '<' :: '/' :: "iframe>".toList from by decide] at hcx
                    simp only [ciStartsWith, Bool.and_eq_true] at hcx
                    exact absurd hcx.2.1 (by decide)
                | cons e1 es1 =>
                  obtain ⟨hlt, hpin⟩ := ci_seg_head_pin "</iframe>".toList f9'
                    ws1 qs13 q13 hf9ci' (by rw [hf9l']; decide) hu131
                  rw [← hq13] at hpin
                  have hfa : ∀ j, j < 9 → 1 ≤ j →
                      ciEq '<' ("</iframe>".toList.getD j 'x') = false := by decide
                  have hwl : 1 ≤ ws1.length := by rw [hws1c]; simp
                  rw [hfa ws1.length
                    (by rw [show ("</iframe>".toList).length = 9 from by decide] at hlt
                        exact hlt) hwl] at hpin
                  exact absurd hpin (by simp)
            · exact hFR u13 hu131

end SendToKindle
